import Mathlib

/-!
# Verification of the `eve_combat_parser` core

A shallow embedding, in Lean 4, of the core algorithms of the
`eve_combat_parser` repository (entity parsing, ship-timeline backfill,
fight segmentation, affiliation enrichment, timestamp handling), together
with theorems settling the specification claims about them.

Python strings are modelled as `List Char` (`Str`).  Python's notion of
whitespace (as used by `str.strip()` and the `re` module's `\s` class on
`str` inputs) is modelled by `isPyWs`, covering the ASCII whitespace
characters and the Unicode space characters CPython treats as whitespace.
`str.lower()` is modelled by ASCII lowercasing (`Char.toLower`), which is
faithful on all inputs appearing in the claims.  `datetime` values are
modelled as integers (seconds), except where calendar validation itself
matters (`strptime`, for claim C7), where a full date-time record with
Gregorian validation is used.
-/

namespace EveParser

/-- Python strings, modelled as lists of characters. -/
abbrev Str := List Char

/-- Characters treated as whitespace by Python's `str.strip()` / `\\s`
(on `str`): ASCII whitespace, the C1 separators, NBSP and the Unicode
space/line/paragraph separators. -/
def isPyWs (c : Char) : Bool :=
  c = ' ' ∨ c = '\t' ∨ c = '\n' ∨ c = '\r' ∨ c = '\x0b' ∨ c = '\x0c' ∨
  c = '\x1c' ∨ c = '\x1d' ∨ c = '\x1e' ∨ c = '\x1f' ∨ c = '\x85' ∨
  c = '\u00A0' ∨ c = '\u1680' ∨
  c = '\u2000' ∨ c = '\u2001' ∨ c = '\u2002' ∨ c = '\u2003' ∨ c = '\u2004' ∨
  c = '\u2005' ∨ c = '\u2006' ∨ c = '\u2007' ∨ c = '\u2008' ∨ c = '\u2009' ∨
  c = '\u200A' ∨ c = '\u2028' ∨ c = '\u2029' ∨ c = '\u202F' ∨ c = '\u205F' ∨
  c = '\u3000'

/-- The invisible characters removed by `text.normalize_key`
(the regex `[\\u200B-\\u200D\\uFEFF]`). -/
def isZeroWidth (c : Char) : Bool :=
  c = '\u200B' ∨ c = '\u200C' ∨ c = '\u200D' ∨ c = '\uFEFF'

/-- The non-breaking space, replaced by a plain space in `normalize_key`. -/
def nbsp : Char := '\u00A0'

/-- Python `str.strip()`: remove leading and trailing whitespace. -/
def pstrip (s : Str) : Str :=
  ((s.dropWhile isPyWs).reverse.dropWhile isPyWs).reverse

/-- Collapse every maximal run of whitespace to a single space
(Python `re.sub(r"\\s+", " ", s)`): a whitespace character followed by more
whitespace is dropped, the last of a run becomes `' '`. -/
def collapseWs : Str → Str
  | [] => []
  | [c] => if isPyWs c then [' '] else [c]
  | c :: d :: rest =>
    if isPyWs c then
      if isPyWs d then collapseWs (d :: rest)
      else ' ' :: collapseWs (d :: rest)
    else c :: collapseWs (d :: rest)

/-- The first two steps of `normalize_key`: drop zero-width characters and
normalize NBSP to a plain space. -/
def normPre (s : Str) : Str :=
  (s.filter (fun c => !(isZeroWidth c))).map (fun c => if c = nbsp then ' ' else c)

/-- `text.normalize_key`: drop zero-width characters, normalize NBSP to a
space, collapse whitespace runs, strip. -/
def normKey (s : Str) : Str :=
  pstrip (collapseWs (normPre s))

/-- Python `str.lower()` (ASCII model). -/
def pyLower (s : Str) : Str := s.map Char.toLower

/-- Convenience: the character list of a Lean string literal. -/
def str (s : String) : Str := s.data

/-! ## Blankness lemmas for `pstrip` and `normKey` -/

theorem pstrip_eq_nil_iff (s : Str) : pstrip s = [] ↔ ∀ c ∈ s, isPyWs c := by
  unfold pstrip
  rw [List.reverse_eq_nil_iff, List.dropWhile_eq_nil_iff]
  constructor
  · intro h c hc
    have hsplit : s.takeWhile isPyWs ++ s.dropWhile isPyWs = s :=
      List.takeWhile_append_dropWhile isPyWs s
    rw [← hsplit] at hc
    rcases List.mem_append.mp hc with h1 | h1
    · exact List.mem_takeWhile_imp h1
    · exact h c (List.mem_reverse.mpr h1)
  · intro h c hc
    exact h c ((List.dropWhile_sublist _).subset (List.mem_reverse.mp hc))

theorem pstrip_sublist (s : Str) : List.Sublist (pstrip s) s := by
  unfold pstrip
  have h1 : List.Sublist ((s.dropWhile isPyWs).reverse.dropWhile isPyWs)
      (s.dropWhile isPyWs).reverse := List.dropWhile_sublist _
  have h2 := h1.reverse
  simp only [List.reverse_reverse] at h2
  exact h2.trans (List.dropWhile_sublist _)

theorem pstrip_subset {c : Char} {s : Str} (h : c ∈ pstrip s) : c ∈ s :=
  (pstrip_sublist s).subset h

theorem dropWhile_head?_not {α : Type} {p : α → Bool} {l : List α} {c : α}
    (h : (l.dropWhile p).head? = some c) : p c = false := by
  induction l with
  | nil => simp at h
  | cons a t ih =>
    rw [List.dropWhile_cons] at h
    cases hpa : p a with
    | true => rw [hpa] at h; simp only [if_true] at h; exact ih h
    | false =>
      rw [hpa] at h
      simp only [Bool.false_eq_true, if_false, List.head?_cons, Option.some.injEq] at h
      rwa [← h]

theorem suffix_getLast? {α : Type} {l₁ l₂ : List α} (h : List.IsSuffix l₁ l₂) (hne : l₁ ≠ []) :
    l₁.getLast? = l₂.getLast? := by
  obtain ⟨t, rfl⟩ := h
  rw [List.getLast?_append_of_ne_nil _ hne]

theorem dropWhile_eq_self_of_head? {α : Type} {p : α → Bool} {l : List α}
    (h : ∀ c, l.head? = some c → p c = false) : l.dropWhile p = l := by
  cases l with
  | nil => rfl
  | cons a t => rw [List.dropWhile_cons, h a rfl]; simp

theorem pstrip_getLast?_not_ws {s : Str} {c : Char} (h : (pstrip s).getLast? = some c) :
    isPyWs c = false := by
  unfold pstrip at h
  rw [List.getLast?_reverse] at h
  exact dropWhile_head?_not h

theorem pstrip_head?_not_ws {s : Str} {c : Char} (h : (pstrip s).head? = some c) :
    isPyWs c = false := by
  unfold pstrip at h
  rw [List.head?_reverse] at h
  have hne : (s.dropWhile isPyWs).reverse.dropWhile isPyWs ≠ [] := by
    intro hnil; rw [hnil] at h; simp at h
  rw [suffix_getLast? (List.dropWhile_suffix _) hne, List.getLast?_reverse] at h
  exact dropWhile_head?_not h

/-- A list whose first and last characters are not whitespace is unchanged
by `pstrip`. -/
theorem pstrip_eq_self {s : Str}
    (h1 : ∀ c, s.head? = some c → isPyWs c = false)
    (h2 : ∀ c, s.getLast? = some c → isPyWs c = false) :
    pstrip s = s := by
  unfold pstrip
  rw [dropWhile_eq_self_of_head? h1,
    dropWhile_eq_self_of_head? (fun c hc => h2 c (by rwa [List.head?_reverse] at hc)),
    List.reverse_reverse]

theorem pstrip_idem (s : Str) : pstrip (pstrip s) = pstrip s :=
  pstrip_eq_self (fun _ h => pstrip_head?_not_ws h) (fun _ h => pstrip_getLast?_not_ws h)

theorem dropWhile_append_all {α : Type} {p : α → Bool} {l₁ l₂ : List α}
    (h : ∀ c ∈ l₁, p c) : (l₁ ++ l₂).dropWhile p = l₂.dropWhile p := by
  induction l₁ with
  | nil => simp
  | cons a t ih =>
    rw [List.cons_append, List.dropWhile_cons, h a (List.mem_cons_self a t)]
    exact ih (fun c hc => h c (List.mem_cons_of_mem a hc))

theorem takeWhile_append_all {α : Type} {p : α → Bool} {l₁ l₂ : List α}
    (h : ∀ c ∈ l₁, p c) : (l₁ ++ l₂).takeWhile p = l₁ ++ l₂.takeWhile p := by
  induction l₁ with
  | nil => simp
  | cons a t ih =>
    rw [List.cons_append, List.takeWhile_cons, h a (List.mem_cons_self a t)]
    simp only [List.cons_append, List.cons.injEq, true_and, if_true]
    exact ih (fun c hc => h c (List.mem_cons_of_mem a hc))

theorem dropWhile_cons_neg {α : Type} {p : α → Bool} {a : α} {l : List α}
    (h : p a = false) : (a :: l).dropWhile p = a :: l := by
  rw [List.dropWhile_cons, h]; simp

theorem takeWhile_cons_neg {α : Type} {p : α → Bool} {a : α} {l : List α}
    (h : p a = false) : (a :: l).takeWhile p = [] := by
  rw [List.takeWhile_cons, h]; simp

/-- A character that is neither whitespace nor zero-width; `normalize_key`
keeps at least one of these whenever the input contains one. -/
def goodChar (c : Char) : Bool := !(isPyWs c) && !(isZeroWidth c)

theorem collapseWs_all {q : Char → Bool} (hq : q ' ' = true) :
    ∀ (s : Str), (∀ c ∈ s, q c = true) → ∀ c ∈ collapseWs s, q c = true := by
  intro s
  induction s using collapseWs.induct with
  | case1 => intro _ c hc; simp [collapseWs] at hc
  | case2 a ha =>
    intro _ c hc
    rw [collapseWs] at hc
    simp only [ha, if_true, List.mem_singleton] at hc
    rw [hc]; exact hq
  | case3 a ha =>
    intro hall c hc
    rw [collapseWs] at hc
    rw [Bool.not_eq_true] at ha
    simp only [ha, Bool.false_eq_true, if_false, List.mem_singleton] at hc
    rw [hc]; exact hall a (List.mem_cons_self _ _)
  | case4 a d rest ha hd ih =>
    intro hall c hc
    rw [collapseWs] at hc
    simp only [ha, hd, if_true] at hc
    exact ih (fun x hx => hall x (List.mem_cons_of_mem a hx)) c hc
  | case5 a d rest ha hd ih =>
    intro hall c hc
    rw [collapseWs] at hc
    rw [Bool.not_eq_true] at hd
    simp only [ha, hd, Bool.false_eq_true, if_true, if_false] at hc
    rcases List.mem_cons.mp hc with rfl | hc2
    · exact hq
    · exact ih (fun x hx => hall x (List.mem_cons_of_mem a hx)) c hc2
  | case6 a d rest ha ih =>
    intro hall c hc
    rw [collapseWs] at hc
    rw [Bool.not_eq_true] at ha
    simp only [ha, Bool.false_eq_true, if_false] at hc
    rcases List.mem_cons.mp hc with rfl | hc2
    · exact hall c (List.mem_cons_self _ _)
    · exact ih (fun x hx => hall x (List.mem_cons_of_mem a hx)) c hc2

theorem mem_collapseWs_of_not_ws {c : Char} (hcw : isPyWs c = false) :
    ∀ (s : Str), c ∈ s → c ∈ collapseWs s := by
  intro s
  induction s using collapseWs.induct with
  | case1 => intro h; simp at h
  | case2 a ha =>
    intro h
    simp only [List.mem_singleton] at h
    subst h
    rw [ha] at hcw; cases hcw
  | case3 a ha =>
    intro h
    simp only [List.mem_singleton] at h
    subst h
    rw [collapseWs]
    rw [Bool.not_eq_true] at ha
    simp [ha]
  | case4 a d rest ha hd ih =>
    intro h
    rw [collapseWs]
    simp only [ha, hd, if_true]
    rcases List.mem_cons.mp h with rfl | h2
    · rw [ha] at hcw; cases hcw
    · exact ih h2
  | case5 a d rest ha hd ih =>
    intro h
    rw [collapseWs]
    rw [Bool.not_eq_true] at hd
    simp only [ha, hd, Bool.false_eq_true, if_true, if_false]
    rcases List.mem_cons.mp h with rfl | h2
    · rw [ha] at hcw; cases hcw
    · exact List.mem_cons_of_mem _ (ih h2)
  | case6 a d rest ha ih =>
    intro h
    rw [collapseWs]
    rw [Bool.not_eq_true] at ha
    simp only [ha, Bool.false_eq_true, if_false]
    rcases List.mem_cons.mp h with rfl | h2
    · exact List.mem_cons_self _ _
    · exact List.mem_cons_of_mem _ (ih h2)

/-- Blankness characterization of `normalize_key`: the result is empty iff
the input consists entirely of whitespace and zero-width characters. -/
theorem normPre_good {c : Char} {s : Str} (hws : isPyWs c = false)
    (hzw : isZeroWidth c = false) (hc : c ∈ s) : c ∈ normPre s := by
  unfold normPre
  rw [List.mem_map]
  refine ⟨c, List.mem_filter.mpr ⟨hc, by simp [hzw]⟩, ?_⟩
  have hcnb : c ≠ nbsp := by
    intro heq
    rw [heq] at hws
    simp [isPyWs, nbsp] at hws
  simp [hcnb]

theorem normPre_ws_iff {s : Str} :
    (∀ c ∈ normPre s, isPyWs c = true) ↔
    (∀ c ∈ s, isPyWs c = true ∨ isZeroWidth c = true) := by
  constructor
  · intro h c hc
    by_cases hzw : isZeroWidth c = true
    · exact Or.inr hzw
    · have hzw' : isZeroWidth c = false := by
        cases hb : isZeroWidth c
        · rfl
        · exact absurd hb hzw
      left
      by_contra hws
      have hws' : isPyWs c = false := by
        cases hb : isPyWs c
        · rfl
        · exact absurd hb hws
      have h2 := h c (normPre_good hws' hzw' hc)
      rw [hws'] at h2
      cases h2
  · intro h c hc
    unfold normPre at hc
    rcases List.mem_map.mp hc with ⟨a, ha, rfl⟩
    rcases List.mem_filter.mp ha with ⟨has, hazw⟩
    by_cases hanb : a = nbsp
    · simp [hanb, isPyWs, nbsp]
    · simp only [hanb, if_false]
      rcases h a has with h1 | h1
      · exact h1
      · rw [h1] at hazw; simp at hazw

/-- Blankness characterization of `normalize_key`: the result is empty iff
the input consists entirely of whitespace and zero-width characters. -/
theorem normKey_eq_nil_iff (s : Str) :
    normKey s = [] ↔ ∀ c ∈ s, (isPyWs c = true ∨ isZeroWidth c = true) := by
  unfold normKey
  rw [pstrip_eq_nil_iff, ← normPre_ws_iff]
  constructor
  · intro h c hc
    by_contra hws
    have hws' : isPyWs c = false := by
      cases hb : isPyWs c
      · rfl
      · exact absurd hb hws
    have h2 := h c (mem_collapseWs_of_not_ws hws' _ hc)
    rw [hws'] at h2
    cases h2
  · intro h
    exact collapseWs_all (by simp [isPyWs]) _ h

theorem normKey_ne_nil_iff (s : Str) :
    normKey s ≠ [] ↔ ∃ c ∈ s, goodChar c = true := by
  constructor
  · intro h
    by_contra hng
    push_neg at hng
    apply h
    rw [normKey_eq_nil_iff]
    intro c hc
    by_contra hcon
    push_neg at hcon
    have hg : goodChar c = true := by
      unfold goodChar
      have h1 : isPyWs c = false := by
        cases hb : isPyWs c
        · rfl
        · exact absurd hb hcon.1
      have h2 : isZeroWidth c = false := by
        cases hb : isZeroWidth c
        · rfl
        · exact absurd hb hcon.2
      simp [h1, h2]
    exact absurd hg (hng c hc)
  · rintro ⟨c, hc, hg⟩ h
    rw [normKey_eq_nil_iff] at h
    unfold goodChar at hg
    simp only [Bool.and_eq_true, Bool.not_eq_true'] at hg
    rcases h c hc with h1 | h1
    · rw [h1] at hg; simp at hg
    · rw [h1] at hg; simp at hg

theorem normKey_eq_nil_of_pstrip (s : Str) (h : pstrip s = []) : normKey s = [] := by
  rw [normKey_eq_nil_iff]
  intro c hc
  exact Or.inl ((pstrip_eq_nil_iff s).mp h c hc)

theorem pstrip_ne_nil_of_normKey (s : Str) (h : normKey s ≠ []) : pstrip s ≠ [] :=
  fun hp => h (normKey_eq_nil_of_pstrip s hp)

/-- `normalize_key` never outputs zero-width characters. -/
theorem normKey_no_zw (s : Str) : ∀ c ∈ normKey s, isZeroWidth c = false := by
  intro c hc
  unfold normKey at hc
  have hc2 := pstrip_subset hc
  cases hzw : isZeroWidth c
  · rfl
  · exfalso
    have hall : ∀ x ∈ normPre s, (!(isZeroWidth x)) = true := by
      intro x hx
      unfold normPre at hx
      rcases List.mem_map.mp hx with ⟨a, ha, rfl⟩
      rcases List.mem_filter.mp ha with ⟨_, hazw⟩
      by_cases hanb : a = nbsp
      · simp [hanb, isZeroWidth, nbsp]
      · simpa [hanb] using hazw
    have hres := collapseWs_all (q := fun x => !(isZeroWidth x))
      (by simp [isZeroWidth]) _ hall c hc2
    simp only at hres
    rw [hzw] at hres
    simp at hres

/-- The output of a non-blank `normalize_key` still normalizes to non-blank:
its first character is neither whitespace nor zero-width. -/
theorem normKey_normKey_ne (s : Str) (h : normKey s ≠ []) : normKey (normKey s) ≠ [] := by
  rw [normKey_ne_nil_iff]
  rcases hhd : (normKey s).head? with _ | c
  · rw [List.head?_eq_none_iff] at hhd; exact absurd hhd h
  · have hmem : c ∈ normKey s := by
      cases hk : normKey s with
      | nil => rw [hk] at hhd; cases hhd
      | cons a t =>
        rw [hk] at hhd
        simp only [List.head?_cons, Option.some.injEq] at hhd
        rw [← hhd]; exact List.mem_cons_self _ _
    refine ⟨c, hmem, ?_⟩
    unfold goodChar
    have h1 : isPyWs c = false := by
      unfold normKey at hhd
      exact pstrip_head?_not_ws hhd
    have h2 : isZeroWidth c = false := normKey_no_zw s c hmem
    simp [h1, h2]

/-! ## `entity.py` — entity descriptor parsing

`parse_damage_entity` matches the anchored regex
`^(?P<pilot>.*?)\\[(?P<corp>[^\\]]+)\\]\\((?P<ship>[^)]+)\\)$`.  Because the
`corp` and `ship` classes exclude their closing delimiter, backtracking
inside them is impossible: at a fixed `[` position the only candidate is
the maximal run.  The lazy `pilot` group makes the scan try `[` positions
left to right. -/

/-- One match attempt of `DAMAGE_ENTITY_RE` with the pilot group fixed to
`pre` and `rest` starting just after the `[`: the corp group is the maximal
run of non-`]` characters (non-empty, closed by `]`), immediately followed
by `(`, a non-empty maximal run of non-`)` characters, and a final `)` at
the end of the string. -/
def damageAttempt (pre rest : Str) : Option (Str × Str × Str) :=
  let corp := rest.takeWhile (fun c => c != ']')
  let r2 := rest.dropWhile (fun c => c != ']')
  if r2.head? = some ']' ∧ corp ≠ [] then
    let r3 := r2.tail
    if r3.head? = some '(' then
      let ship := r3.tail.takeWhile (fun c => c != ')')
      let r4 := r3.tail.dropWhile (fun c => c != ')')
      if r4 = [')'] ∧ ship ≠ [] then some (pre, corp, ship) else none
    else none
  else none

/-- The left-to-right scan of the lazy pilot group: at each `[`, attempt a
full match of the rest of the pattern; otherwise extend the pilot group. -/
def dmLoop : Str → Str → Option (Str × Str × Str)
  | _, [] => none
  | pre, c :: r2 =>
    if c = '[' then
      match damageAttempt pre r2 with
      | some t => some t
      | none => dmLoop (pre ++ [c]) r2
    else dmLoop (pre ++ [c]) r2

/-- `entity.parse_damage_entity`: returns `(pilot, corp, ship)`, or
`(entity, "", "")` when the pattern does not match. -/
def parseDamageEntity (entity : Str) : Str × Str × Str :=
  let e := pstrip entity
  match dmLoop [] e with
  | none => (e, [], [])
  | some (p, c, s) => (pstrip p, pstrip c, pstrip s)

/-- The scan state of `re.findall(r"\\[([^\\]]+)\\]", s)`: outside any
candidate match (`none`), or inside one with the content collected so far
(`some acc`).  Because the content class `[^\\]]+` cannot contain `]`, the
first `]` after a `[` always ends the candidate: a non-empty content is a
match (the scan resumes after the `]`), an empty one is a failure (the
regex engine resumes at the `]`, which cannot start a match, so the scan
simply continues).  An unclosed candidate at end of input matches nothing. -/
def fbGo : Option Str → Str → List Str
  | _, [] => []
  | none, c :: rest => if c = '[' then fbGo (some []) rest else fbGo none rest
  | some acc, c :: rest =>
    if c = ']' then (if acc = [] then fbGo none rest else acc :: fbGo none rest)
    else fbGo (some (acc ++ [c])) rest

/-- `re.findall(r"\\[([^\\]]+)\\]", s)`: all bracketed tokens, left to right,
non-overlapping. -/
def findBrackets (s : Str) : List Str := fbGo none s

/-- The same scan for `re.sub(r"\\[[^\\]]+\\]", "", s)`: matched groups are
dropped, everything else (including failed candidates) is kept. -/
def rbGo : Option Str → Str → Str
  | none, [] => []
  | some acc, [] => '[' :: acc
  | none, c :: rest => if c = '[' then rbGo (some []) rest else c :: rbGo none rest
  | some acc, c :: rest =>
    if c = ']' then
      (if acc = [] then '[' :: ']' :: rbGo none rest else rbGo none rest)
    else rbGo (some (acc ++ [c])) rest

/-- `re.sub(r"\\[[^\\]]+\\]", "", s)`: remove the bracket groups matched by
`findBrackets`, keep everything else. -/
def removeBrackets (s : Str) : Str := rbGo none s

/-- Python `s.split(" ")` (split on every single space). -/
def splitOnSpace : Str → List Str
  | [] => [[]]
  | c :: rest =>
    if c = ' ' then [] :: splitOnSpace rest
    else
      match splitOnSpace rest with
      | [] => [[c]]
      | t :: ts => (c :: t) :: ts

/-- Python `" ".join(parts)`. -/
def joinSpace : List Str → Str
  | [] => []
  | [x] => x
  | x :: xs => x ++ ' ' :: joinSpace xs

/-- The character class of `re.sub(r"[\\s\\-\\u2013\\u2014]+$", "", ...)`:
whitespace, hyphen-minus, en dash, em dash. -/
def isDashWs (c : Char) : Bool :=
  isPyWs c || c = '-' || c = '\u2013' || c = '\u2014'

/-- Strip a trailing run of whitespace/dash characters. -/
def rstripDashWs (s : Str) : Str := (s.reverse.dropWhile isDashWs).reverse

/-- `entity.parse_rep_party`: returns `(pilot, ship_type, alliance, corp)`. -/
def parseRepParty (segment0 : Str) : Str × Str × Str × Str :=
  -- segment = segment.strip(); then strip the trailing dash artifact and strip again
  let seg := pstrip (rstripDashWs (pstrip segment0))
  let tickers := (findBrackets seg).map pstrip
  -- default: assume Format A
  let (allianceA, corpA) :=
    if tickers.length ≥ 2 then (tickers.getD 0 [], tickers.getD 1 [])
    else if tickers.length = 1 then (([] : Str), tickers.getD 0 [])
    else (([] : Str), ([] : Str))
  let pilotA := if seg.contains '[' then pstrip (seg.takeWhile (fun c => c != '[')) else []
  let shipA :=
    if seg.contains ']' then pstrip ((seg.reverse.takeWhile (fun c => c != ']')).reverse)
    else []
  -- Format B: ends with ']', no trailing ship token, at least one bracket token
  let (pilotB, shipB, allianceB, corpB) :=
    if seg.getLast? = some ']' ∧ shipA = [] ∧ tickers ≠ [] then
      let (a2, c2) :=
        if tickers.length ≥ 3 then (tickers.getD 0 [], tickers.getD 1 [])
        else if tickers.length = 2 then (tickers.getD 0 [], ([] : Str))
        else (([] : Str), ([] : Str))
      ((tickers.getLast?).getD [], pilotA, a2, c2)
    else (pilotA, shipA, allianceA, corpA)
  -- last-resort fallback when pilot or ship is still empty
  let (pilotC, shipC) :=
    if pilotB = [] ∨ shipB = [] then
      let noBr := collapseWs (pstrip (removeBrackets seg))
      let hasBr := seg.contains '[' || seg.contains ']'
      if hasBr then
        if noBr.contains ' ' then
          let parts := splitOnSpace noBr
          (if pilotB = [] then pstrip (joinSpace parts.dropLast) else pilotB,
           if shipB = [] then pstrip ((parts.getLast?).getD []) else shipB)
        else (if pilotB = [] then noBr else pilotB, shipB)
      else (if pilotB = [] then noBr else pilotB, shipB)
    else (pilotB, shipB)
  -- guardrail: pilot equal to ship (case-insensitively) is a duplication artifact
  let pilotD :=
    if pilotC ≠ [] ∧ shipC ≠ [] ∧ pyLower (pstrip pilotC) = pyLower (pstrip shipC) then []
    else pilotC
  (pilotD, shipC, allianceB, corpB)

/-- `entity.parse_entity_any`: rep-style first, damage-style only if the rep
attempt produced neither corp nor ship. -/
def parseEntityAny (entityText : Str) : Str × Str × Str × Str :=
  let r := parseRepParty entityText
  if r.2.2.2 = [] ∧ r.2.1 = [] then
    let d := parseDamageEntity entityText
    (d.1, d.2.2, [], d.2.1)
  else r

/-! ## Token well-formedness and bracket-scan lemmas -/

theorem head?_append_left {α : Type} {l l' : List α} (h : l ≠ []) : (l ++ l').head? = l.head? := by
  cases l with
  | nil => exact absurd rfl h
  | cons a t => simp

theorem getLast?_cons_of_ne {α : Type} {a : α} {l : List α} (h : l ≠ []) :
    (a :: l).getLast? = l.getLast? := by
  cases l with
  | nil => exact absurd rfl h
  | cons b t => exact List.getLast?_cons_cons

theorem getLast?_append_right {α : Type} {l l' : List α} (h : l' ≠ []) :
    (l ++ l').getLast? = l'.getLast? :=
  List.getLast?_append_of_ne_nil l h

theorem contains_of_mem {l : List Char} {a : Char} (h : a ∈ l) : l.contains a = true :=
  List.elem_iff.mpr h

/-- A well-formed descriptor token: non-empty, bracket-free, and without
leading or trailing whitespace. -/
def goodTok (t : Str) : Bool :=
  !(t.isEmpty) && t.all (fun c => !(c = '[') && !(c = ']')) &&
  (match t.head? with | some c => !(isPyWs c) | none => true) &&
  (match t.getLast? with | some c => !(isPyWs c) | none => true)

theorem goodTok_ne_nil {t : Str} (h : goodTok t = true) : t ≠ [] := by
  unfold goodTok at h
  simp only [Bool.and_eq_true, Bool.not_eq_true'] at h
  intro hnil
  rw [hnil] at h
  simp at h

theorem goodTok_no_lbr {t : Str} (h : goodTok t = true) : ∀ c ∈ t, c ≠ '[' := by
  unfold goodTok at h
  simp only [Bool.and_eq_true, List.all_eq_true] at h
  intro c hc
  have := h.1.1.2 c hc
  simp only [Bool.and_eq_true, Bool.not_eq_true'] at this
  simpa using this.1

theorem goodTok_no_rbr {t : Str} (h : goodTok t = true) : ∀ c ∈ t, c ≠ ']' := by
  unfold goodTok at h
  simp only [Bool.and_eq_true, List.all_eq_true] at h
  intro c hc
  have := h.1.1.2 c hc
  simp only [Bool.and_eq_true, Bool.not_eq_true'] at this
  simpa using this.2

theorem goodTok_head {t : Str} (h : goodTok t = true) :
    ∀ c, t.head? = some c → isPyWs c = false := by
  unfold goodTok at h
  simp only [Bool.and_eq_true] at h
  intro c hc
  have h2 := h.1.2
  rw [hc] at h2
  simpa using h2

theorem goodTok_last {t : Str} (h : goodTok t = true) :
    ∀ c, t.getLast? = some c → isPyWs c = false := by
  unfold goodTok at h
  simp only [Bool.and_eq_true] at h
  intro c hc
  have h2 := h.2
  rw [hc] at h2
  simpa using h2

theorem goodTok_pstrip {t : Str} (h : goodTok t = true) : pstrip t = t :=
  pstrip_eq_self (goodTok_head h) (goodTok_last h)

theorem findBrackets_cons_not {c : Char} (rest : Str) (h : c ≠ '[') :
    findBrackets (c :: rest) = findBrackets rest := by
  unfold findBrackets
  rw [fbGo]
  simp [h]

theorem findBrackets_append_not {p : Str} (rest : Str) (h : ∀ c ∈ p, c ≠ '[') :
    findBrackets (p ++ rest) = findBrackets rest := by
  induction p with
  | nil => simp
  | cons a t ih =>
    rw [List.cons_append, findBrackets_cons_not _ (h a (List.mem_cons_self a t))]
    exact ih (fun c hc => h c (List.mem_cons_of_mem a hc))

theorem findBrackets_nil_of_not {s : Str} (h : ∀ c ∈ s, c ≠ '[') :
    findBrackets s = [] := by
  have h2 := findBrackets_append_not (p := s) [] h
  simpa [findBrackets, fbGo] using h2

theorem fbGo_some_across {tok : Str} (h : ∀ c ∈ tok, c ≠ ']') :
    ∀ (acc r2 : Str), fbGo (some acc) (tok ++ r2) = fbGo (some (acc ++ tok)) r2 := by
  induction tok with
  | nil => intro acc r; simp
  | cons a t ih =>
    intro acc r
    rw [List.cons_append, fbGo]
    simp only [h a (List.mem_cons_self a t), if_false]
    rw [ih (fun c hc => h c (List.mem_cons_of_mem a hc))]
    simp

theorem findBrackets_open {tok : Str} (tail : Str) (htok : ∀ c ∈ tok, c ≠ ']')
    (hne : tok ≠ []) :
    findBrackets ('[' :: (tok ++ ']' :: tail)) = tok :: findBrackets tail := by
  unfold findBrackets
  rw [fbGo]
  simp only [if_pos rfl]
  rw [fbGo_some_across htok, List.nil_append, fbGo]
  simp [hne]

theorem removeBrackets_cons_not {c : Char} (rest : Str) (h : c ≠ '[') :
    removeBrackets (c :: rest) = c :: removeBrackets rest := by
  unfold removeBrackets
  rw [rbGo]
  simp [h]

theorem removeBrackets_append_not {p : Str} (rest : Str) (h : ∀ c ∈ p, c ≠ '[') :
    removeBrackets (p ++ rest) = p ++ removeBrackets rest := by
  induction p with
  | nil => simp
  | cons a t ih =>
    rw [List.cons_append, removeBrackets_cons_not _ (h a (List.mem_cons_self a t)),
      ih (fun c hc => h c (List.mem_cons_of_mem a hc)), List.cons_append]

theorem removeBrackets_of_not {s : Str} (h : ∀ c ∈ s, c ≠ '[') :
    removeBrackets s = s := by
  have h2 := removeBrackets_append_not (p := s) [] h
  simpa [removeBrackets, rbGo] using h2

theorem rbGo_some_across {tok : Str} (h : ∀ c ∈ tok, c ≠ ']') :
    ∀ (acc rrest : Str), rbGo (some acc) (tok ++ rrest) = rbGo (some (acc ++ tok)) rrest := by
  induction tok with
  | nil => intro acc r; simp
  | cons a t ih =>
    intro acc r
    rw [List.cons_append, rbGo]
    simp only [h a (List.mem_cons_self a t), if_false]
    rw [ih (fun c hc => h c (List.mem_cons_of_mem a hc))]
    simp

theorem removeBrackets_open {tok : Str} (tail : Str) (htok : ∀ c ∈ tok, c ≠ ']')
    (hne : tok ≠ []) :
    removeBrackets ('[' :: (tok ++ ']' :: tail)) = removeBrackets tail := by
  unfold removeBrackets
  rw [rbGo]
  simp only [if_pos rfl]
  rw [rbGo_some_across htok, List.nil_append, rbGo]
  simp [hne]

theorem pstrip_cons_ws {a : Char} {s : Str} (h : isPyWs a = true) :
    pstrip (a :: s) = pstrip s := by
  unfold pstrip
  rw [List.dropWhile_cons, h]
  simp

theorem pstrip_append_trailing_ws {p t : Str} (hp : goodTok p = true)
    (ht : ∀ c ∈ t, isPyWs c = true) : pstrip (p ++ t) = p := by
  unfold pstrip
  have h1 : (p ++ t).dropWhile isPyWs = p ++ t := by
    refine dropWhile_eq_self_of_head? ?_
    intro c hc
    rw [head?_append_left (goodTok_ne_nil hp)] at hc
    exact goodTok_head hp c hc
  rw [h1, List.reverse_append]
  rw [dropWhile_append_all (fun c hc => ht c (List.mem_reverse.mp hc))]
  have h2 : p.reverse.dropWhile isPyWs = p.reverse := by
    refine dropWhile_eq_self_of_head? ?_
    intro c hc
    rw [List.head?_reverse] at hc
    exact goodTok_last hp c hc
  rw [h2, List.reverse_reverse]

/-- The text after the last `]` of `u ++ ']' :: v` is `v`, provided `v`
itself is `]`-free (this is the `rsplit("]", 1)[1]` computation). -/
theorem afterLast_bracket (u v : Str) (hv : ∀ c ∈ v, c ≠ ']') :
    ((u ++ ']' :: v).reverse.takeWhile (fun c => c != ']')).reverse = v := by
  rw [List.reverse_append, List.reverse_cons]
  rw [List.append_assoc]
  rw [takeWhile_append_all (fun c hc => by simpa using hv c (List.mem_reverse.mp hc))]
  rw [List.singleton_append, takeWhile_cons_neg (by simp), List.append_nil,
    List.reverse_reverse]

theorem takeWhile_cons_pos {α : Type} {p : α → Bool} {a : α} {l : List α}
    (h : p a = true) : (a :: l).takeWhile p = a :: l.takeWhile p := by
  rw [List.takeWhile_cons, h]
  simp

/-- The last character (if any) is not in the trailing-dash-strip class. -/
def lastNotDash (t : Str) : Bool :=
  match t.getLast? with | some c => !(isDashWs c) | none => true

theorem lastNotDash_spec {t : Str} (h : lastNotDash t = true) :
    ∀ c, t.getLast? = some c → isDashWs c = false := by
  intro c hc
  unfold lastNotDash at h
  rw [hc] at h
  simpa using h

/-- `parse_rep_party` on a well-formed Format A descriptor
`"Pilot [ALL] [CORP] Ship"`. -/
theorem parseRepParty_formatA (P S A C : Str)
    (hP : goodTok P = true) (hS : goodTok S = true)
    (hA : goodTok A = true) (hC : goodTok C = true)
    (hSd : lastNotDash S = true)
    (hPS : pyLower P ≠ pyLower S) :
    parseRepParty (P ++ ' ' :: '[' :: (A ++ ']' :: ' ' :: '[' :: (C ++ ']' :: ' ' :: S)))
      = (P, S, A, C) := by
  have hPne := goodTok_ne_nil hP
  have hSne := goodTok_ne_nil hS
  have hAne := goodTok_ne_nil hA
  have hCne := goodTok_ne_nil hC
  set segA : Str := P ++ ' ' :: '[' :: (A ++ ']' :: ' ' :: '[' :: (C ++ ']' :: ' ' :: S))
    with hsegA
  have hre : segA = (P ++ ' ' :: '[' :: (A ++ ']' :: ' ' :: '[' :: C)) ++ (']' :: ' ' :: S) := by
    simp [hsegA]
  have hlastA : segA.getLast? = S.getLast? := by
    rw [hre, getLast?_append_right (by simp), getLast?_cons_of_ne (by simp),
      getLast?_cons_of_ne hSne]
  have hheadA : segA.head? = P.head? := head?_append_left hPne
  have hps : pstrip segA = segA :=
    pstrip_eq_self
      (fun c hc => goodTok_head hP c (by rwa [hheadA] at hc))
      (fun c hc => goodTok_last hS c (by rwa [hlastA] at hc))
  have hrs : rstripDashWs segA = segA := by
    unfold rstripDashWs
    rw [dropWhile_eq_self_of_head? (fun c hc => by
      rw [List.head?_reverse, hlastA] at hc
      exact lastNotDash_spec hSd c hc), List.reverse_reverse]
  have hfb : findBrackets segA = [A, C] := by
    rw [show segA = (P ++ [' ']) ++
        '[' :: (A ++ ']' :: (' ' :: '[' :: (C ++ ']' :: (' ' :: S)))) from by simp [hsegA]]
    rw [findBrackets_append_not _ (fun c hc => by
      rcases List.mem_append.mp hc with h1 | h1
      · exact goodTok_no_lbr hP c h1
      · simp only [List.mem_singleton] at h1; rw [h1]; decide)]
    rw [findBrackets_open _ (goodTok_no_rbr hA) hAne]
    rw [findBrackets_cons_not _ (by decide)]
    rw [findBrackets_open _ (goodTok_no_rbr hC) hCne]
    rw [findBrackets_cons_not _ (by decide)]
    rw [findBrackets_nil_of_not (goodTok_no_lbr hS)]
  have htick : (findBrackets segA).map pstrip = [A, C] := by
    rw [hfb]
    simp [goodTok_pstrip hA, goodTok_pstrip hC]
  have htw : segA.takeWhile (fun c => c != '[') = P ++ [' '] := by
    rw [hsegA, takeWhile_append_all (fun c hc => by simpa using goodTok_no_lbr hP c hc),
      takeWhile_cons_pos (by decide), takeWhile_cons_neg (by decide)]
  have hpilot : pstrip (P ++ [' ']) = P :=
    pstrip_append_trailing_ws hP (by intro c hc; simp only [List.mem_singleton] at hc
                                     rw [hc]; decide)
  have hafter : ((segA.reverse.takeWhile (fun c => c != ']')).reverse) = ' ' :: S := by
    rw [hre, afterLast_bracket _ _ (fun c hc => by
      rcases List.mem_cons.mp hc with h1 | h1
      · rw [h1]; decide
      · exact goodTok_no_rbr hS c h1)]
  have hship : pstrip (' ' :: S) = S := by
    rw [pstrip_cons_ws (by decide), goodTok_pstrip hS]
  have hcl : segA.contains '[' = true := contains_of_mem (by simp [hsegA])
  have hcr : segA.contains ']' = true := contains_of_mem (by simp [hsegA])
  have hB2 : (segA.getLast? = some ']' ∧ S = []) ↔ False := ⟨fun h => hSne h.2, False.elim⟩
  unfold parseRepParty
  simp only [hps, hrs, htick, htw, hpilot, hafter, hship, hcl, hcr]
  simp [hB2, hPne, hSne, hPS, goodTok_pstrip hP, goodTok_pstrip hS]

/-- `parse_rep_party` on a well-formed Format B (ship-first) descriptor
`"Ship [ALL] [CORP] [Pilot]"`. -/
theorem parseRepParty_formatB (P S A C : Str)
    (hP : goodTok P = true) (hS : goodTok S = true)
    (hA : goodTok A = true) (hC : goodTok C = true)
    (hPS : pyLower P ≠ pyLower S) :
    parseRepParty
        (S ++ ' ' :: '[' :: (A ++ ']' :: ' ' :: '[' :: (C ++ ']' :: ' ' :: '[' :: (P ++ [']']))))
      = (P, S, A, C) := by
  have hPne := goodTok_ne_nil hP
  have hSne := goodTok_ne_nil hS
  have hAne := goodTok_ne_nil hA
  have hCne := goodTok_ne_nil hC
  set segB : Str :=
    S ++ ' ' :: '[' :: (A ++ ']' :: ' ' :: '[' :: (C ++ ']' :: ' ' :: '[' :: (P ++ [']'])))
    with hsegB
  have hre : segB =
      (S ++ ' ' :: '[' :: (A ++ ']' :: ' ' :: '[' :: (C ++ ']' :: ' ' :: '[' :: P))) ++ [']'] := by
    simp [hsegB]
  have hlastB : segB.getLast? = some ']' := by
    rw [hre, getLast?_append_right (by simp)]
    rfl
  have hheadB : segB.head? = S.head? := head?_append_left hSne
  have hps : pstrip segB = segB :=
    pstrip_eq_self
      (fun c hc => goodTok_head hS c (by rwa [hheadB] at hc))
      (fun c hc => by
        rw [hlastB] at hc
        simp only [Option.some.injEq] at hc
        rw [← hc]; decide)
  have hrs : rstripDashWs segB = segB := by
    unfold rstripDashWs
    rw [dropWhile_eq_self_of_head? (fun c hc => by
      rw [List.head?_reverse, hlastB] at hc
      simp only [Option.some.injEq] at hc
      rw [← hc]; decide), List.reverse_reverse]
  have hfb : findBrackets segB = [A, C, P] := by
    rw [show segB = (S ++ [' ']) ++
        '[' :: (A ++ ']' :: (' ' :: '[' :: (C ++ ']' :: (' ' :: '[' :: (P ++ ']' :: []))))) from
      by simp [hsegB]]
    rw [findBrackets_append_not _ (fun c hc => by
      rcases List.mem_append.mp hc with h1 | h1
      · exact goodTok_no_lbr hS c h1
      · simp only [List.mem_singleton] at h1; rw [h1]; decide)]
    rw [findBrackets_open _ (goodTok_no_rbr hA) hAne]
    rw [findBrackets_cons_not _ (by decide)]
    rw [findBrackets_open _ (goodTok_no_rbr hC) hCne]
    rw [findBrackets_cons_not _ (by decide)]
    rw [findBrackets_open _ (goodTok_no_rbr hP) hPne]
    rfl
  have htick : (findBrackets segB).map pstrip = [A, C, P] := by
    rw [hfb]
    simp [goodTok_pstrip hA, goodTok_pstrip hC, goodTok_pstrip hP]
  have htw : segB.takeWhile (fun c => c != '[') = S ++ [' '] := by
    rw [hsegB, takeWhile_append_all (fun c hc => by simpa using goodTok_no_lbr hS c hc),
      takeWhile_cons_pos (by decide), takeWhile_cons_neg (by decide)]
  have hpilotvar : pstrip (S ++ [' ']) = S :=
    pstrip_append_trailing_ws hS (by intro c hc; simp only [List.mem_singleton] at hc
                                     rw [hc]; decide)
  have hafter : ((segB.reverse.takeWhile (fun c => c != ']')).reverse) = [] := by
    rw [hre, afterLast_bracket _ _ (by simp)]
  have hnil : pstrip ([] : Str) = [] := rfl
  have hcl : segB.contains '[' = true := contains_of_mem (by simp [hsegB])
  have hcr : segB.contains ']' = true := contains_of_mem (by simp [hsegB])
  unfold parseRepParty
  simp only [hps, hrs, htick, htw, hpilotvar, hafter, hnil, hcl, hcr]
  simp [hlastB, hPne, hSne, hPS, goodTok_pstrip hP, goodTok_pstrip hS]

theorem dmLoop_cons_not {pre : Str} {c : Char} {rest : Str} (h : c ≠ '[') :
    dmLoop pre (c :: rest) = dmLoop (pre ++ [c]) rest := by
  rw [dmLoop]
  simp [h]

theorem dmLoop_append_not {p : Str} (pre rest : Str) (h : ∀ c ∈ p, c ≠ '[') :
    dmLoop pre (p ++ rest) = dmLoop (pre ++ p) rest := by
  induction p generalizing pre with
  | nil => simp
  | cons a t ih =>
    rw [List.cons_append, dmLoop_cons_not (h a (List.mem_cons_self a t)),
      ih (pre ++ [a]) (fun c hc => h c (List.mem_cons_of_mem a hc))]
    simp

theorem damageAttempt_full (pre C S : Str) (hC : ∀ c ∈ C, c ≠ ']') (hCne : C ≠ [])
    (hS : ∀ c ∈ S, c ≠ ')') (hSne : S ≠ []) :
    damageAttempt pre (C ++ ']' :: '(' :: (S ++ [')'])) = some (pre, C, S) := by
  have h1 : (C ++ ']' :: '(' :: (S ++ [')'])).takeWhile (fun c => c != ']') = C := by
    rw [takeWhile_append_all (fun c hc => by simpa using hC c hc),
      takeWhile_cons_neg (by simp), List.append_nil]
  have h2 : (C ++ ']' :: '(' :: (S ++ [')'])).dropWhile (fun c => c != ']') =
      ']' :: '(' :: (S ++ [')']) := by
    rw [dropWhile_append_all (fun c hc => by simpa using hC c hc),
      dropWhile_cons_neg (by simp)]
  have h3 : (S ++ [')']).takeWhile (fun c => c != ')') = S := by
    rw [takeWhile_append_all (fun c hc => by simpa using hS c hc),
      takeWhile_cons_neg (by simp), List.append_nil]
  have h4 : (S ++ [')']).dropWhile (fun c => c != ')') = [')'] := by
    rw [dropWhile_append_all (fun c hc => by simpa using hS c hc),
      dropWhile_cons_neg (by simp)]
  unfold damageAttempt
  simp only [h1, h2, h3, h4, List.tail_cons, List.head?_cons]
  simp [hCne, hSne]

/-- `parse_damage_entity` on a well-formed `Name[CORP](Ship)` descriptor. -/
theorem parseDamageEntity_full (N C S : Str)
    (hN : goodTok N = true) (hC : goodTok C = true) (hS : goodTok S = true)
    (hSp : ∀ c ∈ S, c ≠ ')') :
    parseDamageEntity (N ++ '[' :: (C ++ ']' :: '(' :: (S ++ [')']))) = (N, C, S) := by
  have hNne := goodTok_ne_nil hN
  have hCne := goodTok_ne_nil hC
  have hSne := goodTok_ne_nil hS
  set e : Str := N ++ '[' :: (C ++ ']' :: '(' :: (S ++ [')'])) with he
  have hlastE : e.getLast? = some ')' := by
    rw [show e = (N ++ '[' :: (C ++ ']' :: '(' :: S)) ++ [')'] from by simp [he],
      getLast?_append_right (by simp)]
    rfl
  have hps : pstrip e = e :=
    pstrip_eq_self
      (fun c hc => goodTok_head hN c (by rwa [head?_append_left hNne] at hc))
      (fun c hc => by
        rw [hlastE] at hc
        simp only [Option.some.injEq] at hc
        rw [← hc]; decide)
  have hloop : dmLoop [] e = some (N, C, S) := by
    rw [he, dmLoop_append_not [] _ (goodTok_no_lbr hN), List.nil_append, dmLoop]
    rw [if_pos rfl, damageAttempt_full N C S (goodTok_no_rbr hC) hCne hSp hSne]
  unfold parseDamageEntity
  simp only [hps, hloop]
  simp [goodTok_pstrip hN, goodTok_pstrip hC, goodTok_pstrip hS]

/-- `parse_rep_party` on a damage-style `Name[CORP](Ship)` descriptor: the
single bracket token becomes the corp, the parenthesized text (parentheses
included) becomes the ship, and the alliance stays empty. -/
theorem parseRepParty_damage (N C S : Str)
    (hN : goodTok N = true) (hC : goodTok C = true) (hS : goodTok S = true) :
    (parseRepParty (N ++ '[' :: (C ++ ']' :: '(' :: (S ++ [')'])))).2.1
        = '(' :: (S ++ [')']) ∧
    (parseRepParty (N ++ '[' :: (C ++ ']' :: '(' :: (S ++ [')'])))).2.2.1 = [] ∧
    (parseRepParty (N ++ '[' :: (C ++ ']' :: '(' :: (S ++ [')'])))).2.2.2 = C := by
  have hNne := goodTok_ne_nil hN
  have hCne := goodTok_ne_nil hC
  have hSne := goodTok_ne_nil hS
  set e : Str := N ++ '[' :: (C ++ ']' :: '(' :: (S ++ [')'])) with he
  have hlastE : e.getLast? = some ')' := by
    rw [show e = (N ++ '[' :: (C ++ ']' :: '(' :: S)) ++ [')'] from by simp [he],
      getLast?_append_right (by simp)]
    rfl
  have hps : pstrip e = e :=
    pstrip_eq_self
      (fun c hc => goodTok_head hN c (by rwa [head?_append_left hNne] at hc))
      (fun c hc => by
        rw [hlastE] at hc
        simp only [Option.some.injEq] at hc
        rw [← hc]; decide)
  have hrs : rstripDashWs e = e := by
    unfold rstripDashWs
    rw [dropWhile_eq_self_of_head? (fun c hc => by
      rw [List.head?_reverse, hlastE] at hc
      simp only [Option.some.injEq] at hc
      rw [← hc]; decide), List.reverse_reverse]
  have hfb : findBrackets e = [C] := by
    rw [show e = N ++ '[' :: (C ++ ']' :: ('(' :: (S ++ [')']))) from by simp [he]]
    rw [findBrackets_append_not _ (goodTok_no_lbr hN)]
    rw [findBrackets_open _ (goodTok_no_rbr hC) hCne]
    rw [findBrackets_nil_of_not (fun c hc => by
      rcases List.mem_cons.mp hc with h1 | h1
      · rw [h1]; decide
      · rcases List.mem_append.mp h1 with h2 | h2
        · exact goodTok_no_lbr hS c h2
        · simp only [List.mem_singleton] at h2; rw [h2]; decide)]
  have htick : (findBrackets e).map pstrip = [C] := by
    rw [hfb]; simp [goodTok_pstrip hC]
  have htw : e.takeWhile (fun c => c != '[') = N := by
    rw [he, takeWhile_append_all (fun c hc => by simpa using goodTok_no_lbr hN c hc),
      takeWhile_cons_neg (by decide), List.append_nil]
  have hafter : ((e.reverse.takeWhile (fun c => c != ']')).reverse)
      = '(' :: (S ++ [')']) := by
    rw [show e = (N ++ '[' :: C) ++ ']' :: ('(' :: (S ++ [')'])) from by simp [he]]
    rw [afterLast_bracket _ _ (fun c hc => by
      rcases List.mem_cons.mp hc with h1 | h1
      · rw [h1]; decide
      · rcases List.mem_append.mp h1 with h2 | h2
        · exact goodTok_no_rbr hS c h2
        · simp only [List.mem_singleton] at h2; rw [h2]; decide)]
  have hship : pstrip ('(' :: (S ++ [')'])) = '(' :: (S ++ [')']) :=
    pstrip_eq_self
      (fun c hc => by simp only [List.head?_cons, Option.some.injEq] at hc; rw [← hc]; decide)
      (fun c hc => by
        rw [getLast?_cons_of_ne (by simp), getLast?_append_right (by simp)] at hc
        simp only [List.getLast?_singleton, Option.some.injEq] at hc
        rw [← hc]; decide)
  have hcl : e.contains '[' = true := contains_of_mem (by simp [he])
  have hcr : e.contains ']' = true := contains_of_mem (by simp [he])
  have hBc : ¬ (e.getLast? = some ']') := by
    rw [hlastE]
    intro hcon
    simp only [Option.some.injEq] at hcon
    cases hcon
  unfold parseRepParty
  simp only [hps, hrs, htick, htw, hafter, hship, hcl, hcr, goodTok_pstrip hN]
  simp [hBc, hNne]

/-! ## Claims C9 and C10 -/

/-- A token as constrained by claim C9: bracket-free and without leading or
trailing whitespace (emptiness is *not* excluded by the claim). -/
def tokOkC9 (t : Str) : Bool :=
  t.all (fun c => !(c = '[') && !(c = ']')) &&
  (match t.head? with | some c => !(isPyWs c) | none => true) &&
  (match t.getLast? with | some c => !(isPyWs c) | none => true)

/-- Claim C9 as stated: for all bracket-free, edge-whitespace-free token
values with `Pilot ≠ Ship` case-insensitively, Format A and Format B parse
to the same tuple `(pilot, ship, alliance, corp)`. -/
def C9Claim : Prop :=
  ∀ P S A C : Str,
    tokOkC9 P = true → tokOkC9 S = true → tokOkC9 A = true → tokOkC9 C = true →
    pyLower P ≠ pyLower S →
    parseRepParty (P ++ ' ' :: '[' :: (A ++ ']' :: ' ' :: '[' :: (C ++ ']' :: ' ' :: S)))
        = (P, S, A, C) ∧
    parseRepParty
        (S ++ ' ' :: '[' :: (A ++ ']' :: ' ' :: '[' :: (C ++ ']' :: ' ' :: '[' :: (P ++ [']']))))
        = (P, S, A, C)

/-- Claim C9 is false as stated: with `Ship = "S-"` (bracket-free,
edge-whitespace-free) the trailing-dash stripping of `parse_rep_party`
turns the Format A descriptor `"P [A] [C] S-"` into `"P [A] [C] S"`, so the
parsed ship is `"S"`, not `"S-"`. -/
theorem c9_counterexample : ¬ C9Claim := by
  intro h
  have h2 := (h (str "P") (str "S-") (str "A") (str "C")
    (by decide) (by decide) (by decide) (by decide) (by decide)).1
  exact absurd h2 (by decide)

/-- Claim C9, amended: the equality holds for non-empty bracket-free tokens
without edge whitespace, provided additionally that the ship token does not
end in a dash character (hyphen-minus, en dash, em dash) — the trailing-dash
artifact strip would otherwise eat it in Format A. -/
theorem c9_amended (P S A C : Str)
    (hP : goodTok P = true) (hS : goodTok S = true)
    (hA : goodTok A = true) (hC : goodTok C = true)
    (hSd : lastNotDash S = true)
    (hPS : pyLower P ≠ pyLower S) :
    parseRepParty (P ++ ' ' :: '[' :: (A ++ ']' :: ' ' :: '[' :: (C ++ ']' :: ' ' :: S)))
        = (P, S, A, C) ∧
    parseRepParty
        (S ++ ' ' :: '[' :: (A ++ ']' :: ' ' :: '[' :: (C ++ ']' :: ' ' :: '[' :: (P ++ [']']))))
        = (P, S, A, C) :=
  ⟨parseRepParty_formatA P S A C hP hS hA hC hSd hPS,
   parseRepParty_formatB P S A C hP hS hA hC hPS⟩

theorem c9_witness :
    parseRepParty (str "Pilot" ++ ' ' :: '[' ::
        (str "ALL" ++ ']' :: ' ' :: '[' :: (str "CORP" ++ ']' :: ' ' :: str "Ship")))
        = (str "Pilot", str "Ship", str "ALL", str "CORP") ∧
    parseRepParty (str "Ship" ++ ' ' :: '[' ::
        (str "ALL" ++ ']' :: ' ' :: '[' ::
          (str "CORP" ++ ']' :: ' ' :: '[' :: (str "Pilot" ++ [']']))))
        = (str "Pilot", str "Ship", str "ALL", str "CORP") :=
  c9_amended (str "Pilot") (str "Ship") (str "ALL") (str "CORP")
    (by decide) (by decide) (by decide) (by decide) (by decide) (by decide)

/-- Claim C10 as stated: for every well-formed damage-style descriptor
`Name[CORP](Ship)` with non-empty bracket-free tokens, the rep-style
attempt yields a non-empty corp (so `parse_entity_any` never falls back to
damage-style), `parse_entity_any` returns ship `"(Ship)"`, and
`parse_damage_entity` returns ship `"Ship"`. -/
def C10Claim : Prop :=
  ∀ N C S : Str, N ≠ [] → C ≠ [] → S ≠ [] →
    (∀ c ∈ N, c ≠ '[' ∧ c ≠ ']') →
    (∀ c ∈ C, c ≠ '[' ∧ c ≠ ']') →
    (∀ c ∈ S, c ≠ '[' ∧ c ≠ ']') →
    (parseRepParty (N ++ '[' :: (C ++ ']' :: '(' :: (S ++ [')'])))).2.2.2 ≠ [] ∧
    parseEntityAny (N ++ '[' :: (C ++ ']' :: '(' :: (S ++ [')'])))
        = parseRepParty (N ++ '[' :: (C ++ ']' :: '(' :: (S ++ [')']))) ∧
    (parseEntityAny (N ++ '[' :: (C ++ ']' :: '(' :: (S ++ [')'])))).2.1
        = '(' :: (S ++ [')']) ∧
    (parseDamageEntity (N ++ '[' :: (C ++ ']' :: '(' :: (S ++ [')'])))).2.2 = S

/-- Claim C10 is false as stated: with `CORP = " "` (non-empty!) the
rep-style attempt strips the ticker to the empty string, so the rep corp is
empty, contradicting the claimed reason "the rep-style attempt already
yields a non-empty corp" (the fallback is still not invoked — the rep ship
is non-empty — but the claim's corp assertion fails). -/
theorem c10_counterexample : ¬ C10Claim := by
  intro h
  have h2 := (h (str "Foo") [' '] (str "Rifter") (by decide) (by decide) (by decide)
    (by decide) (by decide) (by decide)).1
  exact absurd h2 (by decide)

/-- Claim C10, amended: for non-empty bracket-free tokens without edge
whitespace whose ship contains no `)`, the rep-style corp equals `CORP`
(hence non-empty), `parse_entity_any` returns the rep-style result with
ship `"(Ship)"`, and `parse_damage_entity` returns `(Name, CORP, Ship)`;
the two ship values always differ. -/
theorem c10_amended (N C S : Str)
    (hN : goodTok N = true) (hC : goodTok C = true) (hS : goodTok S = true)
    (hSp : ∀ c ∈ S, c ≠ ')') :
    (parseRepParty (N ++ '[' :: (C ++ ']' :: '(' :: (S ++ [')'])))).2.2.2 = C ∧
    parseEntityAny (N ++ '[' :: (C ++ ']' :: '(' :: (S ++ [')'])))
        = parseRepParty (N ++ '[' :: (C ++ ']' :: '(' :: (S ++ [')']))) ∧
    (parseEntityAny (N ++ '[' :: (C ++ ']' :: '(' :: (S ++ [')'])))).2.1
        = '(' :: (S ++ [')']) ∧
    parseDamageEntity (N ++ '[' :: (C ++ ']' :: '(' :: (S ++ [')'])))
        = (N, C, S) ∧
    (parseEntityAny (N ++ '[' :: (C ++ ']' :: '(' :: (S ++ [')'])))).2.1
        ≠ (parseDamageEntity (N ++ '[' :: (C ++ ']' :: '(' :: (S ++ [')'])))).2.2 := by
  obtain ⟨hship, halli, hcorp⟩ := parseRepParty_damage N C S hN hC hS
  have hd := parseDamageEntity_full N C S hN hC hS hSp
  have hany : parseEntityAny (N ++ '[' :: (C ++ ']' :: '(' :: (S ++ [')'])))
      = parseRepParty (N ++ '[' :: (C ++ ']' :: '(' :: (S ++ [')']))) := by
    unfold parseEntityAny
    rw [if_neg (fun hcon => (goodTok_ne_nil hC) (by rw [← hcorp]; exact hcon.1))]
  refine ⟨hcorp, hany, by rw [hany]; exact hship, hd, ?_⟩
  rw [hany, hship, hd]
  intro hcon
  have hlen := congrArg List.length hcon
  simp only [List.length_cons, List.length_append] at hlen
  omega

theorem c10_witness :
    (parseRepParty (str "Foo" ++ '[' :: (str "BAR" ++ ']' :: '(' :: (str "Rifter" ++ [')'])))).2.2.2
        = str "BAR" ∧
    parseEntityAny (str "Foo" ++ '[' :: (str "BAR" ++ ']' :: '(' :: (str "Rifter" ++ [')'])))
        = parseRepParty (str "Foo" ++ '[' :: (str "BAR" ++ ']' :: '(' :: (str "Rifter" ++ [')']))) ∧
    (parseEntityAny (str "Foo" ++ '[' :: (str "BAR" ++ ']' :: '(' :: (str "Rifter" ++ [')'])))).2.1
        = '(' :: (str "Rifter" ++ [')']) ∧
    parseDamageEntity (str "Foo" ++ '[' :: (str "BAR" ++ ']' :: '(' :: (str "Rifter" ++ [')'])))
        = (str "Foo", str "BAR", str "Rifter") ∧
    (parseEntityAny (str "Foo" ++ '[' :: (str "BAR" ++ ']' :: '(' :: (str "Rifter" ++ [')'])))).2.1
        ≠ (parseDamageEntity (str "Foo" ++ '[' :: (str "BAR" ++ ']' :: '(' :: (str "Rifter" ++ [')'])))).2.2 :=
  c10_amended (str "Foo") (str "BAR") (str "Rifter") (by decide) (by decide) (by decide) (by decide)

/-! ## `timeline.py` — ship-state timeline with disembark-bounded backfill -/

/-- `models.ShipStateEvent`: `ship = none` is a disembark boundary.
Timestamps are modelled as integers. -/
structure ShipStateEvent where
  t : Int
  ship : Option Str
  alliance : Str := []
  corp : Str := []
deriving DecidableEq, Repr

/-- `timeline._prev_disembark_index`: scan indices `j, j-1, …, 0` for the
first event with `ship is None`; `none` models the `-1` result.  (The
caller always passes an in-bounds index; an out-of-bounds index yields
`none`.) -/
def prevDisembarkIndex (events : List ShipStateEvent) : Nat → Option Nat
  | 0 =>
    match events[0]? with
    | some e => if e.ship = none then some 0 else none
    | none => none
  | j + 1 =>
    match events[j + 1]? with
    | some e => if e.ship = none then some (j + 1) else prevDisembarkIndex events j
    | none => none

/-- The forward scan of `timeline._next_known_ship_after`: stop (with no
result) at a disembark boundary, return the first event with a non-empty
ship, skip events with an empty ship string. -/
def nkGo : List ShipStateEvent → Option ShipStateEvent
  | [] => none
  | e :: rest =>
    match e.ship with
    | none => none
    | some s => if s ≠ [] then some e else nkGo rest

/-- `timeline._next_known_ship_after(events, start_i)`: scan indices
`start_i + 1, …`. -/
def nextKnownShipAfter (events : List ShipStateEvent) (startI : Nat) :
    Option ShipStateEvent :=
  nkGo (events.drop (startI + 1))

/-- The tail of `resolve_ship_with_backfill` after the `if ev.ship` check
(the found event is a disembark boundary or has an empty ship string). -/
def resolveDisembark (events : List ShipStateEvent) (t : Int) (idx : Nat) :
    Str × Str × Str :=
  match prevDisembarkIndex events idx with
  | some d =>
    match nextKnownShipAfter events d with
    | some nxt =>
      if t ≤ nxt.t then (nxt.ship.getD [], nxt.alliance, nxt.corp) else ([], [], [])
    | none => ([], [], [])
  | none => ([], [], [])

/-- `timeline.resolve_ship_with_backfill`.  The index loop
`for i, ev in enumerate(events): if ev.t <= t: idx = i else: break` makes
`idx` the last index of the `takeWhile (·.t ≤ t)` prefix (`-1` when that
prefix is empty). -/
def resolveShipWithBackfill (events : List ShipStateEvent) (t : Int) :
    Str × Str × Str :=
  match events.head? with
  | none => ([], [], [])
  | some first =>
    let pfx := events.takeWhile (fun e => decide (e.t ≤ t))
    match pfx.getLast? with
    | none =>
      -- best-effort backfill from the first observed ship state
      match first.ship with
      | some s => if s ≠ [] then (s, first.alliance, first.corp) else ([], [], [])
      | none => ([], [], [])
    | some ev =>
      match ev.ship with
      | some s =>
        if s ≠ [] then (s, ev.alliance, ev.corp)
        else resolveDisembark events t (pfx.length - 1)
      | none => resolveDisembark events t (pfx.length - 1)

/-- Per-pilot timelines, keyed by pilot name. -/
abbrev Timeline := List (Str × List ShipStateEvent)

def lookupTL (tl : Timeline) (k : Str) : Option (List ShipStateEvent) :=
  (tl.find? (fun p => p.1 = k)).map Prod.snd

/-- `timeline.lookup_ship`: `timeline.get(pilot.strip())`, empty answer on a
missing or empty event list. -/
def lookupShip (tl : Timeline) (pilot : Str) (t : Int) : Str × Str × Str :=
  match lookupTL tl (pstrip pilot) with
  | none => ([], [], [])
  | some events => if events = [] then ([], [], []) else resolveShipWithBackfill events t

/-- An event with a known (non-null, non-empty) ship. -/
def shipKnown (e : ShipStateEvent) : Bool :=
  match e.ship with
  | some s => !(s.isEmpty)
  | none => false

/-! ## Index lemmas for the backfill lookup -/

theorem takeWhile_eq_take_of {α : Type} {P : α → Bool} :
    ∀ (l : List α) (i : Nat), i < l.length →
    (∀ j (hj : j < l.length), j ≤ i → P (l.get ⟨j, hj⟩) = true) →
    (∀ h2 : i + 1 < l.length, P (l.get ⟨i + 1, h2⟩) = false) →
    l.takeWhile P = l.take (i + 1) := by
  intro l
  induction l with
  | nil => intro i hi; simp at hi
  | cons a rest ih =>
    intro i hi hall hstop
    have h0 : P a = true := hall 0 (by simp) (Nat.zero_le i)
    rw [List.takeWhile_cons, h0]
    simp only [if_true]
    cases i with
    | zero =>
      simp only [List.take_succ_cons, List.take_zero]
      congr 1
      cases rest with
      | nil => simp
      | cons b rb =>
        rw [takeWhile_cons_neg]
        exact hstop (by simp)
    | succ i2 =>
      simp only [List.take_succ_cons]
      congr 1
      refine ih i2 (by simpa using hi) ?_ ?_
      · intro j hj hji
        exact hall (j + 1) (by simpa using hj) (by omega)
      · intro h2
        exact hstop (by simpa using h2)

theorem getLast?_take_succ {α : Type} :
    ∀ (l : List α) (i : Nat) (hi : i < l.length),
    (l.take (i + 1)).getLast? = some (l.get ⟨i, hi⟩) := by
  intro l
  induction l with
  | nil => intro i hi; simp at hi
  | cons a rest ih =>
    intro i hi
    cases i with
    | zero => simp
    | succ i2 =>
      have hi2 : i2 < rest.length := by simpa using hi
      have hne : rest.take (i2 + 1) ≠ [] := by
        intro hnil
        have hl := congrArg List.length hnil
        simp only [List.length_take, List.length_nil] at hl
        omega
      rw [List.take_succ_cons, getLast?_cons_of_ne hne, ih i2 hi2]
      rfl

theorem prevDisembarkIndex_self {events : List ShipStateEvent} {i : Nat}
    {e : ShipStateEvent} (he : events[i]? = some e) (hn : e.ship = none) :
    prevDisembarkIndex events i = some i := by
  cases i with
  | zero => rw [prevDisembarkIndex, he]; simp [hn]
  | succ j => rw [prevDisembarkIndex, he]; simp [hn]

theorem shipKnown_some_iff {e : ShipStateEvent} {s : Str} (hs : e.ship = some s) :
    shipKnown e = (!(s.isEmpty)) := by
  simp [shipKnown, hs]

theorem nkGo_found :
    ∀ (l : List ShipStateEvent) (k : Nat) (hk : k < l.length),
    shipKnown (l.get ⟨k, hk⟩) = true →
    (∀ m (hm : m < l.length), m < k → (l.get ⟨m, hm⟩).ship = some []) →
    nkGo l = some (l.get ⟨k, hk⟩) := by
  intro l
  induction l with
  | nil => intro k hk; simp at hk
  | cons e rest ih =>
    intro k hk hkn hbet
    cases k with
    | zero =>
      have hkn2 : shipKnown e = true := hkn
      cases hs : e.ship with
      | none => rw [shipKnown, hs] at hkn2; simp at hkn2
      | some s =>
        rw [shipKnown_some_iff hs] at hkn2
        have hse : s ≠ [] := by
          intro hnil
          rw [hnil] at hkn2
          simp at hkn2
        rw [nkGo, hs]
        simp [hse]
    | succ k2 =>
      have h0 : e.ship = some [] := hbet 0 (by simp) (Nat.succ_pos k2)
      rw [nkGo, h0]
      simp only [ne_eq, not_true_eq_false, if_false]
      exact ih k2 (by simpa using hk) hkn
        (fun m hm hmk => hbet (m + 1) (by simpa using hm) (by omega))

theorem nkGo_none :
    ∀ (l : List ShipStateEvent),
    (∀ k (hk : k < l.length),
      (∀ m (hm : m < l.length), m < k → (l.get ⟨m, hm⟩).ship = some []) →
      shipKnown (l.get ⟨k, hk⟩) = false) →
    nkGo l = none := by
  intro l
  induction l with
  | nil => intro _; rfl
  | cons e rest ih =>
    intro hno
    have h0 : shipKnown e = false := hno 0 (by simp) (fun m hm hmk => by omega)
    cases hs : e.ship with
    | none => rw [nkGo, hs]
    | some s =>
      rw [shipKnown_some_iff hs] at h0
      have hse : s = [] := by
        have h1 : s.isEmpty = true := by simpa using h0
        simpa using h1
      subst hse
      rw [nkGo, hs]
      simp only [ne_eq, not_true_eq_false, if_false]
      refine ih ?_
      intro k hk hbet
      exact hno (k + 1) (by simpa using hk) (fun m hm hmk => by
        cases m with
        | zero => exact hs
        | succ m2 => exact hbet m2 (by simpa using hm) (by omega))

/-! ## C4 — the two asymmetric lookup rules of the timeline -/

/-- C4 as stated: for every time-sorted event list, (a) when no event has
timestamp at most t the first event answers whenever its ship is non-null,
and (b) when the last event with timestamp at most t is a disembark
boundary the answer is the first known-ship event after that boundary
exactly when t is at most its timestamp. -/
def C4Claim : Prop :=
  ∀ (events : List ShipStateEvent) (t : Int),
    List.Pairwise (fun a b => a.t ≤ b.t) events →
    ((events ≠ [] → (∀ e ∈ events, t < e.t) →
      resolveShipWithBackfill events t =
        match events.head? with
        | some first =>
          match first.ship with
          | some s => (s, first.alliance, first.corp)
          | none => ([], [], [])
        | none => ([], [], [])) ∧
     (∀ (i : Nat) (hi : i < events.length),
        (events.get ⟨i, hi⟩).t ≤ t →
        (∀ h2 : i + 1 < events.length, t < (events.get ⟨i + 1, h2⟩).t) →
        (events.get ⟨i, hi⟩).ship = none →
        resolveShipWithBackfill events t =
          match (events.drop (i + 1)).find? shipKnown with
          | some nxt =>
            if t ≤ nxt.t then (nxt.ship.getD [], nxt.alliance, nxt.corp)
            else ([], [], [])
          | none => ([], [], [])))

def c4ev : List ShipStateEvent :=
  [⟨1, none, [], []⟩, ⟨2, none, [], []⟩, ⟨3, some (str "Rifter"), [], []⟩]

/-- C4 counterexample: with two consecutive disembark boundaries before the
known-ship event, the forward scan aborts at the second boundary and the
code answers unknown, while the claimed rule answers the Rifter event. -/
theorem c4_counterexample : ¬ C4Claim := by
  intro h
  have h2 := (h c4ev 1 (by decide)).2 0 (by decide) (by decide)
    (by intro h2; exact (by decide : (1 : Int) < 2)) (by decide)
  exact absurd h2 (by decide)

theorem resolveShipWithBackfill_boundary (events : List ShipStateEvent) (t : Int)
    (i : Nat) (hi : i < events.length)
    (hall : ∀ j (hj : j < events.length), j ≤ i → (events.get ⟨j, hj⟩).t ≤ t)
    (hstop : ∀ h2 : i + 1 < events.length, t < (events.get ⟨i + 1, h2⟩).t)
    (hship : (events.get ⟨i, hi⟩).ship = none) :
    resolveShipWithBackfill events t =
      match nkGo (events.drop (i + 1)) with
      | some nxt =>
        if t ≤ nxt.t then (nxt.ship.getD [], nxt.alliance, nxt.corp) else ([], [], [])
      | none => ([], [], []) := by
  have htw : events.takeWhile (fun e => decide (e.t ≤ t)) = events.take (i + 1) := by
    refine takeWhile_eq_take_of events i hi ?_ ?_
    · intro j hj hji
      exact decide_eq_true (hall j hj hji)
    · intro h2
      exact decide_eq_false (not_le.mpr (hstop h2))
  have hlast : (events.take (i + 1)).getLast? = some (events.get ⟨i, hi⟩) :=
    getLast?_take_succ events i hi
  have hlen : (events.take (i + 1)).length = i + 1 := by
    simp only [List.length_take]
    omega
  have hpd : prevDisembarkIndex events i = some i := by
    refine prevDisembarkIndex_self ?_ hship
    exact List.getElem_eq_iff.mp rfl
  cases events with
  | nil => simp at hi
  | cons e rest =>
    unfold resolveShipWithBackfill
    simp only [List.head?_cons, htw, hlast, hship, hlen, Nat.add_sub_cancel]
    unfold resolveDisembark
    rw [hpd]
    rfl

/-- C4 amended: rule (a) additionally requires the first event's ship to be
a non-empty string; in rule (b) the backward scan stops at the found
boundary itself and the forward scan returns the next event carrying a
known ship only when every event strictly between is an empty-ship record —
a second null-ship boundary in between makes the lookup answer unknown. -/
theorem c4_amended (events : List ShipStateEvent) (t : Int) :
    ((∀ e ∈ events, t < e.t) → ∀ first, events.head? = some first →
      resolveShipWithBackfill events t =
        if shipKnown first then (first.ship.getD [], first.alliance, first.corp)
        else ([], [], [])) ∧
    (∀ (i k : Nat) (hi : i < events.length) (hk : k < events.length),
      i < k →
      (∀ j (hj : j < events.length), j ≤ i → (events.get ⟨j, hj⟩).t ≤ t) →
      (∀ h2 : i + 1 < events.length, t < (events.get ⟨i + 1, h2⟩).t) →
      (events.get ⟨i, hi⟩).ship = none →
      shipKnown (events.get ⟨k, hk⟩) = true →
      (∀ m (hm : m < events.length), i < m → m < k →
        (events.get ⟨m, hm⟩).ship = some []) →
      resolveShipWithBackfill events t =
        if t ≤ (events.get ⟨k, hk⟩).t
        then ((events.get ⟨k, hk⟩).ship.getD [],
              (events.get ⟨k, hk⟩).alliance, (events.get ⟨k, hk⟩).corp)
        else ([], [], [])) ∧
    (∀ (i : Nat) (hi : i < events.length),
      (∀ j (hj : j < events.length), j ≤ i → (events.get ⟨j, hj⟩).t ≤ t) →
      (∀ h2 : i + 1 < events.length, t < (events.get ⟨i + 1, h2⟩).t) →
      (events.get ⟨i, hi⟩).ship = none →
      (∀ k (hk : k < events.length), i < k →
        (∀ m (hm : m < events.length), i < m → m < k →
          (events.get ⟨m, hm⟩).ship = some []) →
        shipKnown (events.get ⟨k, hk⟩) = false) →
      resolveShipWithBackfill events t = ([], [], [])) := by
  refine ⟨?_, ?_, ?_⟩
  · intro ha first hfirst
    cases events with
    | nil => simp at hfirst
    | cons e rest =>
      have he : e = first := by simpa using hfirst
      subst he
      have htw : (e :: rest).takeWhile (fun x => decide (x.t ≤ t)) = [] := by
        rw [takeWhile_cons_neg]
        exact decide_eq_false (not_le.mpr (ha e (by simp)))
      unfold resolveShipWithBackfill
      simp only [List.head?_cons, htw, List.getLast?_nil]
      cases hs : e.ship with
      | none => simp [shipKnown, hs]
      | some s =>
        by_cases hse : s = []
        · subst hse
          simp [shipKnown, hs]
        · simp [shipKnown, hs, hse, List.isEmpty_iff]
  · intro i k hi hk hik hall hstop hship hkn hbet
    obtain ⟨m, rfl⟩ : ∃ m, k = i + 1 + m := ⟨k - (i + 1), by omega⟩
    have hres := resolveShipWithBackfill_boundary events t i hi hall hstop hship
    have hm : m < (events.drop (i + 1)).length := by
      simp only [List.length_drop]
      omega
    have hgm : (events.drop (i + 1)).get ⟨m, hm⟩ = events.get ⟨i + 1 + m, hk⟩ :=
      (List.get_drop events hk).symm
    have hd : nkGo (events.drop (i + 1)) = some (events.get ⟨i + 1 + m, hk⟩) := by
      rw [← hgm]
      refine nkGo_found (events.drop (i + 1)) m hm ?_ ?_
      · rw [hgm]
        exact hkn
      · intro m2 hm2 hm2m
        have hP : i + 1 + m2 < events.length := by omega
        have hg2 : (events.drop (i + 1)).get ⟨m2, hm2⟩ = events.get ⟨i + 1 + m2, hP⟩ :=
          (List.get_drop events hP).symm
        rw [hg2]
        exact hbet (i + 1 + m2) hP (by omega) (by omega)
    rw [hres, hd]
  · intro i hi hall hstop hship hnone
    have hres := resolveShipWithBackfill_boundary events t i hi hall hstop hship
    have hd : nkGo (events.drop (i + 1)) = none := by
      refine nkGo_none (events.drop (i + 1)) ?_
      intro k2 hk2 hbet
      have hP : i + 1 + k2 < events.length := by
        simp only [List.length_drop] at hk2
        omega
      have hg : (events.drop (i + 1)).get ⟨k2, hk2⟩ = events.get ⟨i + 1 + k2, hP⟩ :=
        (List.get_drop events hP).symm
      rw [hg]
      refine hnone (i + 1 + k2) hP (by omega) ?_
      intro m2 hm2 him2 hm2k
      have hQ : m2 - (i + 1) < (events.drop (i + 1)).length := by
        simp only [List.length_drop]
        omega
      have hR : i + 1 + (m2 - (i + 1)) < events.length := by omega
      have hg2 : (events.drop (i + 1)).get ⟨m2 - (i + 1), hQ⟩
          = events.get ⟨i + 1 + (m2 - (i + 1)), hR⟩ := (List.get_drop events hR).symm
      have hg3 : events.get ⟨i + 1 + (m2 - (i + 1)), hR⟩ = events.get ⟨m2, hm2⟩ := by
        congr 1
        simp only [Fin.mk.injEq]
        omega
      rw [← hg3, ← hg2]
      exact hbet (m2 - (i + 1)) hQ (by omega)
    rw [hres, hd]

/-- C4 witness: the first-event rule at a single later event, the backfill
rule across an empty-ship record, and the unknown answer across a second
boundary, each at concrete inputs. -/
theorem c4_witness :
    resolveShipWithBackfill [⟨5, some (str "Rifter"), str "AL", str "CO"⟩] 0
      = (str "Rifter", str "AL", str "CO")
    ∧ resolveShipWithBackfill
        [⟨1, none, [], []⟩, ⟨2, some [], [], []⟩, ⟨3, some (str "Punisher"), [], []⟩] 1
      = (str "Punisher", [], [])
    ∧ resolveShipWithBackfill c4ev 1 = ([], [], []) := by
  refine ⟨?_, ?_, ?_⟩
  · have h := (c4_amended [⟨5, some (str "Rifter"), str "AL", str "CO"⟩] 0).1
      (by decide) ⟨5, some (str "Rifter"), str "AL", str "CO"⟩ rfl
    exact h.trans (by decide)
  · have h := (c4_amended
        [⟨1, none, [], []⟩, ⟨2, some [], [], []⟩, ⟨3, some (str "Punisher"), [], []⟩] 1).2.1
      0 2 (by decide) (by decide) (by decide) (by decide)
      (by intro h2; exact (by decide : (1 : Int) < 2)) (by decide) (by decide) (by decide)
    exact h.trans (by decide)
  · have h := (c4_amended c4ev 1).2.2
      0 (by decide) (by decide) (by intro h2; exact (by decide : (1 : Int) < 2))
      (by decide) (by decide)
    exact h

/-! ## C5 — the worked three-event timeline example -/

def c5events (t1 t2 t3 : Int) : List ShipStateEvent :=
  [⟨t1, some (str "Rifter"), [], []⟩, ⟨t2, none, [], []⟩,
   ⟨t3, some (str "Punisher"), [], []⟩]

/-- C5 as stated: on the timeline Rifter, disembark, Punisher the lookup
answers Rifter before t1, the empty ship strictly between t2 and t3, and
Punisher at t3. -/
def C5Claim : Prop :=
  ∀ (P : Str) (t1 t2 t3 : Int), t1 < t2 → t2 < t3 →
    (∀ t0, t0 < t1 →
      (lookupShip [(P, c5events t1 t2 t3)] P t0).1 = str "Rifter") ∧
    (∀ t, t2 < t → t < t3 →
      (lookupShip [(P, c5events t1 t2 t3)] P t).1 = []) ∧
    (lookupShip [(P, c5events t1 t2 t3)] P t3).1 = str "Punisher"

/-- C5 counterexample: at t1 = 1, t2 = 2, t3 = 4 and query time 3 the code
backfills across the disembark boundary and answers Punisher, not the
empty ship claimed for the open interval. -/
theorem c5_counterexample : ¬ C5Claim := by
  intro h
  have h2 := (h (str "P") 1 2 4 (by decide) (by decide)).2.1 3 (by decide) (by decide)
  exact absurd h2 (by decide)

/-- C5 amended: before t1 the lookup answers Rifter, and for every query
time in the half-open interval (t2, t3] — not only at t3 — it answers
Punisher, because the disembark backfill reaches forward up to and
including the next known-ship timestamp. -/
theorem c5_amended (P : Str) (t1 t2 t3 : Int) (hP : pstrip P = P)
    (h12 : t1 < t2) (h23 : t2 < t3) :
    (∀ t0, t0 < t1 →
      lookupShip [(P, c5events t1 t2 t3)] P t0 = (str "Rifter", [], [])) ∧
    (∀ t, t2 < t → t ≤ t3 →
      lookupShip [(P, c5events t1 t2 t3)] P t = (str "Punisher", [], [])) := by
  have hlk : ∀ t, lookupShip [(P, c5events t1 t2 t3)] P t
      = resolveShipWithBackfill (c5events t1 t2 t3) t := by
    intro t
    simp [lookupShip, lookupTL, hP, c5events]
  constructor
  · intro t0 ht0
    rw [hlk]
    have hd1 : (decide (t1 ≤ t0)) = false := decide_eq_false (by omega)
    unfold c5events resolveShipWithBackfill
    simp only [List.head?_cons, List.takeWhile_cons, hd1, Bool.false_eq_true, if_false,
      List.getLast?_nil]
    rw [if_pos (show str "Rifter" ≠ [] from by decide)]
  · intro t ht2 ht3
    rw [hlk]
    rcases eq_or_lt_of_le ht3 with heq | hlt
    · subst heq
      have hd1 : (decide (t1 ≤ t)) = true := decide_eq_true (by omega)
      have hd2 : (decide (t2 ≤ t)) = true := decide_eq_true (by omega)
      have hd3 : (decide (t ≤ t)) = true := decide_eq_true (by omega)
      unfold c5events resolveShipWithBackfill
      simp only [List.head?_cons, List.takeWhile_cons, hd1, hd2, hd3, if_true,
        List.takeWhile_nil, List.getLast?_cons_cons, List.getLast?_singleton]
      rw [if_pos (show str "Punisher" ≠ [] from by decide)]
    · have hres := resolveShipWithBackfill_boundary (c5events t1 t2 t3) t 1
        (by exact (by decide : (1 : Nat) < 3))
        (by
          intro j hj hj1
          match j with
          | 0 => exact (by omega : t1 ≤ t)
          | 1 => exact (by omega : t2 ≤ t)
          | j2 + 2 => omega)
        (by intro h2; exact (by omega : t < t3))
        rfl
      have hnk : nkGo (List.drop 2 (c5events t1 t2 t3))
          = some (⟨t3, some (str "Punisher"), [], []⟩ : ShipStateEvent) := by
        have hps : str "Punisher" ≠ [] := by decide
        show (if str "Punisher" ≠ []
              then some (⟨t3, some (str "Punisher"), [], []⟩ : ShipStateEvent)
              else nkGo []) = some ⟨t3, some (str "Punisher"), [], []⟩
        rw [if_pos hps]
      rw [hres, hnk]
      simp [show t ≤ t3 from by omega]

/-- C5 witness: the amended ranges at t1 = 1, t2 = 2, t3 = 4 with query
times 0, 3 and 4. -/
theorem c5_witness :
    lookupShip [(str "Pilot", c5events 1 2 4)] (str "Pilot") 0 = (str "Rifter", [], [])
    ∧ lookupShip [(str "Pilot", c5events 1 2 4)] (str "Pilot") 3 = (str "Punisher", [], [])
    ∧ lookupShip [(str "Pilot", c5events 1 2 4)] (str "Pilot") 4 = (str "Punisher", [], []) := by
  have h := c5_amended (str "Pilot") 1 2 4 (by decide) (by decide) (by decide)
  exact ⟨h.1 0 (by decide), h.2 3 (by decide) (by decide), h.2 4 (by decide) (by decide)⟩

/-! ## `fights.py` — splitting combat timestamps into fight windows -/

/-- `fights.FightWindow`; timestamps are modelled as integer seconds, and
the `end` field is named `fin`. -/
structure FightWindow where
  start : Int
  fin : Int
deriving DecidableEq, Repr

/-- The accumulation loop of `fights.split_rows_into_fights`:
`for t in times[1:]: if t - prev > gap: out.append(...); start = t; prev = t`
followed by the final `out.append(FightWindow(start, prev))`. -/
def splitGo (gap : Int) : Int → Int → List Int → List FightWindow
  | start, prev, [] => [⟨start, prev⟩]
  | start, prev, t :: rest =>
    if t - prev > gap then ⟨start, prev⟩ :: splitGo gap t t rest
    else splitGo gap start t rest

/-- The parsed timestamps of the rows (a row's unparseable timestamp is
`none` and is skipped), sorted ascending as by `times.sort()`. -/
def sortedTimes (rows : List (Option Int)) : List Int :=
  List.insertionSort (fun a b => a ≤ b) (rows.filterMap id)

/-- `fights.split_rows_into_fights`, with `gap = timedelta(minutes=g)`
modelled as `60 * g` seconds. -/
def splitRowsIntoFights (rows : List (Option Int)) (gapMinutes : Int) :
    List FightWindow :=
  match sortedTimes rows with
  | [] => []
  | t0 :: rest => splitGo (60 * gapMinutes) t0 t0 rest

theorem splitGo_spec (gap : Int) (hgap : 0 ≤ gap) :
    ∀ (rest : List Int), ∀ (start prev : Int), start ≤ prev →
    List.Pairwise (fun a b => a ≤ b) (prev :: rest) →
    ((∃ w0 out2, splitGo gap start prev rest = w0 :: out2 ∧
        w0.start = start ∧ prev ≤ w0.fin) ∧
     (∀ w ∈ splitGo gap start prev rest, w.start ≤ w.fin ∧ start ≤ w.start) ∧
     List.Pairwise (fun a b => a.fin + gap < b.start) (splitGo gap start prev rest) ∧
     (∀ x ∈ prev :: rest, ∃ w ∈ splitGo gap start prev rest,
        w.start ≤ x ∧ x ≤ w.fin) ∧
     (∀ a b, (a, b) ∈ (prev :: rest).zip rest →
       ((∃ w ∈ splitGo gap start prev rest, w.start ≤ a ∧ b ≤ w.fin) ↔
         b - a ≤ gap))) := by
  intro rest
  induction rest with
  | nil =>
    intro start prev hsp hsort
    refine ⟨⟨⟨start, prev⟩, [], rfl, rfl, le_refl prev⟩, ?_, ?_, ?_, ?_⟩
    · intro w hw
      simp only [splitGo, List.mem_singleton] at hw
      subst hw
      exact ⟨hsp, le_refl start⟩
    · simp [splitGo]
    · intro x hx
      simp only [List.mem_singleton] at hx
      subst hx
      exact ⟨⟨start, x⟩, by simp [splitGo], hsp, le_refl x⟩
    · intro a b hp
      rw [List.zip_nil_right] at hp
      simp at hp
  | cons t rest ih =>
    intro start prev hsp hsort
    have hpt : prev ≤ t := (List.pairwise_cons.mp hsort).1 t (by simp)
    have hsort2 : List.Pairwise (fun a b => a ≤ b) (t :: rest) :=
      (List.pairwise_cons.mp hsort).2
    have htall : ∀ x ∈ rest, t ≤ x := (List.pairwise_cons.mp hsort2).1
    by_cases hsplit : t - prev > gap
    · have hout : splitGo gap start prev (t :: rest)
          = ⟨start, prev⟩ :: splitGo gap t t rest := by
        simp only [splitGo]
        rw [if_pos hsplit]
      obtain ⟨⟨w0, out2, hW, hWs, hWf⟩, hCJ, hPW, hG, hH⟩ :=
        ih t t (le_refl t) hsort2
      refine ⟨⟨⟨start, prev⟩, splitGo gap t t rest, hout, rfl, le_refl prev⟩,
        ?_, ?_, ?_, ?_⟩
      · intro w hw
        rw [hout] at hw
        rcases List.mem_cons.mp hw with h | h
        · subst h
          exact ⟨hsp, le_refl start⟩
        · obtain ⟨h1, h2⟩ := hCJ w h
          exact ⟨h1, by omega⟩
      · rw [hout]
        refine List.pairwise_cons.mpr ⟨?_, hPW⟩
        intro w hw
        have h2 := (hCJ w hw).2
        dsimp only
        omega
      · intro x hx
        rcases List.mem_cons.mp hx with h | h
        · subst h
          exact ⟨⟨start, x⟩, by rw [hout]; exact List.mem_cons_self _ _,
            hsp, le_refl x⟩
        · obtain ⟨w, hw, h1, h2⟩ := hG x h
          exact ⟨w, by rw [hout]; exact List.mem_cons_of_mem _ hw, h1, h2⟩
      · intro a b hp
        rw [List.zip_cons_cons] at hp
        rcases List.mem_cons.mp hp with h | h
        · rw [Prod.mk.injEq] at h
          obtain ⟨rfl, rfl⟩ := h
          constructor
          · rintro ⟨w, hw, h1, h2⟩
            rw [hout] at hw
            rcases List.mem_cons.mp hw with h3 | h3
            · subst h3
              dsimp only at h1 h2
              omega
            · have h4 := (hCJ w h3).2
              omega
          · intro hle
            omega
        · have hiff := hH a b h
          have hbt : t ≤ b := by
            rcases List.mem_zip h with ⟨_, hb⟩
            exact htall b hb
          constructor
          · rintro ⟨w, hw, h1, h2⟩
            rw [hout] at hw
            rcases List.mem_cons.mp hw with h3 | h3
            · subst h3
              dsimp only at h1 h2
              omega
            · exact hiff.mp ⟨w, h3, h1, h2⟩
          · intro hle
            obtain ⟨w, hw, h1, h2⟩ := hiff.mpr hle
            exact ⟨w, by rw [hout]; exact List.mem_cons_of_mem _ hw, h1, h2⟩
    · have hle : t - prev ≤ gap := not_lt.mp hsplit
      have hout : splitGo gap start prev (t :: rest) = splitGo gap start t rest := by
        simp only [splitGo]
        rw [if_neg hsplit]
      obtain ⟨⟨w0, out2, hW, hWs, hWf⟩, hCJ, hPW, hG, hH⟩ :=
        ih start t (by omega) hsort2
      refine ⟨⟨w0, out2, by rw [hout]; exact hW, hWs, by omega⟩, ?_, ?_, ?_, ?_⟩
      · intro w hw
        rw [hout] at hw
        exact hCJ w hw
      · rw [hout]
        exact hPW
      · intro x hx
        rcases List.mem_cons.mp hx with h | h
        · subst h
          refine ⟨w0, by rw [hout, hW]; exact List.mem_cons_self _ _, ?_, ?_⟩
          · rw [hWs]
            exact hsp
          · omega
        · obtain ⟨w, hw, h1, h2⟩ := hG x h
          exact ⟨w, by rw [hout]; exact hw, h1, h2⟩
      · intro a b hp
        rw [List.zip_cons_cons] at hp
        rcases List.mem_cons.mp hp with h | h
        · rw [Prod.mk.injEq] at h
          obtain ⟨rfl, rfl⟩ := h
          constructor
          · intro _
            omega
          · intro _
            refine ⟨w0, by rw [hout, hW]; exact List.mem_cons_self _ _, ?_, hWf⟩
            rw [hWs]
            exact hsp
        · have hiff := hH a b h
          rw [hout]
          exact hiff

/-- C6: the fight windows have start at most end, are ordered and pairwise
non-overlapping, jointly contain every parseable timestamp, and two
consecutive sorted timestamps share a window exactly when their gap is at
most the threshold (a gap equal to the threshold stays in the window). -/
theorem c6_confirmed (rows : List (Option Int)) (g : Int) (hg : 0 ≤ g) :
    (∀ w ∈ splitRowsIntoFights rows g, w.start ≤ w.fin) ∧
    List.Pairwise (fun a b => a.fin < b.start) (splitRowsIntoFights rows g) ∧
    (∀ t : Int, some t ∈ rows →
      ∃ w ∈ splitRowsIntoFights rows g, w.start ≤ t ∧ t ≤ w.fin) ∧
    (∀ a b, (a, b) ∈ (sortedTimes rows).zip (sortedTimes rows).tail →
      ((∃ w ∈ splitRowsIntoFights rows g, w.start ≤ a ∧ b ≤ w.fin) ↔
        b - a ≤ 60 * g)) := by
  have hgap : (0 : Int) ≤ 60 * g := by omega
  have hmemsort : ∀ t : Int, some t ∈ rows → t ∈ sortedTimes rows := by
    intro t ht
    have h1 : t ∈ rows.filterMap id := List.mem_filterMap.mpr ⟨some t, ht, rfl⟩
    exact (List.perm_insertionSort _ _).mem_iff.mpr h1
  cases hst : sortedTimes rows with
  | nil =>
    have hout : splitRowsIntoFights rows g = [] := by
      unfold splitRowsIntoFights
      rw [hst]
    refine ⟨?_, ?_, ?_, ?_⟩
    · intro w hw
      rw [hout] at hw
      simp at hw
    · rw [hout]
      exact List.Pairwise.nil
    · intro t ht
      have := hmemsort t ht
      rw [hst] at this
      simp at this
    · intro a b hp
      simp at hp
  | cons t0 rest =>
    have hsorted : List.Pairwise (fun a b => a ≤ b) (t0 :: rest) := by
      have h1 := List.sorted_insertionSort (fun a b => a ≤ b) (rows.filterMap id)
      rw [show List.insertionSort (fun a b => a ≤ b) (rows.filterMap id)
          = sortedTimes rows from rfl, hst] at h1
      exact h1
    have hout : splitRowsIntoFights rows g = splitGo (60 * g) t0 t0 rest := by
      unfold splitRowsIntoFights
      rw [hst]
    obtain ⟨hA, hCJ, hPW, hG, hH⟩ :=
      splitGo_spec (60 * g) hgap rest t0 t0 (le_refl t0) hsorted
    refine ⟨?_, ?_, ?_, ?_⟩
    · intro w hw
      rw [hout] at hw
      exact (hCJ w hw).1
    · rw [hout]
      exact hPW.imp (fun h => by omega)
    · intro t ht
      have hmem := hmemsort t ht
      rw [hst] at hmem
      obtain ⟨w, hw, h1, h2⟩ := hG t hmem
      exact ⟨w, by rw [hout]; exact hw, h1, h2⟩
    · intro a b hp
      simp only [List.tail_cons] at hp
      have hiff := hH a b hp
      rw [hout]
      exact hiff

/-- C6 witness: the properties at rows with timestamps 10, 40 and 1000
seconds (one unparseable row) and a one-minute gap threshold. -/
theorem c6_witness :
    (∀ w ∈ splitRowsIntoFights [some 10, none, some 1000, some 40] 1,
      w.start ≤ w.fin) ∧
    List.Pairwise (fun a b => a.fin < b.start)
      (splitRowsIntoFights [some 10, none, some 1000, some 40] 1) ∧
    (∀ t : Int, some t ∈ [some 10, none, some 1000, some 40] →
      ∃ w ∈ splitRowsIntoFights [some 10, none, some 1000, some 40] 1,
        w.start ≤ t ∧ t ≤ w.fin) ∧
    (∀ a b, (a, b) ∈ (sortedTimes [some 10, none, some 1000, some 40]).zip
        (sortedTimes [some 10, none, some 1000, some 40]).tail →
      ((∃ w ∈ splitRowsIntoFights [some 10, none, some 1000, some 40] 1,
          w.start ≤ a ∧ b ≤ w.fin) ↔ b - a ≤ 60 * 1)) :=
  c6_confirmed [some 10, none, some 1000, some 40] 1 (by omega)

/-! ## `text.py` lexing and the pass-2 timestamp path of `parser.py` -/

/-- Helper for `TAG_RE.sub`: the suffix after the first closing angle
bracket, if any. -/
def tagSplit : Str → Option Str
  | [] => none
  | c :: rest => if c = '>' then some rest else tagSplit rest

/-- Fuel-indexed core of `TAG_RE.sub("", raw)`: an opening angle bracket
with a later closing one removes the whole tag, an unclosed one stays. -/
def stripTagsF : Nat → Str → Str
  | 0, s => s
  | _ + 1, [] => []
  | fuel + 1, c :: rest =>
    if c = '<' then
      match tagSplit rest with
      | some after => stripTagsF fuel after
      | none => c :: stripTagsF fuel rest
    else c :: stripTagsF fuel rest

def stripTags (s : Str) : Str := stripTagsF s.length s

/-- `text.clean_line`: strip tags, collapse whitespace runs to a single
space, strip the ends. -/
def cleanLine (raw : Str) : Str := pstrip (collapseWs (stripTags raw))

def digitVal (c : Char) : Option Nat :=
  if c.isDigit then some (c.toNat - 48) else none

def num2 (a b : Char) : Option Nat :=
  match digitVal a, digitVal b with
  | some x, some y => some (10 * x + y)
  | _, _ => none

def num4 (a b c d : Char) : Option Nat :=
  match digitVal a, digitVal b, digitVal c, digitVal d with
  | some x, some y, some z, some w => some (1000 * x + 100 * y + 10 * z + w)
  | _, _, _, _ => none

def isLeap (y : Nat) : Bool := (y % 4 = 0 && !(y % 100 = 0)) || y % 400 = 0

def daysInMonth (y m : Nat) : Nat :=
  if m = 2 then (if isLeap y then 29 else 28)
  else if m = 4 ∨ m = 6 ∨ m = 9 ∨ m = 11 then 30
  else 31

def validDT (y mo dy hh mi ss : Nat) : Bool :=
  decide (1 ≤ y) && decide (y ≤ 9999) && decide (1 ≤ mo) && decide (mo ≤ 12)
    && decide (1 ≤ dy) && decide (dy ≤ daysInMonth y mo)
    && decide (hh ≤ 23) && decide (mi ≤ 59) && decide (ss ≤ 59)

structure DateTime where
  y : Nat
  mo : Nat
  dy : Nat
  hh : Nat
  mi : Nat
  ss : Nat
deriving DecidableEq, Repr

/-- `text.parse_ts` = `datetime.strptime(ts_str, "%Y.%m.%d %H:%M:%S")`:
the raising variant, modelled as `Except` — `.error ()` is the
`ValueError`.  Inputs always come from the timestamp group of
`TS_PREFIX_RE` on a whitespace-collapsed line, so the shape is fixed and
the interesting part is the calendar validation. -/
def parseTs (s : Str) : Except Unit DateTime :=
  match s with
  | [y1, y2, y3, y4, p1, m1, m2, p2, d1, d2, sp, h1, h2, c1, n1, n2, c2, s1, s2] =>
    if p1 = '.' ∧ p2 = '.' ∧ sp = ' ' ∧ c1 = ':' ∧ c2 = ':' then
      match num4 y1 y2 y3 y4, num2 m1 m2, num2 d1 d2,
          num2 h1 h2, num2 n1 n2, num2 s1 s2 with
      | some y, some mo, some dy, some hh, some mi, some ss =>
        if validDT y mo dy hh mi ss then .ok ⟨y, mo, dy, hh, mi, ss⟩ else .error ()
      | _, _, _, _, _, _ => .error ()
    else .error ()
  | _ => .error ()

/-- `text.TS_PREFIX_RE.match`: on success returns the timestamp group, the
channel group and the body group.  Every character class decides the next
step, so the greedy scan is deterministic. -/
def matchTsPrefix (s : Str) : Option (Str × Str × Str) :=
  match s with
  | '[' :: rest =>
    match rest.dropWhile isPyWs with
    | y1 :: y2 :: y3 :: y4 :: p1 :: m1 :: m2 :: p2 :: d1 :: d2 :: r2 =>
      if y1.isDigit && y2.isDigit && y3.isDigit && y4.isDigit && decide (p1 = '.')
          && m1.isDigit && m2.isDigit && decide (p2 = '.') && d1.isDigit && d2.isDigit then
        let wsRun := r2.takeWhile isPyWs
        if wsRun = [] then none
        else
          match r2.dropWhile isPyWs with
          | h1 :: h2 :: c1 :: n1 :: n2 :: c2 :: s1 :: s2 :: r4 =>
            if h1.isDigit && h2.isDigit && decide (c1 = ':') && n1.isDigit && n2.isDigit
                && decide (c2 = ':') && s1.isDigit && s2.isDigit then
              match r4.dropWhile isPyWs with
              | ']' :: r6 =>
                if r6.takeWhile isPyWs = [] then none
                else
                  match r6.dropWhile isPyWs with
                  | '(' :: r8 =>
                    let chan := r8.takeWhile (fun c => !(c = ')'))
                    match r8.dropWhile (fun c => !(c = ')')) with
                    | ')' :: r9 =>
                      if chan = [] then none
                      else if r9.takeWhile isPyWs = [] then none
                      else
                        some ([y1, y2, y3, y4, p1, m1, m2, p2, d1, d2] ++ wsRun
                            ++ [h1, h2, c1, n1, n2, c2, s1, s2],
                          chan, r9.dropWhile isPyWs)
                    | _ => none
                  | _ => none
              | _ => none
            else none
          | _ => none
      else none
    | _ => none
  | _ => none

/-- The per-line lexing spine of `parser.parse_log_file_to_rows` (pass 2):
clean the line, track the `Listener:` state, match `TS_PREFIX_RE`, then
call the raising `parse_ts` on the timestamp group — unguarded, so its
error aborts the whole run.  Classification consumes the yielded
(timestamp, channel, body, listener) tuples and never raises on them. -/
def parseLogLex (listener : Str) : List Str → Except Unit (List (DateTime × Str × Str × Str))
  | [] => .ok []
  | raw :: rest =>
    let cleaned := cleanLine raw
    if cleaned.take 9 = str "Listener:" then
      parseLogLex (pstrip (cleaned.drop 9)) rest
    else
      match matchTsPrefix cleaned with
      | none => parseLogLex listener rest
      | some (tsStr, chan, body) =>
        match parseTs tsStr with
        | .error e => .error e
        | .ok ts =>
          if listener = [] then parseLogLex listener rest
          else (parseLogLex listener rest).map (fun tl => (ts, chan, body, listener) :: tl)

/-- C7: the claim fails as a code bug — a line whose bracketed prefix
matches the timestamp pattern but carries month 13 makes the unguarded
`parse_ts` call of pass 2 raise, aborting the run instead of skipping the
line; the same line with month 12 parses and yields its row tuple. -/
theorem c7_code_bug :
    parseLogLex [] [str "Listener: Alice",
        str "[2026.13.01 00:00:00] (combat) x from Bob[C](Rifter) - B"]
      = Except.error ()
    ∧ parseTs (str "2026.13.01 00:00:00") = Except.error ()
    ∧ parseTs (str "2026.12.01 00:00:00") = Except.ok ⟨2026, 12, 1, 0, 0, 0⟩
    ∧ parseLogLex [] [str "Listener: Alice",
        str "[2026.12.01 00:00:00] (combat) x from Bob[C](Rifter) - B"]
      = Except.ok [(⟨2026, 12, 1, 0, 0, 0⟩, str "combat",
          str "x from Bob[C](Rifter) - B", str "Alice")] := by
  exact ⟨rfl, rfl, rfl, rfl⟩

/-! ## `affiliations.py` — the corp-to-alliance record store -/

/-- `models.AffiliationRecord`; timestamps are modelled as integers. -/
structure AffiliationRecord where
  alliance : Str
  first_seen : Int
  last_seen : Int
deriving DecidableEq, Repr

/-- Python dict lookup over an insertion-ordered association list. -/
def alGet {β : Type} (db : List (Str × β)) (k : Str) : Option β :=
  (db.find? (fun p => decide (p.1 = k))).map Prod.snd

/-- Python dict store: overwrite in place, append a new key at the end. -/
def alSet {β : Type} (db : List (Str × β)) (k : Str) (v : β) : List (Str × β) :=
  match db with
  | [] => [(k, v)]
  | (k2, v2) :: rest => if k2 = k then (k, v) :: rest else (k2, v2) :: alSet rest k v

abbrev AffDb := List (Str × AffiliationRecord)

/-- `affiliations.update_affiliation_db`: strip both tickers, bail out if
either is blank, then insert a fresh record or overwrite alliance and
last_seen (keeping first_seen) of the existing one. -/
def updateAffiliationDb (db : AffDb) (corp alliance : Str) (ts : Int) : AffDb :=
  let c := pstrip corp
  let a := pstrip alliance
  if c = [] ∨ a = [] then db
  else
    match alGet db c with
    | none => alSet db c ⟨a, ts, ts⟩
    | some r => alSet db c ⟨a, r.first_seen, ts⟩

theorem alGet_cons_self {β : Type} (k : Str) (v : β) (rest : List (Str × β)) :
    alGet ((k, v) :: rest) k = some v := by
  unfold alGet
  rw [List.find?_cons_of_pos _ (by simp)]
  rfl

theorem alGet_cons_ne {β : Type} (k k2 : Str) (hne : k ≠ k2) (v : β)
    (rest : List (Str × β)) : alGet ((k, v) :: rest) k2 = alGet rest k2 := by
  unfold alGet
  rw [List.find?_cons_of_neg _ (by simp [hne])]

theorem alGet_alSet_self {β : Type} (db : List (Str × β)) (k : Str) (v : β) :
    alGet (alSet db k v) k = some v := by
  induction db with
  | nil => exact alGet_cons_self k v []
  | cons p rest ih =>
    obtain ⟨k2, v2⟩ := p
    simp only [alSet]
    by_cases h : k2 = k
    · subst h
      rw [if_pos rfl]
      exact alGet_cons_self _ _ _
    · rw [if_neg h, alGet_cons_ne k2 k h v2 (alSet rest k v)]
      exact ih

theorem alGet_alSet_ne {β : Type} (db : List (Str × β)) (k : Str) (v : β)
    (k2 : Str) (h : k2 ≠ k) : alGet (alSet db k v) k2 = alGet db k2 := by
  induction db with
  | nil =>
    show alGet [(k, v)] k2 = alGet [] k2
    rw [alGet_cons_ne k k2 (fun h2 => h h2.symm) v []]
  | cons p rest ih =>
    obtain ⟨k3, v3⟩ := p
    simp only [alSet]
    by_cases h3 : k3 = k
    · subst h3
      rw [if_pos rfl, alGet_cons_ne k3 k2 (fun h2 => h h2.symm) v rest,
        alGet_cons_ne k3 k2 (fun h2 => h h2.symm) v3 rest]
    · rw [if_neg h3]
      by_cases h4 : k3 = k2
      · subst h4
        rw [alGet_cons_self, alGet_cons_self]
      · rw [alGet_cons_ne k3 k2 h4 v3 (alSet rest k v), alGet_cons_ne k3 k2 h4 v3 rest]
        exact ih

/-- C8 as stated: the store is modified only for non-empty arguments, the
stored last_seen of a corp record never decreases across updates, and the
most recent alliance wins. -/
def C8Claim : Prop :=
  (∀ (db : AffDb) (c a : Str) (ts : Int),
    updateAffiliationDb db c a ts ≠ db → c ≠ [] ∧ a ≠ []) ∧
  (∀ (db : AffDb) (c a : Str) (ts : Int) (k : Str) (r r2 : AffiliationRecord),
    alGet db k = some r → alGet (updateAffiliationDb db c a ts) k = some r2 →
    r.last_seen ≤ r2.last_seen) ∧
  (∀ (db : AffDb) (c a : Str) (ts : Int),
    pstrip c ≠ [] → pstrip a ≠ [] →
    ∃ r, alGet (updateAffiliationDb db c a ts) (pstrip c) = some r ∧
      r.alliance = pstrip a)

/-- C8 counterexample: an update carrying an older timestamp than the
stored record overwrites last_seen with it — 10 drops to 5. -/
theorem c8_counterexample : ¬ C8Claim := by
  intro h
  have h2 := h.2.1 [(str "C", ⟨str "A", 10, 10⟩)] (str "C") (str "A") 5 (str "C")
    ⟨str "A", 10, 10⟩ ⟨str "A", 10, 5⟩ (by decide) (by decide)
  exact absurd h2 (by decide)

/-- C8 amended: the store is modified only when both stripped tickers are
non-blank; an effective update sets the touched corp record's last_seen to
exactly the call's timestamp (so it is monotone for chronologically
ordered call sequences, but an out-of-order call lowers it), keeps
first_seen, lets the most recent alliance win, and leaves every other key
unchanged. -/
theorem c8_amended (db : AffDb) (c a : Str) (ts : Int) :
    (updateAffiliationDb db c a ts ≠ db → pstrip c ≠ [] ∧ pstrip a ≠ []) ∧
    (pstrip c ≠ [] → pstrip a ≠ [] →
      ∃ r2, alGet (updateAffiliationDb db c a ts) (pstrip c) = some r2 ∧
        r2.alliance = pstrip a ∧ r2.last_seen = ts ∧
        (∀ r, alGet db (pstrip c) = some r → r2.first_seen = r.first_seen) ∧
        (alGet db (pstrip c) = none → r2.first_seen = ts)) ∧
    (∀ k, k ≠ pstrip c → alGet (updateAffiliationDb db c a ts) k = alGet db k) ∧
    (∀ k r r2, alGet db k = some r →
      alGet (updateAffiliationDb db c a ts) k = some r2 →
      r2 = r ∨ r2.last_seen = ts) := by
  refine ⟨?_, ?_, ?_, ?_⟩
  · intro hmod
    constructor
    · intro hc
      exact hmod (by unfold updateAffiliationDb; rw [if_pos (Or.inl hc)])
    · intro ha
      exact hmod (by unfold updateAffiliationDb; rw [if_pos (Or.inr ha)])
  · intro hc ha
    have hcond : ¬ (pstrip c = [] ∨ pstrip a = []) := by
      rintro (h | h)
      · exact hc h
      · exact ha h
    unfold updateAffiliationDb
    rw [if_neg hcond]
    cases hget : alGet db (pstrip c) with
    | none =>
      refine ⟨⟨pstrip a, ts, ts⟩, alGet_alSet_self _ _ _, rfl, rfl, ?_, fun _ => rfl⟩
      intro r hr
      simp at hr
    | some r =>
      refine ⟨⟨pstrip a, r.first_seen, ts⟩, alGet_alSet_self _ _ _, rfl, rfl, ?_, ?_⟩
      · intro r3 hr3
        simp only [Option.some.injEq] at hr3
        rw [hr3]
      · intro hnone
        simp at hnone
  · intro k hk
    unfold updateAffiliationDb
    by_cases hcond : pstrip c = [] ∨ pstrip a = []
    · rw [if_pos hcond]
    · rw [if_neg hcond]
      cases hget : alGet db (pstrip c) with
      | none => exact alGet_alSet_ne _ _ _ _ hk
      | some r => exact alGet_alSet_ne _ _ _ _ hk
  · intro k r r2 hr hr2
    by_cases hcond : pstrip c = [] ∨ pstrip a = []
    · left
      unfold updateAffiliationDb at hr2
      rw [if_pos hcond] at hr2
      rw [hr] at hr2
      cases hr2
      rfl
    · by_cases hk : k = pstrip c
      · subst hk
        unfold updateAffiliationDb at hr2
        rw [if_neg hcond, hr, alGet_alSet_self] at hr2
        cases hr2
        right
        rfl
      · left
        unfold updateAffiliationDb at hr2
        rw [if_neg hcond] at hr2
        cases hget : alGet db (pstrip c) with
        | none =>
          rw [hget, alGet_alSet_ne _ _ _ _ hk, hr] at hr2
          cases hr2
          rfl
        | some r3 =>
          rw [hget, alGet_alSet_ne _ _ _ _ hk, hr] at hr2
          cases hr2
          rfl

/-- C8 witness: updating a stored corp record with a newer timestamp and a
different alliance at concrete inputs. -/
theorem c8_witness :
    ∃ r2, alGet (updateAffiliationDb [(str "C", ⟨str "A", 10, 10⟩)]
        (str "C") (str "B") 12) (pstrip (str "C")) = some r2 ∧
      r2.alliance = pstrip (str "B") ∧ r2.last_seen = 12 ∧
      (∀ r, alGet [(str "C", (⟨str "A", 10, 10⟩ : AffiliationRecord))]
        (pstrip (str "C")) = some r → r2.first_seen = r.first_seen) ∧
      (alGet [(str "C", (⟨str "A", 10, 10⟩ : AffiliationRecord))]
        (pstrip (str "C")) = none → r2.first_seen = 12) :=
  (c8_amended [(str "C", ⟨str "A", 10, 10⟩)] (str "C") (str "B") 12).2.1
    (by decide) (by decide)

/-! ## `npc.py` — lexical drone/charge detection -/

def normName (s : Str) : Str := pyLower (pstrip s)

/-- Substring containment, `kw in n`. -/
def containsSub (sub : Str) : Str → Bool
  | [] => List.isPrefixOf sub []
  | c :: rest => List.isPrefixOf sub (c :: rest) || containsSub sub rest

def droneKeywords : List Str := [str "drone", str "sentry", str "fighter"]

def dronePrefixes : List Str :=
  [str "warrior", str "hobgoblin", str "hammerhead", str "ogre", str "infiltrator",
   str "praetor", str "vespa", str "hornet", str "garde", str "curator",
   str "warden", str "bouncer", str "gecko"]

def chargeKeywords : List Str :=
  [str "missile", str "torpedo", str "rocket", str "bomb", str "charge",
   str "crystal", str "shell", str "slug", str "projectile", str "warhead",
   str "ammo"]

def romanSuffixes : List Str :=
  [str " i", str " ii", str " iii", str " iv", str " v", str " vi",
   str " vii", str " viii", str " ix", str " x"]

/-- `npc.looks_like_drone`; `items` is the lower-cased SDE name set. -/
def looksLikeDrone (items : List Str) (name : Str) : Bool :=
  let n := normName name
  if n = [] then false
  else
    let inSde := items.isEmpty || items.contains n
    (droneKeywords.any (fun kw => containsSub kw n) && inSde)
    || (dronePrefixes.any (fun pre => List.isPrefixOf (pre ++ [' ']) n
          || decide (n = pre)) && inSde)
    || (containsSub (str " ec-") n && inSde)
    || (romanSuffixes.any (fun suf => List.isSuffixOf suf n) && inSde)

/-- `npc.looks_like_charge`. -/
def looksLikeCharge (items : List Str) (name : Str) : Bool :=
  let n := normName name
  if n = [] then false
  else
    let inSde := items.isEmpty || items.contains n
    if chargeKeywords.any (fun kw => containsSub kw n) then
      if inSde then true
      else chargeKeywords.contains ((n.reverse.takeWhile (fun c => !(isPyWs c))).reverse)
    else false

def exclPilot (items : List Str) (name : Str) : Bool :=
  looksLikeDrone items name || looksLikeCharge items name

/-! ## `pilot_db.py` and the per-fight enrichment chain of `cli.py` -/

/-- One side of a row: the `{side}_pilot/corp/alliance/ship_type` fields. -/
structure Party where
  pilot : Str
  corp : Str
  alliance : Str
  ship : Str
deriving DecidableEq, Repr

/-- A combat row; only the source/target descriptor fields take part in the
enrichment chain. -/
structure Row where
  src : Party
  tgt : Party
deriving DecidableEq, Repr

structure PilotInfo where
  corp : Str := []
  alliance : Str := []
  ship_type : Str := []
deriving DecidableEq, Repr

abbrev PilotDb := List (Str × PilotInfo)

/-- The flattened `for r in rows: for side in ("source", "target")`
iteration order. -/
def partiesOf (rows : List Row) : List Party :=
  rows.flatMap (fun r => [r.src, r.tgt])

/-- One step of `pilot_db.learn_from_rows_excluding_items`: the body of the
per-side loop.  Equal-value writes are dropped (`changed` flag), which is
observationally the Python in-place mutation. -/
def learnParty (excl : Str → Bool) (learnShip : Bool) (db : PilotDb) (p : Party) :
    PilotDb :=
  if excl p.pilot then db
  else
    let key := normKey p.pilot
    if key = [] then db
    else
      let corp := pstrip p.corp
      let allc := pstrip p.alliance
      let ship := pstrip p.ship
      let cur := (alGet db key).getD ⟨[], [], []⟩
      let cur1 := if corp ≠ [] ∧ corp ≠ cur.corp then { cur with corp := corp } else cur
      let cur2 := if allc ≠ [] ∧ allc ≠ cur1.alliance then { cur1 with alliance := allc }
                  else cur1
      let cur3 := if learnShip ∧ ship ≠ [] ∧ ship ≠ cur2.ship_type
                  then { cur2 with ship_type := ship } else cur2
      if cur3 ≠ cur then alSet db key cur3 else db

def learnRows (excl : Str → Bool) (learnShip : Bool) (db : PilotDb)
    (rows : List Row) : PilotDb :=
  (partiesOf rows).foldl (learnParty excl learnShip) db

/-- The per-side body of `pilot_db.backfill_rows_from_db`. -/
def backfillParty (db : PilotDb) (fillShip : Bool) (p : Party) : Party :=
  let key := normKey p.pilot
  if key = [] then p
  else
    match alGet db key with
    | none => p
    | some info =>
      let p1 := if pstrip p.corp = [] ∧ info.corp ≠ [] then { p with corp := info.corp }
                else p
      let p2 := if pstrip p1.alliance = [] ∧ info.alliance ≠ []
                then { p1 with alliance := info.alliance } else p1
      if fillShip ∧ pstrip p2.ship = [] ∧ info.ship_type ≠ []
      then { p2 with ship := info.ship_type } else p2

def backfillRowsFromDb (db : PilotDb) (rows : List Row) (fillShip : Bool) :
    List Row :=
  rows.map (fun r => ⟨backfillParty db fillShip r.src, backfillParty db fillShip r.tgt⟩)

/-- The per-side body of `affiliations.fill_alliance_from_aff_db`. -/
def fillAllianceParty (affDb : AffDb) (p : Party) : Party :=
  if pstrip p.alliance = [] then
    let corp := pstrip p.corp
    if corp ≠ [] then
      match alGet affDb corp with
      | some r => { p with alliance := r.alliance }
      | none => p
    else p
  else p

def fillAllianceFromAffDb (affDb : AffDb) (rows : List Row) : List Row :=
  rows.map (fun r => ⟨fillAllianceParty affDb r.src, fillAllianceParty affDb r.tgt⟩)

/-- One step of `affiliations.build_pilot_ticker_maps`. -/
def bptcStep (m : List (Str × Str)) (p : Party) : List (Str × Str) :=
  if normKey p.pilot ≠ [] ∧ normKey p.corp ≠ []
  then alSet m (normKey p.pilot) (normKey p.corp) else m

/-- `affiliations.build_pilot_ticker_maps`, pilot-to-corp component (the
pilot-to-alliance map is discarded by the chain). -/
def buildPilotToCorp (rows : List Row) : List (Str × Str) :=
  (partiesOf rows).foldl bptcStep []

/-- The per-side body of `affiliations.fill_missing_corps_from_pilot_map`;
the Bool reports whether a fill happened. -/
def fillCorpParty (m : List (Str × Str)) (p : Party) : Party × Bool :=
  if normKey p.corp ≠ [] then (p, false)
  else
    let pk := normKey p.pilot
    if pk ≠ [] then
      match alGet m pk with
      | some c => ({ p with corp := c }, true)
      | none => (p, false)
    else (p, false)

def fillMissingCorps (m : List (Str × Str)) (rows : List Row) : List Row × Nat :=
  rows.foldr (fun r acc =>
    let s := fillCorpParty m r.src
    let t := fillCorpParty m r.tgt
    (⟨s.1, t.1⟩ :: acc.1,
      acc.2 + (if s.2 then 1 else 0) + (if t.2 then 1 else 0))) ([], 0)

/-- `esi.enrich_missing_alliances_via_esi`: `ok_to_lookup_pilot`. -/
def okToLookup (items : List Str) (sp : Str) : Bool :=
  !(items.contains (pyLower (pstrip sp)))

/-- One step of the `need` collection loop. -/
def cnStep (items : List Str) (need : List Str) (p : Party) : List Str :=
  if pstrip p.pilot ≠ [] ∧ pstrip p.alliance = []
      ∧ okToLookup items (pstrip p.pilot) = true ∧ ¬ (pstrip p.pilot ∈ need)
  then need ++ [pstrip p.pilot] else need

/-- The `need` collection loop: ordered, de-duplicated pilots with a
non-blank name, a blank alliance, and no SDE item-name match. -/
def collectNeed (items : List Str) (rows : List Row) : List Str :=
  (partiesOf rows).foldl (cnStep items) []

/-- The ESI learning loop body: learn `corp -> alliance` into `aff_esi`,
counting only new corp keys.  The oracle models
`esi_get_pilot_alliance_and_corpinfo` as a fixed pure lookup. -/
def esiLearn (oracle : Str → Str × Str) (now : Int) (acc : AffDb × Nat)
    (pilot : Str) : AffDb × Nat :=
  let a := (oracle pilot).1
  let c := (oracle pilot).2
  if c ≠ [] ∧ a ≠ [] then
    match alGet acc.1 c with
    | none => (alSet acc.1 c ⟨a, now, now⟩, acc.2 + 1)
    | some r => (alSet acc.1 c ⟨a, r.first_seen, now⟩, acc.2)
  else acc

/-- The resolved-map fill loop body: `resolved.get(sp, "")` is the oracle
alliance for pilots that were collected into `need`. -/
def esiFillParty (oracle : Str → Str × Str) (need : List Str) (p : Party) : Party :=
  let sp := pstrip p.pilot
  if sp ≠ [] ∧ pstrip p.alliance = [] then
    if sp ∈ need then
      let v := (oracle sp).1
      if v ≠ [] then { p with alliance := v } else p
    else p
  else p

/-- `esi.enrich_missing_alliances_via_esi` (rows, updated aff_esi, learned
count). -/
def enrichEsi (oracle : Str → Str × Str) (items : List Str) (now : Int)
    (rows : List Row) (affEsi : AffDb) : List Row × AffDb × Nat :=
  let need := collectNeed items rows
  if need = [] then (rows, affEsi, 0)
  else
    let la := need.foldl (esiLearn oracle now) (affEsi, 0)
    let rows2 := rows.map (fun r =>
      ⟨esiFillParty oracle need r.src, esiFillParty oracle need r.tgt⟩)
    (rows2, la.1, la.2)

/-- The first two enrichment passes of `cli.py` (lines 1363-1369), in code
order: persistent pilot-DB backfill first, then the within-fight
cross-reference learn/backfill. -/
def chainFirstTwo (items : List Str) (pilotDb : PilotDb) (rows : List Row) :
    List Row :=
  let rows1 := backfillRowsFromDb pilotDb rows false
  let tmpDb := learnRows (exclPilot items) true [] rows1
  backfillRowsFromDb tmpDb rows1 true

/-- Persistent pilot-DB backfill, corp/alliance only (cli.py 1363). -/
def stA (pilotDb : PilotDb) (rows : List Row) : List Row :=
  backfillRowsFromDb pilotDb rows false

/-- Within-fight cross-reference: learn a throwaway map, backfill with
ship types (cli.py 1367-1369 and again 1400-1408). -/
def stB (items : List Str) (rows : List Row) : List Row :=
  backfillRowsFromDb (learnRows (exclPilot items) true [] rows) rows true

/-- Alliance fill from the log store, then from the ESI store
(cli.py 1374-1375). -/
def stC (affLog affEsi : AffDb) (rows : List Row) : List Row :=
  fillAllianceFromAffDb affEsi (fillAllianceFromAffDb affLog rows)

/-- The guarded ESI fallback (cli.py 1378-1385). -/
def stD (oracle : Str → Str × Str) (items : List Str) (now : Int) (noEsi : Bool)
    (rows : List Row) (affEsi : AffDb) : List Row × AffDb × Nat :=
  if noEsi ∨ rows = [] then (rows, affEsi, 0)
  else enrichEsi oracle items now rows affEsi

/-- The learned-conditional ESI-store refill (cli.py 1388-1390). -/
def stDr (e : List Row × AffDb × Nat) : List Row :=
  if e.2.2 ≠ 0 then fillAllianceFromAffDb e.2.1 e.1 else e.1

/-- Pilot-map corp backfill with the filled-conditional store refill
(cli.py 1392-1397); `affEsi` is the store as updated by the ESI pass. -/
def stE (affLog affEsi : AffDb) (rows : List Row) : List Row :=
  let f := fillMissingCorps (buildPilotToCorp rows) rows
  if f.2 ≠ 0 then fillAllianceFromAffDb affEsi (fillAllianceFromAffDb affLog f.1)
  else f.1

/-- The whole per-fight enrichment chain of `cli.py` lines 1363-1408:
persistent backfill, within-fight cross-reference, alliance fill from the
log and ESI affiliation stores, the ESI fallback with its
learned-conditional refill, the pilot-map corp backfill with its
filled-conditional refill, and the final within-fight pass.  Returns the
enriched rows and the updated `aff_esi` store. -/
def chainOnce (items : List Str) (affLog : AffDb) (oracle : Str → Str × Str)
    (now : Int) (pilotDb : PilotDb) (noEsi : Bool) (s : List Row × AffDb) :
    List Row × AffDb :=
  let r2 := stB items (stA pilotDb s.1)
  let r4 := stC affLog s.2 r2
  let e := stD oracle items now noEsi r4 s.2
  let r8 := stE affLog e.2.1 (stDr e)
  (stB items r8, e.2.1)

/-! ## Characterizations of the per-party transformers -/

/-- The effective pilot-DB view: a missing key reads as the all-blank
record, which the backfill treats identically. -/
def iv (db : PilotDb) (k : Str) : PilotInfo := (alGet db k).getD ⟨[], [], []⟩

theorem iv_alSet_self (db : PilotDb) (k : Str) (v : PilotInfo) :
    iv (alSet db k v) k = v := by
  unfold iv
  rw [alGet_alSet_self]
  rfl

theorem iv_alSet_ne (db : PilotDb) (k : Str) (v : PilotInfo) (k2 : Str)
    (h : k2 ≠ k) : iv (alSet db k v) k2 = iv db k2 := by
  unfold iv
  rw [alGet_alSet_ne _ _ _ _ h]

theorem bp_pilot (db : PilotDb) (f : Bool) (p : Party) :
    (backfillParty db f p).pilot = p.pilot := by
  unfold backfillParty
  by_cases hk : normKey p.pilot = []
  · simp [hk]
  · cases hget : alGet db (normKey p.pilot) with
    | none => simp [hk, hget]
    | some info =>
      by_cases h1 : pstrip p.corp = [] ∧ info.corp ≠ [] <;>
      by_cases h2 : pstrip p.alliance = [] ∧ info.alliance ≠ [] <;>
      by_cases h3 : f = true ∧ pstrip p.ship = [] ∧ info.ship_type ≠ [] <;>
        simp [hk, hget, h1, h2, h3]

theorem bp_corp (db : PilotDb) (f : Bool) (p : Party) :
    (backfillParty db f p).corp =
      if normKey p.pilot ≠ [] ∧ pstrip p.corp = []
          ∧ (iv db (normKey p.pilot)).corp ≠ []
      then (iv db (normKey p.pilot)).corp else p.corp := by
  unfold backfillParty iv
  by_cases hk : normKey p.pilot = []
  · simp [hk]
  · cases hget : alGet db (normKey p.pilot) with
    | none => simp [hk, hget]
    | some info =>
      by_cases h1 : pstrip p.corp = [] ∧ info.corp ≠ [] <;>
      by_cases h2 : pstrip p.alliance = [] ∧ info.alliance ≠ [] <;>
      by_cases h3 : f = true ∧ pstrip p.ship = [] ∧ info.ship_type ≠ [] <;>
        simp [hk, hget, h1, h2, h3]

theorem bp_alliance (db : PilotDb) (f : Bool) (p : Party) :
    (backfillParty db f p).alliance =
      if normKey p.pilot ≠ [] ∧ pstrip p.alliance = []
          ∧ (iv db (normKey p.pilot)).alliance ≠ []
      then (iv db (normKey p.pilot)).alliance else p.alliance := by
  unfold backfillParty iv
  by_cases hk : normKey p.pilot = []
  · simp [hk]
  · cases hget : alGet db (normKey p.pilot) with
    | none => simp [hk, hget]
    | some info =>
      by_cases h1 : pstrip p.corp = [] ∧ info.corp ≠ [] <;>
      by_cases h2 : pstrip p.alliance = [] ∧ info.alliance ≠ [] <;>
      by_cases h3 : f = true ∧ pstrip p.ship = [] ∧ info.ship_type ≠ [] <;>
        simp [hk, hget, h1, h2, h3]

theorem bp_ship (db : PilotDb) (f : Bool) (p : Party) :
    (backfillParty db f p).ship =
      if f = true ∧ normKey p.pilot ≠ [] ∧ pstrip p.ship = []
          ∧ (iv db (normKey p.pilot)).ship_type ≠ []
      then (iv db (normKey p.pilot)).ship_type else p.ship := by
  unfold backfillParty iv
  by_cases hk : normKey p.pilot = []
  · simp [hk]
  · cases hget : alGet db (normKey p.pilot) with
    | none => simp [hk, hget]
    | some info =>
      by_cases h1 : pstrip p.corp = [] ∧ info.corp ≠ [] <;>
      by_cases h2 : pstrip p.alliance = [] ∧ info.alliance ≠ [] <;>
      by_cases h3 : f = true ∧ pstrip p.ship = [] ∧ info.ship_type ≠ [] <;>
        simp [hk, hget, h1, h2, h3]

theorem fillAllianceParty_eq (db : AffDb) (p : Party) :
    fillAllianceParty db p =
      ⟨p.pilot, p.corp,
       if pstrip p.alliance = [] ∧ pstrip p.corp ≠ []
       then ((alGet db (pstrip p.corp)).map AffiliationRecord.alliance).getD p.alliance
       else p.alliance,
       p.ship⟩ := by
  unfold fillAllianceParty
  by_cases h1 : pstrip p.alliance = []
  · by_cases h2 : pstrip p.corp = []
    · simp [h1, h2]
    · cases hget : alGet db (pstrip p.corp) with
      | none => simp [h1, h2, hget]
      | some r => simp [h1, h2, hget]
  · simp [h1]

theorem esiFillParty_eq (oracle : Str → Str × Str) (need : List Str) (p : Party) :
    esiFillParty oracle need p =
      ⟨p.pilot, p.corp,
       if pstrip p.pilot ≠ [] ∧ pstrip p.alliance = [] ∧ pstrip p.pilot ∈ need
          ∧ (oracle (pstrip p.pilot)).1 ≠ []
       then (oracle (pstrip p.pilot)).1 else p.alliance,
       p.ship⟩ := by
  unfold esiFillParty
  by_cases h1 : pstrip p.pilot ≠ [] ∧ pstrip p.alliance = []
  · by_cases h2 : pstrip p.pilot ∈ need
    · by_cases h3 : (oracle (pstrip p.pilot)).1 ≠ [] <;> simp_all
    · simp_all
  · rw [if_neg h1, if_neg (by tauto)]

theorem fillCorpParty_of_corp (m : List (Str × Str)) (p : Party)
    (h : normKey p.corp ≠ []) : fillCorpParty m p = (p, false) := by
  unfold fillCorpParty
  rw [if_pos h]

theorem fillCorpParty_of_keynil (m : List (Str × Str)) (p : Party)
    (h : normKey p.corp = []) (h2 : normKey p.pilot = []) :
    fillCorpParty m p = (p, false) := by
  unfold fillCorpParty
  rw [if_neg (by simp [h]), if_neg (by simp [h2])]

theorem fillCorpParty_of_miss (m : List (Str × Str)) (p : Party)
    (h : normKey p.corp = []) (h2 : alGet m (normKey p.pilot) = none) :
    fillCorpParty m p = (p, false) := by
  unfold fillCorpParty
  rw [if_neg (by simp [h])]
  by_cases h3 : normKey p.pilot ≠ []
  · rw [if_pos h3, h2]
  · rw [if_neg h3]

theorem fillCorpParty_of_hit (m : List (Str × Str)) (p : Party) (c : Str)
    (h : normKey p.corp = []) (h2 : normKey p.pilot ≠ [])
    (h3 : alGet m (normKey p.pilot) = some c) :
    fillCorpParty m p = (⟨p.pilot, c, p.alliance, p.ship⟩, true) := by
  unfold fillCorpParty
  rw [if_neg (by simp [h]), if_pos h2, h3]

/-! ## Row-level plumbing -/

def mapParties (g : Party → Party) (rows : List Row) : List Row :=
  rows.map (fun r => ⟨g r.src, g r.tgt⟩)

theorem backfillRowsFromDb_eq (db : PilotDb) (rows : List Row) (f : Bool) :
    backfillRowsFromDb db rows f = mapParties (backfillParty db f) rows := rfl

theorem fillAllianceFromAffDb_eq (db : AffDb) (rows : List Row) :
    fillAllianceFromAffDb db rows = mapParties (fillAllianceParty db) rows := rfl

theorem partiesOf_mem (p : Party) (rows : List Row) :
    p ∈ partiesOf rows ↔ ∃ r ∈ rows, p = r.src ∨ p = r.tgt := by
  simp only [partiesOf, List.mem_flatMap, List.mem_cons, List.mem_singleton,
    List.not_mem_nil, or_false]

theorem partiesOf_mapParties (g : Party → Party) (rows : List Row) :
    partiesOf (mapParties g rows) = (partiesOf rows).map g := by
  induction rows with
  | nil => rfl
  | cons r rest ih =>
    simp only [mapParties, partiesOf, List.map_cons, List.flatMap_cons] at *
    rw [ih, List.map_append]
    rfl

theorem map_id_of {α : Type} (f : α → α) (l : List α) (h : ∀ x ∈ l, f x = x) :
    l.map f = l := by
  induction l with
  | nil => rfl
  | cons a rest ih =>
    rw [List.map_cons, h a (List.mem_cons_self _ _),
      ih (fun x hx => h x (List.mem_cons_of_mem _ hx))]

theorem mapParties_id_of (g : Party → Party) (rows : List Row)
    (h : ∀ p ∈ partiesOf rows, g p = p) : mapParties g rows = rows := by
  refine map_id_of _ _ ?_
  intro r hr
  have hs : g r.src = r.src :=
    h r.src ((partiesOf_mem _ _).mpr ⟨r, hr, Or.inl rfl⟩)
  have ht : g r.tgt = r.tgt :=
    h r.tgt ((partiesOf_mem _ _).mpr ⟨r, hr, Or.inr rfl⟩)
  rw [hs, ht]

theorem fillMissingCorps_fst (m : List (Str × Str)) (rows : List Row) :
    (fillMissingCorps m rows).1 = mapParties (fun p => (fillCorpParty m p).1) rows := by
  induction rows with
  | nil => rfl
  | cons r rest ih =>
    simp only [fillMissingCorps, List.foldr_cons, mapParties, List.map_cons] at *
    rw [← ih]

theorem fillMissingCorps_snd_zero (m : List (Str × Str)) (rows : List Row)
    (h : ∀ p ∈ partiesOf rows, (fillCorpParty m p).2 = false) :
    (fillMissingCorps m rows).2 = 0 := by
  induction rows with
  | nil => rfl
  | cons r rest ih =>
    have hs := h r.src ((partiesOf_mem _ _).mpr ⟨r, List.mem_cons_self _ _, Or.inl rfl⟩)
    have ht := h r.tgt ((partiesOf_mem _ _).mpr ⟨r, List.mem_cons_self _ _, Or.inr rfl⟩)
    have ih2 := ih (fun p hp => h p (by
      rw [partiesOf_mem] at hp ⊢
      obtain ⟨r2, hr2, ho⟩ := hp
      exact ⟨r2, List.mem_cons_of_mem _ hr2, ho⟩))
    simp only [fillMissingCorps, List.foldr_cons] at ih2 ⊢
    rw [hs, ht, ih2]
    simp

/-! ## Characterization of the learning fold -/

def lastVal (init : Str) (vs : List Str) : Str := vs.foldl (fun _ v => v) init

theorem lastVal_cons (i v : Str) (vs : List Str) :
    lastVal i (v :: vs) = lastVal v vs := rfl

theorem lastVal_mem : ∀ (vs : List Str) (i : Str), lastVal i vs = i ∨ lastVal i vs ∈ vs := by
  intro vs
  induction vs with
  | nil => intro i; exact Or.inl rfl
  | cons v rest ih =>
    intro i
    rw [lastVal_cons]
    rcases ih v with h | h
    · exact Or.inr (by rw [h]; exact List.mem_cons_self _ _)
    · exact Or.inr (List.mem_cons_of_mem _ h)

def learnVals (sel : Party → Str) (excl : Str → Bool) (k : Str)
    (ps : List Party) : List Str :=
  ps.filterMap (fun p =>
    if excl p.pilot = false ∧ normKey p.pilot = k ∧ pstrip (sel p) ≠ []
    then some (pstrip (sel p)) else none)

theorem learnVals_mem (sel : Party → Str) (excl : Str → Bool) (k : Str)
    (ps : List Party) (v : Str) :
    v ∈ learnVals sel excl k ps ↔
      ∃ p ∈ ps, excl p.pilot = false ∧ normKey p.pilot = k
        ∧ pstrip (sel p) = v ∧ v ≠ [] := by
  unfold learnVals
  rw [List.mem_filterMap]
  constructor
  · rintro ⟨p, hp, he⟩
    by_cases hc : excl p.pilot = false ∧ normKey p.pilot = k ∧ pstrip (sel p) ≠ []
    · rw [if_pos hc] at he
      cases he
      exact ⟨p, hp, hc.1, hc.2.1, rfl, hc.2.2⟩
    · rw [if_neg hc] at he
      cases he
  · rintro ⟨p, hp, h1, h2, h3, h4⟩
    refine ⟨p, hp, ?_⟩
    rw [if_pos ⟨h1, h2, by rw [h3]; exact h4⟩, h3]

theorem learnVals_stripped (sel : Party → Str) (excl : Str → Bool) (k : Str)
    (ps : List Party) (v : Str) (h : v ∈ learnVals sel excl k ps) :
    pstrip v = v ∧ v ≠ [] := by
  obtain ⟨p, _, _, _, h3, h4⟩ := (learnVals_mem _ _ _ _ _).mp h
  exact ⟨by rw [← h3]; exact pstrip_idem _, h4⟩

theorem learnVals_eq_nil (sel : Party → Str) (excl : Str → Bool) (k : Str)
    (ps : List Party) :
    learnVals sel excl k ps = [] ↔
      ∀ p ∈ ps, excl p.pilot = false → normKey p.pilot = k → pstrip (sel p) = [] := by
  constructor
  · intro h p hp h1 h2
    by_contra h3
    have : pstrip (sel p) ∈ learnVals sel excl k ps :=
      (learnVals_mem _ _ _ _ _).mpr ⟨p, hp, h1, h2, rfl, h3⟩
    rw [h] at this
    cases this
  · intro h
    unfold learnVals
    rw [List.filterMap_eq_nil]
    intro p hp
    rw [if_neg]
    rintro ⟨h1, h2, h3⟩
    exact h3 (h p hp h1 h2)

theorem ifne_eq (v x : Str) :
    (if v ≠ [] ∧ v ≠ x then v else x) = (if v ≠ [] then v else x) := by
  by_cases h1 : v ≠ []
  · by_cases h2 : v = x
    · rw [if_pos h1, if_neg (by tauto), h2]
    · rw [if_pos h1, if_pos ⟨h1, h2⟩]
  · rw [if_neg h1, if_neg (by tauto)]

theorem ifne3_eq (b : Prop) [Decidable b] (v x : Str) :
    (if b ∧ v ≠ [] ∧ v ≠ x then v else x) = (if b ∧ v ≠ [] then v else x) := by
  by_cases hb : b
  · by_cases h1 : v ≠ []
    · by_cases h2 : v = x
      · rw [if_neg (by tauto), if_pos ⟨hb, h1⟩, h2]
      · rw [if_pos ⟨hb, h1, h2⟩, if_pos ⟨hb, h1⟩]
    · rw [if_neg (by tauto), if_neg (by tauto)]
  · rw [if_neg (by tauto), if_neg (by tauto)]

theorem ite_cases {α : Type} {c : Prop} [Decidable c] {a b : α} (P : α → Prop)
    (ha : P a) (hb : P b) : P (if c then a else b) := by
  by_cases h : c
  · rwa [if_pos h]
  · rwa [if_neg h]

theorem learnParty_iv_ne (excl : Str → Bool) (ls : Bool) (db : PilotDb)
    (p : Party) (k : Str) (h : normKey p.pilot ≠ k) :
    iv (learnParty excl ls db p) k = iv db k := by
  unfold learnParty
  by_cases he : excl p.pilot = true
  · rw [if_pos he]
  · rw [if_neg he]
    by_cases hk : normKey p.pilot = []
    · rw [if_pos hk]
    · rw [if_neg hk]
      dsimp only
      refine ite_cases (fun d => iv d k = iv db k) ?_ ?_
      · exact iv_alSet_ne _ _ _ _ (fun h3 => h h3.symm)
      · rfl

theorem corpStep (v : Str) (cur : PilotInfo) :
    (if v ≠ [] ∧ v ≠ cur.corp then { cur with corp := v } else cur)
      = ⟨if v ≠ [] then v else cur.corp, cur.alliance, cur.ship_type⟩ := by
  by_cases hc : v ≠ [] ∧ v ≠ cur.corp
  · rw [if_pos hc, if_pos hc.1]
  · rw [if_neg hc]
    by_cases h2 : v ≠ []
    · have h3 : v = cur.corp := by tauto
      rw [if_pos h2, h3]
    · rw [if_neg h2]

theorem allianceStep (v : Str) (cur : PilotInfo) :
    (if v ≠ [] ∧ v ≠ cur.alliance then { cur with alliance := v } else cur)
      = ⟨cur.corp, if v ≠ [] then v else cur.alliance, cur.ship_type⟩ := by
  by_cases hc : v ≠ [] ∧ v ≠ cur.alliance
  · rw [if_pos hc, if_pos hc.1]
  · rw [if_neg hc]
    by_cases h2 : v ≠ []
    · have h3 : v = cur.alliance := by tauto
      rw [if_pos h2, h3]
    · rw [if_neg h2]

theorem shipStep (b : Prop) [Decidable b] (v : Str) (cur : PilotInfo) :
    (if b ∧ v ≠ [] ∧ v ≠ cur.ship_type then { cur with ship_type := v } else cur)
      = ⟨cur.corp, cur.alliance, if b ∧ v ≠ [] then v else cur.ship_type⟩ := by
  by_cases hc : b ∧ v ≠ [] ∧ v ≠ cur.ship_type
  · rw [if_pos hc, if_pos ⟨hc.1, hc.2.1⟩]
  · rw [if_neg hc]
    by_cases h2 : b ∧ v ≠ []
    · have h3 : v = cur.ship_type := by tauto
      rw [if_pos h2, h3]
    · rw [if_neg h2]

theorem learnParty_iv_self (excl : Str → Bool) (ls : Bool) (db : PilotDb)
    (p : Party) (he : excl p.pilot = false) (hk : normKey p.pilot ≠ []) :
    iv (learnParty excl ls db p) (normKey p.pilot) =
      ⟨if pstrip p.corp ≠ [] then pstrip p.corp else (iv db (normKey p.pilot)).corp,
       if pstrip p.alliance ≠ [] then pstrip p.alliance
       else (iv db (normKey p.pilot)).alliance,
       if ls = true ∧ pstrip p.ship ≠ [] then pstrip p.ship
       else (iv db (normKey p.pilot)).ship_type⟩ := by
  unfold learnParty iv
  rw [if_neg (by rw [he]; exact Bool.false_ne_true), if_neg hk]
  dsimp only
  rw [corpStep, allianceStep, shipStep]
  dsimp only
  set cur := (alGet db (normKey p.pilot)).getD (⟨[], [], []⟩ : PilotInfo) with hcur
  set S : PilotInfo :=
    ⟨if pstrip p.corp ≠ [] then pstrip p.corp else cur.corp,
     if pstrip p.alliance ≠ [] then pstrip p.alliance else cur.alliance,
     if ls = true ∧ pstrip p.ship ≠ [] then pstrip p.ship else cur.ship_type⟩ with hS
  by_cases hch : S ≠ cur
  · rw [if_pos hch, alGet_alSet_self]
    rfl
  · rw [if_neg hch]
    push_neg at hch
    exact hch.symm

def learnPs (excl : Str → Bool) (ls : Bool) (db : PilotDb) (ps : List Party) :
    PilotDb :=
  ps.foldl (learnParty excl ls) db

theorem learnRows_eq (excl : Str → Bool) (ls : Bool) (db : PilotDb)
    (rows : List Row) : learnRows excl ls db rows = learnPs excl ls db (partiesOf rows) := rfl

theorem learnParty_of_excl (excl : Str → Bool) (ls : Bool) (db : PilotDb)
    (p : Party) (h : excl p.pilot = true) : learnParty excl ls db p = db := by
  unfold learnParty
  rw [if_pos h]

theorem learnVals_cons_pos (sel : Party → Str) (excl : Str → Bool) (k : Str)
    (p : Party) (ps : List Party)
    (h : excl p.pilot = false ∧ normKey p.pilot = k ∧ pstrip (sel p) ≠ []) :
    learnVals sel excl k (p :: ps) = pstrip (sel p) :: learnVals sel excl k ps :=
  List.filterMap_cons_some (by rw [if_pos h])

theorem learnVals_cons_neg (sel : Party → Str) (excl : Str → Bool) (k : Str)
    (p : Party) (ps : List Party)
    (h : ¬ (excl p.pilot = false ∧ normKey p.pilot = k ∧ pstrip (sel p) ≠ [])) :
    learnVals sel excl k (p :: ps) = learnVals sel excl k ps :=
  List.filterMap_cons_none (by rw [if_neg h])

theorem learnPs_char (excl : Str → Bool) (ls : Bool) :
    ∀ (ps : List Party) (db : PilotDb) (k : Str), k ≠ [] →
    iv (learnPs excl ls db ps) k =
      ⟨lastVal (iv db k).corp (learnVals Party.corp excl k ps),
       lastVal (iv db k).alliance (learnVals Party.alliance excl k ps),
       if ls = true then lastVal (iv db k).ship_type (learnVals Party.ship excl k ps)
       else (iv db k).ship_type⟩ := by
  intro ps
  induction ps with
  | nil =>
    intro db k hk
    simp only [learnPs, List.foldl_nil, learnVals, List.filterMap_nil, lastVal]
    rw [ite_self]
  | cons p ps ih =>
    intro db k hk
    have hstep : learnPs excl ls db (p :: ps)
        = learnPs excl ls (learnParty excl ls db p) ps := rfl
    rw [hstep, ih _ k hk]
    by_cases he : excl p.pilot = true
    · rw [learnParty_of_excl _ _ _ _ he,
        learnVals_cons_neg _ _ _ _ _ (by rw [he]; tauto),
        learnVals_cons_neg _ _ _ _ _ (by rw [he]; tauto),
        learnVals_cons_neg _ _ _ _ _ (by rw [he]; tauto)]
    · have he2 : excl p.pilot = false := by
        rw [Bool.not_eq_true] at he
        exact he
      by_cases hkk : normKey p.pilot = k
      · have hk2 : normKey p.pilot ≠ [] := by rw [hkk]; exact hk
        have hself := learnParty_iv_self excl ls db p he2 hk2
        rw [hkk] at hself
        rw [hself]
        dsimp only
        simp only [PilotInfo.mk.injEq]
        refine ⟨?_, ?_, ?_⟩
        · by_cases hvc : pstrip p.corp ≠ []
          · rw [if_pos hvc, learnVals_cons_pos _ _ _ _ _ ⟨he2, hkk, hvc⟩, lastVal_cons]
          · rw [if_neg hvc, learnVals_cons_neg _ _ _ _ _ (by tauto)]
        · by_cases hva : pstrip p.alliance ≠ []
          · rw [if_pos hva, learnVals_cons_pos _ _ _ _ _ ⟨he2, hkk, hva⟩, lastVal_cons]
          · rw [if_neg hva, learnVals_cons_neg _ _ _ _ _ (by tauto)]
        · by_cases hls : ls = true
          · simp only [hls, true_and, if_true]
            by_cases hvs : pstrip p.ship ≠ []
            · rw [if_pos hvs, learnVals_cons_pos _ _ _ _ _ ⟨he2, hkk, hvs⟩, lastVal_cons]
            · rw [if_neg hvs, learnVals_cons_neg _ _ _ _ _ (by tauto)]
          · simp only [if_neg hls]
            rw [if_neg (by tauto)]
      · rw [learnParty_iv_ne _ _ _ _ _ hkk,
          learnVals_cons_neg _ _ _ _ _ (by tauto),
          learnVals_cons_neg _ _ _ _ _ (by tauto),
          learnVals_cons_neg _ _ _ _ _ (by tauto)]

/-! ## The within-fight pass is idempotent -/

theorem party_eq_of (a b : Party) (h1 : a.pilot = b.pilot) (h2 : a.corp = b.corp)
    (h3 : a.alliance = b.alliance) (h4 : a.ship = b.ship) : a = b := by
  cases a
  cases b
  simp_all

theorem iv_nil (k : Str) : iv [] k = ⟨[], [], []⟩ := rfl

theorem lastVal_mem_of_ne_nil (vs : List Str) (i : Str) (h : vs ≠ []) :
    lastVal i vs ∈ vs := by
  cases vs with
  | nil => exact absurd rfl h
  | cons v rest =>
    rw [lastVal_cons]
    rcases lastVal_mem rest v with h2 | h2
    · rw [h2]
      exact List.mem_cons_self _ _
    · exact List.mem_cons_of_mem _ h2

theorem bp_corp_disj (db : PilotDb) (f : Bool) (p : Party) :
    (backfillParty db f p).corp = p.corp ∨
      ((backfillParty db f p).corp = (iv db (normKey p.pilot)).corp
        ∧ normKey p.pilot ≠ [] ∧ pstrip p.corp = []
        ∧ (iv db (normKey p.pilot)).corp ≠ []) := by
  rw [bp_corp]
  by_cases h : normKey p.pilot ≠ [] ∧ pstrip p.corp = []
      ∧ (iv db (normKey p.pilot)).corp ≠ []
  · rw [if_pos h]
    exact Or.inr ⟨rfl, h⟩
  · rw [if_neg h]
    exact Or.inl rfl

theorem bp_alliance_disj (db : PilotDb) (f : Bool) (p : Party) :
    (backfillParty db f p).alliance = p.alliance ∨
      ((backfillParty db f p).alliance = (iv db (normKey p.pilot)).alliance
        ∧ normKey p.pilot ≠ [] ∧ pstrip p.alliance = []
        ∧ (iv db (normKey p.pilot)).alliance ≠ []) := by
  rw [bp_alliance]
  by_cases h : normKey p.pilot ≠ [] ∧ pstrip p.alliance = []
      ∧ (iv db (normKey p.pilot)).alliance ≠ []
  · rw [if_pos h]
    exact Or.inr ⟨rfl, h⟩
  · rw [if_neg h]
    exact Or.inl rfl

theorem bp_ship_disj (db : PilotDb) (f : Bool) (p : Party) :
    (backfillParty db f p).ship = p.ship ∨
      ((backfillParty db f p).ship = (iv db (normKey p.pilot)).ship_type
        ∧ normKey p.pilot ≠ [] ∧ pstrip p.ship = []
        ∧ (iv db (normKey p.pilot)).ship_type ≠ []) := by
  rw [bp_ship]
  by_cases h : f = true ∧ normKey p.pilot ≠ [] ∧ pstrip p.ship = []
      ∧ (iv db (normKey p.pilot)).ship_type ≠ []
  · rw [if_pos h]
    exact Or.inr ⟨rfl, h.2⟩
  · rw [if_neg h]
    exact Or.inl rfl

theorem backfillParty_id_of (db : PilotDb) (f : Bool) (q : Party)
    (hc : ¬ (normKey q.pilot ≠ [] ∧ pstrip q.corp = []
        ∧ (iv db (normKey q.pilot)).corp ≠ []))
    (ha : ¬ (normKey q.pilot ≠ [] ∧ pstrip q.alliance = []
        ∧ (iv db (normKey q.pilot)).alliance ≠ []))
    (hs : ¬ (f = true ∧ normKey q.pilot ≠ [] ∧ pstrip q.ship = []
        ∧ (iv db (normKey q.pilot)).ship_type ≠ [])) :
    backfillParty db f q = q := by
  refine party_eq_of _ _ (bp_pilot _ _ _) ?_ ?_ ?_
  · rw [bp_corp, if_neg hc]
  · rw [bp_alliance, if_neg ha]
  · rw [bp_ship, if_neg hs]

theorem iv_learn_corp (excl : Str → Bool) (ps : List Party) (k : Str)
    (hk : k ≠ []) :
    (iv (learnPs excl true [] ps) k).corp
      = lastVal [] (learnVals Party.corp excl k ps) := by
  rw [learnPs_char excl true ps [] k hk]
  rfl

theorem iv_learn_alliance (excl : Str → Bool) (ps : List Party) (k : Str)
    (hk : k ≠ []) :
    (iv (learnPs excl true [] ps) k).alliance
      = lastVal [] (learnVals Party.alliance excl k ps) := by
  rw [learnPs_char excl true ps [] k hk]
  rfl

theorem iv_learn_ship (excl : Str → Bool) (ps : List Party) (k : Str)
    (hk : k ≠ []) :
    (iv (learnPs excl true [] ps) k).ship_type
      = lastVal [] (learnVals Party.ship excl k ps) := by
  rw [learnPs_char excl true ps [] k hk]
  simp only [if_true]
  rfl

theorem bp_ship_true (db : PilotDb) (p : Party) :
    (backfillParty db true p).ship =
      if normKey p.pilot ≠ [] ∧ pstrip p.ship = []
          ∧ (iv db (normKey p.pilot)).ship_type ≠ []
      then (iv db (normKey p.pilot)).ship_type else p.ship := by
  rw [bp_ship]
  simp

/-- The generic per-field argument: after one learn-and-backfill round, a
second learned map cannot fill the field of any resulting party. -/
theorem learn_backfill_field (excl : Str → Bool) (ps0 : List Party)
    (selP : Party → Str) (selI : PilotInfo → Str) (D : PilotDb) (bf : Party → Party)
    (Hpilot : ∀ p, (bf p).pilot = p.pilot)
    (Hbp : ∀ p, selP (bf p) =
      if normKey p.pilot ≠ [] ∧ pstrip (selP p) = []
          ∧ selI (iv D (normKey p.pilot)) ≠ []
      then selI (iv D (normKey p.pilot)) else selP p)
    (HivD : ∀ kk, kk ≠ [] → selI (iv D kk) = lastVal [] (learnVals selP excl kk ps0))
    (k : Str) (hk : k ≠ []) :
    ∀ q0 ∈ ps0, normKey q0.pilot = k →
      pstrip (selP (bf q0)) = [] →
      lastVal [] (learnVals selP excl k (ps0.map bf)) = [] := by
  intro q0 hq0 hkey hblank
  by_contra hne
  have hvals2 : learnVals selP excl k (ps0.map bf) ≠ [] := by
    intro h0
    rw [h0] at hne
    exact hne rfl
  have hmem := lastVal_mem_of_ne_nil _ [] hvals2
  obtain ⟨p', hp', hex', hkey', hv', hvne⟩ := (learnVals_mem _ _ _ _ _).mp hmem
  obtain ⟨p0', hp0', rfl⟩ := List.mem_map.mp hp'
  rw [Hpilot] at hkey' hex'
  have hvals1_of : pstrip (selP p0') ≠ [] → learnVals selP excl k ps0 ≠ [] := by
    intro hnb h0
    have hin : pstrip (selP p0') ∈ learnVals selP excl k ps0 :=
      (learnVals_mem _ _ _ _ _).mpr ⟨p0', hp0', hex', hkey', rfl, hnb⟩
    rw [h0] at hin
    cases hin
  have hA : selI (iv D k) ≠ [] := by
    have hbp2 := Hbp p0'
    rw [hkey'] at hbp2
    by_cases hcond : k ≠ [] ∧ pstrip (selP p0') = [] ∧ selI (iv D k) ≠ []
    · exact hcond.2.2
    · rw [if_neg hcond] at hbp2
      have hnb : pstrip (selP p0') ≠ [] := by
        rw [← hbp2]
        rw [hv']
        exact hvne
      have hvals1 := hvals1_of hnb
      rw [HivD k hk]
      exact (learnVals_stripped _ _ _ _ _ (lastVal_mem_of_ne_nil _ [] hvals1)).2
  have hbq := Hbp q0
  rw [hkey] at hbq
  by_cases hcq : pstrip (selP q0) = []
  · rw [if_pos ⟨hk, hcq, hA⟩] at hbq
    have hstr : pstrip (selI (iv D k)) = selI (iv D k) := by
      rw [HivD k hk] at hA ⊢
      have hvals1 : learnVals selP excl k ps0 ≠ [] := by
        intro h0
        rw [h0] at hA
        exact hA rfl
      exact (learnVals_stripped _ _ _ _ _ (lastVal_mem_of_ne_nil _ [] hvals1)).1
    rw [hbq, hstr] at hblank
    exact hA hblank
  · rw [if_neg (by tauto)] at hbq
    rw [hbq] at hblank
    exact hcq hblank

/-- The within-fight learn-and-backfill pass is idempotent. -/
theorem stB_idem (items : List Str) (rows : List Row) :
    stB items (stB items rows) = stB items rows := by
  set excl := exclPilot items with hexcl
  set ps0 := partiesOf rows with hps0
  set D := learnPs excl true [] ps0 with hD
  set bf := backfillParty D true with hbf
  have hrows1 : stB items rows = mapParties bf rows := by
    rw [stB, backfillRowsFromDb_eq, learnRows_eq]
  have hparties1 : partiesOf (stB items rows) = ps0.map bf := by
    rw [hrows1, partiesOf_mapParties]
  set D2 := learnPs excl true [] (ps0.map bf) with hD2
  have hlearn2 : learnRows excl true [] (stB items rows) = D2 := by
    rw [learnRows_eq, hparties1]
  rw [stB, hlearn2, backfillRowsFromDb_eq]
  refine mapParties_id_of _ _ ?_
  intro q hq
  rw [hparties1] at hq
  obtain ⟨q0, hq0, rfl⟩ := List.mem_map.mp hq
  have hkeq : normKey (bf q0).pilot = normKey q0.pilot := by
    rw [hbf, bp_pilot]
  by_cases hk : normKey q0.pilot = []
  · refine backfillParty_id_of _ _ _ ?_ ?_ ?_
    · rintro ⟨h1, _, _⟩
      exact h1 (by rw [hkeq, hk])
    · rintro ⟨h1, _, _⟩
      exact h1 (by rw [hkeq, hk])
    · rintro ⟨_, h1, _, _⟩
      exact h1 (by rw [hkeq, hk])
  · refine backfillParty_id_of _ _ _ ?_ ?_ ?_
    · rintro ⟨h1, h2, h3⟩
      rw [hkeq] at h1 h3
      refine h3 ?_
      rw [iv_learn_corp excl _ _ hk]
      exact learn_backfill_field excl ps0 Party.corp PilotInfo.corp D bf
        (fun p => bp_pilot _ _ _) (fun p => bp_corp _ _ _)
        (fun kk hkk => iv_learn_corp excl ps0 kk hkk)
        (normKey q0.pilot) hk q0 hq0 rfl h2
    · rintro ⟨h1, h2, h3⟩
      rw [hkeq] at h1 h3
      refine h3 ?_
      rw [iv_learn_alliance excl _ _ hk]
      exact learn_backfill_field excl ps0 Party.alliance PilotInfo.alliance D bf
        (fun p => bp_pilot _ _ _) (fun p => bp_alliance _ _ _)
        (fun kk hkk => iv_learn_alliance excl ps0 kk hkk)
        (normKey q0.pilot) hk q0 hq0 rfl h2
    · rintro ⟨_, h1, h2, h3⟩
      rw [hkeq] at h1 h3
      refine h3 ?_
      rw [iv_learn_ship excl _ _ hk]
      exact learn_backfill_field excl ps0 Party.ship PilotInfo.ship_type D bf
        (fun p => bp_pilot _ _ _) (fun p => bp_ship_true _ _)
        (fun kk hkk => iv_learn_ship excl ps0 kk hkk)
        (normKey q0.pilot) hk q0 hq0 rfl h2

/-! ## Well-formedness of the stores and blank-monotonicity -/

/-- Affiliation stores whose alliance values do not strip to blank. -/
def WFaff (db : AffDb) : Prop := ∀ k r, alGet db k = some r → pstrip r.alliance ≠ []

/-- Oracles whose alliance answers are empty or do not strip to blank. -/
def WForacle (oracle : Str → Str × Str) : Prop :=
  ∀ p, (oracle p).1 = [] ∨ pstrip (oracle p).1 ≠ []

/-- Pilot stores whose field values are empty or do not strip to blank. -/
def WFiv (db : PilotDb) : Prop :=
  ∀ k, ((iv db k).corp = [] ∨ pstrip (iv db k).corp ≠ [])
    ∧ ((iv db k).alliance = [] ∨ pstrip (iv db k).alliance ≠ [])
    ∧ ((iv db k).ship_type = [] ∨ pstrip (iv db k).ship_type ≠ [])

theorem learnParty_iv_nilkey (excl : Str → Bool) (ls : Bool) (db : PilotDb)
    (p : Party) : iv (learnParty excl ls db p) [] = iv db [] := by
  by_cases hk : normKey p.pilot = []
  · unfold learnParty
    by_cases he : excl p.pilot = true
    · rw [if_pos he]
    · rw [if_neg he, if_pos hk]
  · exact learnParty_iv_ne _ _ _ _ _ hk

theorem learnPs_iv_nil (excl : Str → Bool) (ls : Bool) :
    ∀ (ps : List Party) (db : PilotDb),
    iv (learnPs excl ls db ps) [] = iv db [] := by
  intro ps
  induction ps with
  | nil => intro db; rfl
  | cons p ps ih =>
    intro db
    have hstep : learnPs excl ls db (p :: ps)
        = learnPs excl ls (learnParty excl ls db p) ps := rfl
    rw [hstep, ih, learnParty_iv_nilkey]

theorem lastVal_blank_or (vs : List Str)
    (h : ∀ v ∈ vs, pstrip v = v ∧ v ≠ []) :
    lastVal [] vs = [] ∨ pstrip (lastVal [] vs) ≠ [] := by
  cases hv : vs with
  | nil => exact Or.inl rfl
  | cons a rest =>
    right
    rw [← hv]
    have hmem := lastVal_mem_of_ne_nil vs [] (by rw [hv]; exact List.cons_ne_nil _ _)
    obtain ⟨h1, h2⟩ := h _ hmem
    rw [h1]
    exact h2

theorem learn_WFiv (excl : Str → Bool) (ps : List Party) :
    WFiv (learnPs excl true [] ps) := by
  intro k
  by_cases hk : k = []
  · subst hk
    rw [learnPs_iv_nil]
    exact ⟨Or.inl rfl, Or.inl rfl, Or.inl rfl⟩
  · refine ⟨?_, ?_, ?_⟩
    · rw [iv_learn_corp excl ps k hk]
      exact lastVal_blank_or _ (fun v hv => learnVals_stripped _ _ _ _ _ hv)
    · rw [iv_learn_alliance excl ps k hk]
      exact lastVal_blank_or _ (fun v hv => learnVals_stripped _ _ _ _ _ hv)
    · rw [iv_learn_ship excl ps k hk]
      exact lastVal_blank_or _ (fun v hv => learnVals_stripped _ _ _ _ _ hv)

theorem fa_pilot (db : AffDb) (p : Party) :
    (fillAllianceParty db p).pilot = p.pilot := by
  rw [fillAllianceParty_eq]

theorem fa_corp (db : AffDb) (p : Party) :
    (fillAllianceParty db p).corp = p.corp := by
  rw [fillAllianceParty_eq]

theorem fa_ship (db : AffDb) (p : Party) :
    (fillAllianceParty db p).ship = p.ship := by
  rw [fillAllianceParty_eq]

theorem fa_alliance (db : AffDb) (p : Party) :
    (fillAllianceParty db p).alliance =
      if pstrip p.alliance = [] ∧ pstrip p.corp ≠ []
      then ((alGet db (pstrip p.corp)).map AffiliationRecord.alliance).getD p.alliance
      else p.alliance := by
  rw [fillAllianceParty_eq]

theorem fa_blank_id (db : AffDb) (p : Party) (hWF : WFaff db)
    (h : pstrip (fillAllianceParty db p).alliance = []) :
    fillAllianceParty db p = p := by
  refine party_eq_of _ _ (fa_pilot _ _) (fa_corp _ _) ?_ (fa_ship _ _)
  rw [fa_alliance] at h ⊢
  by_cases hc : pstrip p.alliance = [] ∧ pstrip p.corp ≠ []
  · rw [if_pos hc] at h ⊢
    cases hget : alGet db (pstrip p.corp) with
    | none => rfl
    | some r =>
      rw [hget] at h
      exact absurd (by simpa using h) (hWF _ _ hget)
  · rw [if_neg hc]

theorem esi_pilot (o : Str → Str × Str) (need : List Str) (p : Party) :
    (esiFillParty o need p).pilot = p.pilot := by
  rw [esiFillParty_eq]

theorem esi_corp (o : Str → Str × Str) (need : List Str) (p : Party) :
    (esiFillParty o need p).corp = p.corp := by
  rw [esiFillParty_eq]

theorem esi_ship (o : Str → Str × Str) (need : List Str) (p : Party) :
    (esiFillParty o need p).ship = p.ship := by
  rw [esiFillParty_eq]

theorem esi_alliance (o : Str → Str × Str) (need : List Str) (p : Party) :
    (esiFillParty o need p).alliance =
      if pstrip p.pilot ≠ [] ∧ pstrip p.alliance = [] ∧ pstrip p.pilot ∈ need
          ∧ (o (pstrip p.pilot)).1 ≠ []
      then (o (pstrip p.pilot)).1 else p.alliance := by
  rw [esiFillParty_eq]

theorem esi_blank_id (o : Str → Str × Str) (need : List Str) (p : Party)
    (hWF : WForacle o) (h : pstrip (esiFillParty o need p).alliance = []) :
    esiFillParty o need p = p := by
  refine party_eq_of _ _ (esi_pilot _ _ _) (esi_corp _ _ _) ?_ (esi_ship _ _ _)
  rw [esi_alliance] at h ⊢
  by_cases hc : pstrip p.pilot ≠ [] ∧ pstrip p.alliance = []
      ∧ pstrip p.pilot ∈ need ∧ (o (pstrip p.pilot)).1 ≠ []
  · rw [if_pos hc] at h
    rcases hWF (pstrip p.pilot) with h2 | h2
    · exact absurd h2 hc.2.2.2
    · exact absurd h h2
  · rw [if_neg hc]

theorem bp_blank_back_corp (db : PilotDb) (f : Bool) (p : Party) (hWF : WFiv db)
    (h : pstrip (backfillParty db f p).corp = []) :
    (backfillParty db f p).corp = p.corp ∧ pstrip p.corp = []
      ∧ (normKey p.pilot ≠ [] → (iv db (normKey p.pilot)).corp = []) := by
  rw [bp_corp] at h ⊢
  by_cases hc : normKey p.pilot ≠ [] ∧ pstrip p.corp = []
      ∧ (iv db (normKey p.pilot)).corp ≠ []
  · rw [if_pos hc] at h
    rcases (hWF (normKey p.pilot)).1 with h2 | h2
    · exact absurd h2 hc.2.2
    · exact absurd h h2
  · rw [if_neg hc] at h
    rw [if_neg hc]
    refine ⟨rfl, h, ?_⟩
    intro hk
    by_contra hne
    exact hc ⟨hk, h, hne⟩

theorem bp_blank_back_alliance (db : PilotDb) (f : Bool) (p : Party)
    (hWF : WFiv db) (h : pstrip (backfillParty db f p).alliance = []) :
    (backfillParty db f p).alliance = p.alliance ∧ pstrip p.alliance = []
      ∧ (normKey p.pilot ≠ [] → (iv db (normKey p.pilot)).alliance = []) := by
  rw [bp_alliance] at h ⊢
  by_cases hc : normKey p.pilot ≠ [] ∧ pstrip p.alliance = []
      ∧ (iv db (normKey p.pilot)).alliance ≠ []
  · rw [if_pos hc] at h
    rcases (hWF (normKey p.pilot)).2.1 with h2 | h2
    · exact absurd h2 hc.2.2
    · exact absurd h h2
  · rw [if_neg hc] at h
    rw [if_neg hc]
    refine ⟨rfl, h, ?_⟩
    intro hk
    by_contra hne
    exact hc ⟨hk, h, hne⟩

theorem fc_cases (m : List (Str × Str)) (p : Party) :
    fillCorpParty m p = (p, false) ∨
      ∃ c, alGet m (normKey p.pilot) = some c ∧ normKey p.corp = []
        ∧ normKey p.pilot ≠ []
        ∧ fillCorpParty m p = (⟨p.pilot, c, p.alliance, p.ship⟩, true) := by
  by_cases h1 : normKey p.corp ≠ []
  · exact Or.inl (fillCorpParty_of_corp _ _ h1)
  · rw [not_not] at h1
    by_cases h2 : normKey p.pilot = []
    · exact Or.inl (fillCorpParty_of_keynil _ _ h1 h2)
    · cases h3 : alGet m (normKey p.pilot) with
      | none => exact Or.inl (fillCorpParty_of_miss _ _ h1 h3)
      | some c => exact Or.inr ⟨c, rfl, h1, h2, fillCorpParty_of_hit _ _ _ h1 h2 h3⟩

theorem fc_false (m : List (Str × Str)) (p : Party)
    (h : (fillCorpParty m p).2 = false) : (fillCorpParty m p).1 = p := by
  rcases fc_cases m p with h2 | ⟨c, _, _, _, h2⟩
  · rw [h2]
  · rw [h2] at h
    cases h

theorem fmc_id (m : List (Str × Str)) (rows : List Row)
    (h : (fillMissingCorps m rows).2 = 0) : (fillMissingCorps m rows).1 = rows := by
  induction rows with
  | nil => rfl
  | cons r rest ih =>
    simp only [fillMissingCorps, List.foldr_cons] at h ⊢
    cases hs : (fillCorpParty m r.src).2 with
    | true => rw [hs] at h; simp at h
    | false =>
      cases ht : (fillCorpParty m r.tgt).2 with
      | true => rw [ht] at h; simp at h
      | false =>
        rw [hs, ht] at h
        simp only [Bool.false_eq_true, if_false, Nat.add_zero] at h
        have ih2 := ih h
        simp only [fillMissingCorps] at ih2
        rw [ih2, fc_false _ _ hs, fc_false _ _ ht]

/-! ## The end-state invariants of one chain application -/

/-- No blank-alliance party with a non-blank corp has its corp in the
store: the alliance fill from this store can change nothing. -/
def Jinv (db : AffDb) (rows : List Row) : Prop :=
  ∀ p ∈ partiesOf rows, pstrip p.alliance = [] → pstrip p.corp ≠ [] →
    alGet db (pstrip p.corp) = none

theorem J_of_fill (db : AffDb) (rows : List Row) (hWF : WFaff db) :
    Jinv db (fillAllianceFromAffDb db rows) := by
  intro p2 hp2 hb hc
  rw [fillAllianceFromAffDb_eq, partiesOf_mapParties] at hp2
  obtain ⟨p, hp, rfl⟩ := List.mem_map.mp hp2
  have hid := fa_blank_id db p hWF hb
  rw [hid] at hb hc ⊢
  by_contra hne
  cases hget : alGet db (pstrip p.corp) with
  | none => exact hne hget
  | some r =>
    have hfa := fa_alliance db p
    rw [hid, if_pos ⟨hb, hc⟩, hget] at hfa
    have hfa2 : p.alliance = r.alliance := hfa
    rw [hfa2] at hb
    exact hWF _ _ hget hb

theorem J_map (db : AffDb) (rows : List Row) (T : Party → Party)
    (hT : ∀ p ∈ partiesOf rows, pstrip (T p).alliance = [] → T p = p)
    (hJ : Jinv db rows) : Jinv db (mapParties T rows) := by
  intro p2 hp2 hb hc
  rw [partiesOf_mapParties] at hp2
  obtain ⟨p, hp, rfl⟩ := List.mem_map.mp hp2
  have hid := hT p hp hb
  rw [hid] at hb hc ⊢
  exact hJ p hp hb hc

theorem fillAlliance_id_of_J (db : AffDb) (rows : List Row)
    (hJ : Jinv db rows) : fillAllianceFromAffDb db rows = rows := by
  rw [fillAllianceFromAffDb_eq]
  refine mapParties_id_of _ _ ?_
  intro p hp
  refine party_eq_of _ _ (fa_pilot _ _) (fa_corp _ _) ?_ (fa_ship _ _)
  rw [fa_alliance]
  by_cases hc : pstrip p.alliance = [] ∧ pstrip p.corp ≠ []
  · rw [if_pos hc, hJ p hp hc.1 hc.2]
    rfl
  · rw [if_neg hc]

/-! ## Blankness transfer and the remaining fold characterizations -/

theorem mem_pstrip_or_ws {c : Char} {s : Str} (hc : c ∈ s) :
    c ∈ pstrip s ∨ isPyWs c = true := by
  unfold pstrip
  have hsplit : s.takeWhile isPyWs ++ s.dropWhile isPyWs = s :=
    List.takeWhile_append_dropWhile isPyWs s
  rw [← hsplit] at hc
  rcases List.mem_append.mp hc with h1 | h1
  · exact Or.inr (List.mem_takeWhile_imp h1)
  · have hc2 : c ∈ (s.dropWhile isPyWs).reverse := List.mem_reverse.mpr h1
    have hsplit2 : (s.dropWhile isPyWs).reverse.takeWhile isPyWs
        ++ (s.dropWhile isPyWs).reverse.dropWhile isPyWs
        = (s.dropWhile isPyWs).reverse :=
      List.takeWhile_append_dropWhile isPyWs _
    rw [← hsplit2] at hc2
    rcases List.mem_append.mp hc2 with h2 | h2
    · exact Or.inr (List.mem_takeWhile_imp h2)
    · exact Or.inl (List.mem_reverse.mpr h2)

/-- Stripping does not change whether a string normalizes to blank. -/
theorem normKey_pstrip_nil (s : Str) : normKey (pstrip s) = [] ↔ normKey s = [] := by
  rw [normKey_eq_nil_iff, normKey_eq_nil_iff]
  constructor
  · intro h c hc
    rcases mem_pstrip_or_ws hc with h2 | h2
    · exact h c h2
    · exact Or.inl h2
  · intro h c hc
    exact h c (pstrip_subset hc)

theorem bptc_fold_mem : ∀ (ps : List Party) (m0 : List (Str × Str)) (pk c : Str),
    alGet (ps.foldl bptcStep m0) pk = some c →
    alGet m0 pk = some c ∨
      ∃ p ∈ ps, normKey p.pilot = pk ∧ normKey p.corp = c ∧ c ≠ [] := by
  intro ps
  induction ps with
  | nil => intro m0 pk c h; exact Or.inl h
  | cons p ps ih =>
    intro m0 pk c h
    rw [List.foldl_cons] at h
    rcases ih _ _ _ h with h2 | ⟨q, hq, h3⟩
    · unfold bptcStep at h2
      by_cases hcond : normKey p.pilot ≠ [] ∧ normKey p.corp ≠ []
      · rw [if_pos hcond] at h2
        by_cases hpk : normKey p.pilot = pk
        · rw [hpk, alGet_alSet_self] at h2
          have hcv : normKey p.corp = c := by
            injection h2
          exact Or.inr ⟨p, List.mem_cons_self _ _, hpk, hcv, by rw [← hcv]; exact hcond.2⟩
        · rw [alGet_alSet_ne _ _ _ _ (fun he => hpk he.symm)] at h2
          exact Or.inl h2
      · rw [if_neg hcond] at h2
        exact Or.inl h2
    · exact Or.inr ⟨q, List.mem_cons_of_mem _ hq, h3⟩

theorem bptc_fold_mono : ∀ (ps : List Party) (m0 : List (Str × Str)) (pk : Str),
    (alGet m0 pk).isSome = true → (alGet (ps.foldl bptcStep m0) pk).isSome = true := by
  intro ps
  induction ps with
  | nil => intro m0 pk h; exact h
  | cons p ps ih =>
    intro m0 pk h
    rw [List.foldl_cons]
    refine ih _ _ ?_
    unfold bptcStep
    by_cases hcond : normKey p.pilot ≠ [] ∧ normKey p.corp ≠ []
    · rw [if_pos hcond]
      by_cases hpk : normKey p.pilot = pk
      · rw [hpk, alGet_alSet_self]
        rfl
      · rw [alGet_alSet_ne _ _ _ _ (fun he => hpk he.symm)]
        exact h
    · rw [if_neg hcond]
      exact h

theorem bptc_fold_hit : ∀ (ps : List Party) (m0 : List (Str × Str)) (p : Party),
    p ∈ ps → normKey p.pilot ≠ [] → normKey p.corp ≠ [] →
    (alGet (ps.foldl bptcStep m0) (normKey p.pilot)).isSome = true := by
  intro ps
  induction ps with
  | nil => intro m0 p h; cases h
  | cons q ps ih =>
    intro m0 p hp hk hc
    rw [List.foldl_cons]
    rcases List.mem_cons.mp hp with rfl | hp2
    · refine bptc_fold_mono _ _ _ ?_
      unfold bptcStep
      rw [if_pos ⟨hk, hc⟩, alGet_alSet_self]
      rfl
    · exact ih _ _ hp2 hk hc

/-- Membership characterization of the `need` collection loop. -/
theorem cn_fold_mem (items : List Str) :
    ∀ (ps : List Party) (acc : List Str) (W : Str),
    W ∈ ps.foldl (cnStep items) acc ↔
      W ∈ acc ∨ ∃ p ∈ ps, pstrip p.pilot = W ∧ W ≠ []
        ∧ pstrip p.alliance = [] ∧ okToLookup items W = true := by
  intro ps
  induction ps with
  | nil =>
    intro acc W
    simp only [List.foldl_nil, List.not_mem_nil, false_and, exists_false, or_false]
  | cons p ps ih =>
    intro acc W
    rw [List.foldl_cons, ih]
    unfold cnStep
    by_cases hc : pstrip p.pilot ≠ [] ∧ pstrip p.alliance = []
        ∧ okToLookup items (pstrip p.pilot) = true ∧ ¬ (pstrip p.pilot ∈ acc)
    · rw [if_pos hc]
      constructor
      · rintro (hW | ⟨q, hq, h1, h2, h3, h4⟩)
        · rcases List.mem_append.mp hW with h | h
          · exact Or.inl h
          · rw [List.mem_singleton] at h
            subst h
            exact Or.inr ⟨p, List.mem_cons_self _ _, rfl, hc.1, hc.2.1, hc.2.2.1⟩
        · exact Or.inr ⟨q, List.mem_cons_of_mem _ hq, h1, h2, h3, h4⟩
      · rintro (hW | ⟨q, hq, h1, h2, h3, h4⟩)
        · exact Or.inl (List.mem_append_left _ hW)
        · rcases List.mem_cons.mp hq with rfl | hq2
          · subst h1
            exact Or.inl (List.mem_append_right _ (List.mem_singleton.mpr rfl))
          · exact Or.inr ⟨q, hq2, h1, h2, h3, h4⟩
    · rw [if_neg hc]
      constructor
      · rintro (hW | ⟨q, hq, h1, h2, h3, h4⟩)
        · exact Or.inl hW
        · exact Or.inr ⟨q, List.mem_cons_of_mem _ hq, h1, h2, h3, h4⟩
      · rintro (hW | ⟨q, hq, h1, h2, h3, h4⟩)
        · exact Or.inl hW
        · rcases List.mem_cons.mp hq with rfl | hq2
          · subst h1
            left
            by_contra hmem
            exact hc ⟨h2, h3, h4, hmem⟩
          · exact Or.inr ⟨q, hq2, h1, h2, h3, h4⟩

theorem cn_mem (items : List Str) (rows : List Row) (W : Str) :
    W ∈ collectNeed items rows ↔
      ∃ p ∈ partiesOf rows, pstrip p.pilot = W ∧ W ≠ []
        ∧ pstrip p.alliance = [] ∧ okToLookup items W = true := by
  rw [collectNeed, cn_fold_mem]
  simp only [List.not_mem_nil, false_or]

theorem WFaff_alSet (db : AffDb) (k : Str) (v : AffiliationRecord)
    (hWF : WFaff db) (hv : pstrip v.alliance ≠ []) : WFaff (alSet db k v) := by
  intro k2 r h
  by_cases hk : k2 = k
  · subst hk
    rw [alGet_alSet_self] at h
    injection h with h2
    rw [← h2]
    exact hv
  · rw [alGet_alSet_ne _ _ _ _ hk] at h
    exact hWF _ _ h

theorem el_step_count (o : Str → Str × Str) (now : Int) (acc : AffDb × Nat)
    (W : Str) : (esiLearn o now acc W).2 = acc.2 ∨ (esiLearn o now acc W).2 = acc.2 + 1 := by
  unfold esiLearn
  by_cases hc : (o W).2 ≠ [] ∧ (o W).1 ≠ []
  · rw [if_pos hc]
    cases hget : alGet acc.1 (o W).2 with
    | none => exact Or.inr rfl
    | some r => exact Or.inl rfl
  · rw [if_neg hc]
    exact Or.inl rfl

theorem el_step_keys0 (o : Str → Str × Str) (now : Int) (acc : AffDb × Nat)
    (W : Str) (h : (esiLearn o now acc W).2 = acc.2) (k : Str)
    (hk : alGet acc.1 k = none) : alGet (esiLearn o now acc W).1 k = none := by
  unfold esiLearn at h ⊢
  by_cases hc : (o W).2 ≠ [] ∧ (o W).1 ≠ []
  · rw [if_pos hc] at h ⊢
    cases hget : alGet acc.1 (o W).2 with
    | none =>
      rw [hget] at h
      exact absurd h (Nat.succ_ne_self _)
    | some r =>
      show alGet (alSet acc.1 (o W).2 ⟨(o W).1, r.first_seen, now⟩) k = none
      by_cases hkc : k = (o W).2
      · rw [hkc, hget] at hk
        cases hk
      · rw [alGet_alSet_ne _ _ _ _ hkc]
        exact hk
  · rw [if_neg hc]
    exact hk

theorem el_fold_mono (o : Str → Str × Str) (now : Int) :
    ∀ (need : List Str) (acc : AffDb × Nat),
    acc.2 ≤ (need.foldl (esiLearn o now) acc).2 := by
  intro need
  induction need with
  | nil => intro acc; exact Nat.le_refl _
  | cons W need ih =>
    intro acc
    rw [List.foldl_cons]
    refine Nat.le_trans ?_ (ih (esiLearn o now acc W))
    rcases el_step_count o now acc W with h | h
    · rw [h]
    · rw [h]
      exact Nat.le_succ _

theorem el_fold_keys0 (o : Str → Str × Str) (now : Int) :
    ∀ (need : List Str) (acc : AffDb × Nat),
    (need.foldl (esiLearn o now) acc).2 = acc.2 →
    ∀ k, alGet acc.1 k = none → alGet (need.foldl (esiLearn o now) acc).1 k = none := by
  intro need
  induction need with
  | nil => intro acc _ k hk; exact hk
  | cons W need ih =>
    intro acc htot k hk
    rw [List.foldl_cons] at htot ⊢
    have hmono := el_fold_mono o now need (esiLearn o now acc W)
    have hstep : (esiLearn o now acc W).2 = acc.2 := by
      rcases el_step_count o now acc W with h | h
      · exact h
      · rw [htot] at hmono
        rw [h] at hmono
        exact absurd hmono (Nat.not_succ_le_self _)
    refine ih _ ?_ k (el_step_keys0 o now acc W hstep k hk)
    rw [htot, hstep]

theorem el_fold_WF (o : Str → Str × Str) (now : Int) (hora : WForacle o) :
    ∀ (need : List Str) (acc : AffDb × Nat),
    WFaff acc.1 → WFaff (need.foldl (esiLearn o now) acc).1 := by
  intro need
  induction need with
  | nil => intro acc h; exact h
  | cons W need ih =>
    intro acc h
    rw [List.foldl_cons]
    refine ih _ ?_
    unfold esiLearn
    by_cases hc : (o W).2 ≠ [] ∧ (o W).1 ≠ []
    · rw [if_pos hc]
      have hstr : pstrip (o W).1 ≠ [] := by
        rcases hora W with h2 | h2
        · exact absurd h2 hc.2
        · exact h2
      cases hget : alGet acc.1 (o W).2 with
      | none => exact WFaff_alSet _ _ _ h hstr
      | some r => exact WFaff_alSet _ _ _ h hstr
    · rw [if_neg hc]
      exact h

theorem el_fold_blanks (o : Str → Str × Str) (now : Int) :
    ∀ (need : List Str) (acc : AffDb × Nat),
    (∀ W ∈ need, (o W).1 = []) → need.foldl (esiLearn o now) acc = acc := by
  intro need
  induction need with
  | nil => intro acc _; rfl
  | cons W need ih =>
    intro acc h
    rw [List.foldl_cons]
    have hstep : esiLearn o now acc W = acc := by
      unfold esiLearn
      rw [if_neg]
      rintro ⟨_, h2⟩
      exact h2 (h W (List.mem_cons_self _ _))
    rw [hstep]
    exact ih _ (fun x hx => h x (List.mem_cons_of_mem _ hx))

/-! ## The persistent-store invariant: after one chain application, the
persistent backfill can fill nothing. -/

/-- Every party whose corp (resp. alliance) is still strip-blank has
nothing for it in the persistent store either. -/
def K1 (pdb : PilotDb) (rows : List Row) : Prop :=
  ∀ p ∈ partiesOf rows, normKey p.pilot ≠ [] →
    (pstrip p.corp = [] → (iv pdb (normKey p.pilot)).corp = [])
    ∧ (pstrip p.alliance = [] → (iv pdb (normKey p.pilot)).alliance = [])

/-- A per-party transformer that keeps the pilot and never blanks a
non-blank corp or alliance. -/
def PBack (T : Party → Party) : Prop :=
  ∀ p, (T p).pilot = p.pilot
    ∧ (pstrip (T p).corp = [] → pstrip p.corp = [])
    ∧ (pstrip (T p).alliance = [] → pstrip p.alliance = [])

theorem K1_map (pdb : PilotDb) (rows : List Row) (T : Party → Party)
    (hT : PBack T) (h : K1 pdb rows) : K1 pdb (mapParties T rows) := by
  intro p2 hp2 hk
  rw [partiesOf_mapParties] at hp2
  obtain ⟨p, hp, rfl⟩ := List.mem_map.mp hp2
  obtain ⟨h1, h2, h3⟩ := hT p
  rw [h1] at hk ⊢
  exact ⟨fun hb => (h p hp hk).1 (h2 hb), fun hb => (h p hp hk).2 (h3 hb)⟩

theorem K1_establish (pdb : PilotDb) (rows : List Row) (hWF : WFiv pdb) :
    K1 pdb (stA pdb rows) := by
  intro p2 hp2 hk
  rw [stA, backfillRowsFromDb_eq, partiesOf_mapParties] at hp2
  obtain ⟨p, hp, rfl⟩ := List.mem_map.mp hp2
  rw [bp_pilot] at hk ⊢
  constructor
  · intro hb
    exact (bp_blank_back_corp pdb false p hWF hb).2.2 hk
  · intro hb
    exact (bp_blank_back_alliance pdb false p hWF hb).2.2 hk

theorem stA_id_of_K1 (pdb : PilotDb) (rows : List Row) (h : K1 pdb rows) :
    stA pdb rows = rows := by
  rw [stA, backfillRowsFromDb_eq]
  refine mapParties_id_of _ _ ?_
  intro p hp
  refine backfillParty_id_of _ _ _ ?_ ?_ ?_
  · rintro ⟨h1, h2, h3⟩
    exact h3 ((h p hp h1).1 h2)
  · rintro ⟨h1, h2, h3⟩
    exact h3 ((h p hp h1).2 h2)
  · rintro ⟨h1, _⟩
    cases h1

theorem PBack_bp (db : PilotDb) (f : Bool) (hWF : WFiv db) :
    PBack (backfillParty db f) := by
  intro p
  refine ⟨bp_pilot _ _ _, ?_, ?_⟩
  · intro hb
    exact (bp_blank_back_corp db f p hWF hb).2.1
  · intro hb
    exact (bp_blank_back_alliance db f p hWF hb).2.1

theorem PBack_fa (db : AffDb) (hWF : WFaff db) : PBack (fillAllianceParty db) := by
  intro p
  refine ⟨fa_pilot _ _, ?_, ?_⟩
  · intro hb
    rw [fa_corp] at hb
    exact hb
  · intro hb
    have hid := fa_blank_id db p hWF hb
    rw [hid] at hb
    exact hb

theorem PBack_esi (o : Str → Str × Str) (need : List Str) (hora : WForacle o) :
    PBack (esiFillParty o need) := by
  intro p
  refine ⟨esi_pilot _ _ _, ?_, ?_⟩
  · intro hb
    rw [esi_corp] at hb
    exact hb
  · intro hb
    have hid := esi_blank_id o need p hora hb
    rw [hid] at hb
    exact hb

theorem fc_pilot (m : List (Str × Str)) (p : Party) :
    ((fillCorpParty m p).1).pilot = p.pilot := by
  rcases fc_cases m p with h | ⟨c, _, _, _, h⟩ <;> rw [h]

theorem fc_alliance (m : List (Str × Str)) (p : Party) :
    ((fillCorpParty m p).1).alliance = p.alliance := by
  rcases fc_cases m p with h | ⟨c, _, _, _, h⟩ <;> rw [h]

theorem fc_ship (m : List (Str × Str)) (p : Party) :
    ((fillCorpParty m p).1).ship = p.ship := by
  rcases fc_cases m p with h | ⟨c, _, _, _, h⟩ <;> rw [h]

theorem PBack_fc (rows0 : List Row) :
    PBack (fun p => (fillCorpParty (buildPilotToCorp rows0) p).1) := by
  intro p
  refine ⟨fc_pilot _ _, ?_, ?_⟩
  · intro hb
    have hb2 : pstrip ((fillCorpParty (buildPilotToCorp rows0) p).1).corp = [] := hb
    rcases fc_cases (buildPilotToCorp rows0) p with h | ⟨c, hget, hc0, hk0, h⟩
    · rw [h] at hb2
      exact hb2
    · exfalso
      rw [h] at hb2
      rcases bptc_fold_mem (partiesOf rows0) [] _ _ hget with hbase | ⟨w, _, _, hwc, hcne⟩
      · cases hbase
      · refine pstrip_ne_nil_of_normKey c ?_ hb2
        rw [← hwc]
        refine normKey_normKey_ne _ ?_
        rw [hwc]
        exact hcne
  · intro hb
    have hb2 : pstrip ((fillCorpParty (buildPilotToCorp rows0) p).1).alliance = [] := hb
    rw [fc_alliance] at hb2
    exact hb2

/-! ## Transfer of the store invariant through the final within-fight pass -/

theorem Jinv_of_keys (db db2 : AffDb) (rows : List Row) (hJ : Jinv db rows)
    (hkeys : ∀ k, alGet db k = none → alGet db2 k = none) : Jinv db2 rows :=
  fun p hp hb hc => hkeys _ (hJ p hp hb hc)

theorem learnVals_lastVal_nil (sel : Party → Str) (excl : Str → Bool) (k : Str)
    (ps : List Party) (h : lastVal [] (learnVals sel excl k ps) = []) :
    learnVals sel excl k ps = [] := by
  cases hv : learnVals sel excl k ps with
  | nil => rfl
  | cons a rest =>
    exfalso
    have hmem := lastVal_mem_of_ne_nil (learnVals sel excl k ps) []
      (by rw [hv]; exact List.cons_ne_nil _ _)
    exact (learnVals_stripped _ _ _ _ _ hmem).2 h

/-- The final within-fight pass preserves the end-state invariant: a party
whose alliance it leaves blank got its corp (old or freshly learned) from a
donor that the invariant already covers. -/
theorem J_stB (db : AffDb) (items : List Str) (rows : List Row)
    (hJ : Jinv db rows) : Jinv db (stB items rows) := by
  intro p1 hp1 hb hc
  have hrw : stB items rows
      = mapParties (backfillParty (learnPs (exclPilot items) true []
          (partiesOf rows)) true) rows := by
    rw [stB, backfillRowsFromDb_eq, learnRows_eq]
  rw [hrw, partiesOf_mapParties] at hp1
  obtain ⟨p0, hp0, rfl⟩ := List.mem_map.mp hp1
  have hWFD : WFiv (learnPs (exclPilot items) true [] (partiesOf rows)) :=
    learn_WFiv _ _
  obtain ⟨haeq, hab, haiv⟩ := bp_blank_back_alliance _ true p0 hWFD hb
  rcases bp_corp_disj (learnPs (exclPilot items) true [] (partiesOf rows)) true p0
      with hcor | ⟨hcor, hk0, hblank0, hne0⟩
  · rw [hcor] at hc ⊢
    exact hJ p0 hp0 hab hc
  · rw [hcor] at hc ⊢
    rw [iv_learn_corp _ _ _ hk0] at hc ⊢
    have hvals_ne : learnVals Party.corp (exclPilot items) (normKey p0.pilot)
        (partiesOf rows) ≠ [] := by
      intro h0
      rw [h0] at hc
      exact hc rfl
    have hmem := lastVal_mem_of_ne_nil _ [] hvals_ne
    obtain ⟨w, hw, hex, hkey, hvw, hvne⟩ := (learnVals_mem _ _ _ _ _).mp hmem
    have hivA := haiv hk0
    rw [iv_learn_alliance _ _ _ hk0] at hivA
    have hvalsA := learnVals_lastVal_nil _ _ _ _ hivA
    have hwa : pstrip w.alliance = [] :=
      (learnVals_eq_nil _ _ _ _).mp hvalsA w hw hex hkey
    have hwcne : pstrip w.corp ≠ [] := by
      rw [hvw]
      exact hvne
    have hstr := (learnVals_stripped _ _ _ _ _ hmem).1
    rw [hstr, ← hvw]
    exact hJ w hw hwa hwcne

/-! ## The pilot-map invariant: corp norm-blankness is uniform per pilot key -/

/-- Within one row set, two parties with the same non-blank pilot key agree
on whether their corp normalizes to blank. -/
def Inv5 (rows : List Row) : Prop :=
  ∀ p ∈ partiesOf rows, ∀ q ∈ partiesOf rows,
    normKey p.pilot = normKey q.pilot → normKey p.pilot ≠ [] →
    normKey p.corp = [] → normKey q.corp = []

theorem Inv5_map_cp (rows : List Row) (T : Party → Party)
    (hT : ∀ p, (T p).pilot = p.pilot ∧ (T p).corp = p.corp)
    (h : Inv5 rows) : Inv5 (mapParties T rows) := by
  intro p1 hp1 q1 hq1 hpq hk hpb
  rw [partiesOf_mapParties] at hp1 hq1
  obtain ⟨p0, hp0, rfl⟩ := List.mem_map.mp hp1
  obtain ⟨q0, hq0, rfl⟩ := List.mem_map.mp hq1
  rw [(hT p0).1] at hpq hk
  rw [(hT q0).1] at hpq
  rw [(hT p0).2] at hpb
  rw [(hT q0).2]
  exact h p0 hp0 q0 hq0 hpq hk hpb

/-- The pilot-map corp backfill leaves the row set with uniform per-key
corp blankness: whatever could be filled was filled. -/
theorem Inv5_fc (rows : List Row) :
    Inv5 (mapParties (fun p => (fillCorpParty (buildPilotToCorp rows) p).1) rows) := by
  intro p1 hp1 q1 hq1 hpq hk hpb
  rw [partiesOf_mapParties] at hp1 hq1
  obtain ⟨p0, hp0, rfl⟩ := List.mem_map.mp hp1
  obtain ⟨q0, hq0, rfl⟩ := List.mem_map.mp hq1
  rw [fc_pilot] at hk
  rw [fc_pilot, fc_pilot] at hpq
  have hp_id : fillCorpParty (buildPilotToCorp rows) p0 = (p0, false) := by
    rcases fc_cases (buildPilotToCorp rows) p0 with h | ⟨c, hget, hc0, hk0, h⟩
    · exact h
    · exfalso
      rw [h] at hpb
      rcases bptc_fold_mem (partiesOf rows) [] _ _ hget with hbase | ⟨w, _, _, hwc, hcne⟩
      · cases hbase
      · refine normKey_normKey_ne w.corp ?_ ?_
        · rw [hwc]
          exact hcne
        · rw [hwc]
          exact hpb
  have hpb0 : normKey p0.corp = [] := by
    rw [hp_id] at hpb
    exact hpb
  have hmiss : alGet (buildPilotToCorp rows) (normKey p0.pilot) = none := by
    cases hget : alGet (buildPilotToCorp rows) (normKey p0.pilot) with
    | none => rfl
    | some c =>
      exfalso
      have hhit := fillCorpParty_of_hit (buildPilotToCorp rows) p0 c hpb0 hk hget
      rw [hp_id] at hhit
      have : false = true := congrArg Prod.snd hhit
      cases this
  have hq0b : normKey q0.corp = [] := by
    by_contra hq0ne
    have hkq : normKey q0.pilot ≠ [] := by
      rw [← hpq]
      exact hk
    have hsome : (alGet (buildPilotToCorp rows) (normKey q0.pilot)).isSome = true :=
      bptc_fold_hit (partiesOf rows) [] q0 hq0 hkq hq0ne
    rw [← hpq, hmiss] at hsome
    cases hsome
  have hq_id : fillCorpParty (buildPilotToCorp rows) q0 = (q0, false) := by
    rcases fc_cases (buildPilotToCorp rows) q0 with h | ⟨c, hget, hc0, hk0, h⟩
    · exact h
    · exfalso
      rw [← hpq] at hget
      rw [hmiss] at hget
      cases hget
  rw [hq_id]
  exact hq0b

/-- If corp blankness is already uniform per pilot key, the pilot-map pass
fills nothing. -/
theorem fc_all_false_of_Inv5 (rows : List Row) (h5 : Inv5 rows) :
    ∀ p ∈ partiesOf rows, (fillCorpParty (buildPilotToCorp rows) p).2 = false := by
  intro p hp
  rcases fc_cases (buildPilotToCorp rows) p with h | ⟨c, hget, hcorp, hkey, h⟩
  · rw [h]
  · exfalso
    rcases bptc_fold_mem (partiesOf rows) [] _ _ hget with hbase | ⟨w, hw, hwk, hwc, hcne⟩
    · cases hbase
    · have hwb := h5 p hp w hw hwk.symm hkey hcorp
      rw [hwc] at hwb
      exact hcne hwb

/-- The final within-fight pass preserves per-key corp-blankness uniformity:
learned corp values come from same-key donors. -/
theorem Inv5_stB (items : List Str) (rows : List Row) (h5 : Inv5 rows) :
    Inv5 (stB items rows) := by
  have hrw : stB items rows
      = mapParties (backfillParty (learnPs (exclPilot items) true []
          (partiesOf rows)) true) rows := by
    rw [stB, backfillRowsFromDb_eq, learnRows_eq]
  rw [hrw]
  intro p1 hp1 q1 hq1 hpq hk hpb
  rw [partiesOf_mapParties] at hp1 hq1
  obtain ⟨p0, hp0, rfl⟩ := List.mem_map.mp hp1
  obtain ⟨q0, hq0, rfl⟩ := List.mem_map.mp hq1
  rw [bp_pilot] at hk
  rw [bp_pilot, bp_pilot] at hpq
  have hC : normKey p0.corp = [] := by
    rcases bp_corp_disj (learnPs (exclPilot items) true [] (partiesOf rows)) true p0
        with h | ⟨heq, hk0, hblank0, hne0⟩
    · rw [h] at hpb
      exact hpb
    · exact normKey_eq_nil_of_pstrip _ hblank0
  have hV : ∀ v ∈ learnVals Party.corp (exclPilot items) (normKey p0.pilot)
      (partiesOf rows), normKey v = [] := by
    intro v hv
    obtain ⟨w, hw, hex, hkey, hvw, hvne⟩ := (learnVals_mem _ _ _ _ _).mp hv
    have hwb := h5 p0 hp0 w hw hkey.symm hk hC
    rw [← hvw]
    exact (normKey_pstrip_nil _).mpr hwb
  rcases bp_corp_disj (learnPs (exclPilot items) true [] (partiesOf rows)) true q0
      with h | ⟨heq, hkq, hblankq, hneq⟩
  · rw [h]
    exact h5 p0 hp0 q0 hq0 hpq hk hC
  · rw [heq]
    rw [← hpq] at hneq ⊢
    rw [iv_learn_corp _ _ _ hk] at hneq ⊢
    have hvals_ne : learnVals Party.corp (exclPilot items) (normKey p0.pilot)
        (partiesOf rows) ≠ [] := by
      intro h0
      rw [h0] at hneq
      exact hneq rfl
    exact hV _ (lastVal_mem_of_ne_nil _ [] hvals_ne)

/-! ## Characterization of the guarded ESI stage -/

theorem esi_id_of_blank (o : Str → Str × Str) (need : List Str) (p : Party)
    (h : pstrip p.pilot ∈ need → (o (pstrip p.pilot)).1 = []) :
    esiFillParty o need p = p := by
  refine party_eq_of _ _ (esi_pilot _ _ _) (esi_corp _ _ _) ?_ (esi_ship _ _ _)
  rw [esi_alliance, if_neg]
  rintro ⟨h1, h2, h3, h4⟩
  exact h4 (h h3)

theorem stD_char (o : Str → Str × Str) (items : List Str) (now : Int)
    (noEsi : Bool) (r4 : List Row) (aff : AffDb) :
    (stD o items now noEsi r4 aff = (r4, aff, 0)
      ∧ (noEsi = true ∨ r4 = [] ∨ collectNeed items r4 = []))
    ∨ (collectNeed items r4 ≠ [] ∧ noEsi = false ∧
        stD o items now noEsi r4 aff
          = (mapParties (esiFillParty o (collectNeed items r4)) r4,
             ((collectNeed items r4).foldl (esiLearn o now) (aff, 0)).1,
             ((collectNeed items r4).foldl (esiLearn o now) (aff, 0)).2)) := by
  unfold stD
  by_cases hb : noEsi = true ∨ r4 = []
  · rw [if_pos hb]
    left
    refine ⟨rfl, ?_⟩
    rcases hb with h | h
    · exact Or.inl h
    · exact Or.inr (Or.inl h)
  · rw [if_neg hb]
    push_neg at hb
    by_cases hn : collectNeed items r4 = []
    · left
      constructor
      · simp only [enrichEsi]
        rw [if_pos hn]
      · exact Or.inr (Or.inr hn)
    · right
      refine ⟨hn, ?_, ?_⟩
      · cases hno : noEsi
        · rfl
        · exact absurd hno hb.1
      · simp only [enrichEsi]
        rw [if_neg hn]
        rfl

/-- With an oracle that is blank on everything the row set still needs, the
ESI stage is the identity. -/
theorem stD_fix (o : Str → Str × Str) (items : List Str) (now : Int)
    (noEsi : Bool) (R : List Row) (A1 : AffDb)
    (hneed : ∀ W ∈ collectNeed items R, (o W).1 = []) :
    stD o items now noEsi R A1 = (R, A1, 0) := by
  rcases stD_char o items now noEsi R A1 with ⟨heq, _⟩ | ⟨hn, hno, heq⟩
  · exact heq
  · rw [heq]
    have hmap : mapParties (esiFillParty o (collectNeed items R)) R = R :=
      mapParties_id_of _ _ (fun p hp => esi_id_of_blank _ _ _ (fun hmem => hneed _ hmem))
    have hfold : (collectNeed items R).foldl (esiLearn o now) (A1, 0) = (A1, 0) :=
      el_fold_blanks o now _ _ hneed
    rw [hmap, hfold]

/-- After the fill from the freshly resolved map, a party that is still
blank—and was eligible for lookup—must have had a blank oracle answer. -/
theorem esi_need_blank (o : Str → Str × Str) (items : List Str) (r4 : List Row)
    (hora : WForacle o) (q : Party)
    (hq : q ∈ partiesOf (mapParties (esiFillParty o (collectNeed items r4)) r4))
    (hba : pstrip q.alliance = []) (hpne : pstrip q.pilot ≠ [])
    (hok : okToLookup items (pstrip q.pilot) = true) :
    (o (pstrip q.pilot)).1 = [] := by
  rw [partiesOf_mapParties] at hq
  obtain ⟨q4, hq4, rfl⟩ := List.mem_map.mp hq
  have hid := esi_blank_id o _ q4 hora hba
  rw [hid] at hba hpne hok ⊢
  have hWin : pstrip q4.pilot ∈ collectNeed items r4 :=
    (cn_mem _ _ _).mpr ⟨q4, hq4, rfl, hpne, hba, hok⟩
  by_contra hone
  have hcond := esi_alliance o (collectNeed items r4) q4
  rw [if_pos ⟨hpne, hba, hWin, hone⟩] at hcond
  rw [hid] at hcond
  rcases hora (pstrip q4.pilot) with h2 | h2
  · exact hone h2
  · rw [← hcond] at h2
    exact h2 hba

/-- Invariant propagation through the guarded ESI stage and its
learned-conditional refill. -/
theorem stD_props (items : List Str) (affLog : AffDb) (o : Str → Str × Str)
    (now : Int) (pilotDb : PilotDb) (noEsi : Bool) (r4 : List Row) (aff : AffDb)
    (hora : WForacle o) (hlog : WFaff affLog)
    (hK : K1 pilotDb r4) (hJL : Jinv affLog r4) (hJE : Jinv aff r4)
    (hWA : WFaff aff) :
    K1 pilotDb (stDr (stD o items now noEsi r4 aff))
    ∧ Jinv affLog (stDr (stD o items now noEsi r4 aff))
    ∧ Jinv (stD o items now noEsi r4 aff).2.1 (stDr (stD o items now noEsi r4 aff))
    ∧ WFaff (stD o items now noEsi r4 aff).2.1
    ∧ (noEsi = false →
        ∀ p ∈ partiesOf (stDr (stD o items now noEsi r4 aff)),
          pstrip p.alliance = [] → pstrip p.pilot ≠ [] →
          okToLookup items (pstrip p.pilot) = true →
          (o (pstrip p.pilot)).1 = []) := by
  rcases stD_char o items now noEsi r4 aff with ⟨heq, hwhy⟩ | ⟨hn, hno, heq⟩
  · rw [heq]
    have hdr : stDr ((r4, aff, 0) : List Row × AffDb × Nat) = r4 := by
      unfold stDr
      rw [if_neg (fun h => h rfl)]
    rw [hdr]
    refine ⟨hK, hJL, hJE, hWA, ?_⟩
    intro hnoE p hp hba hpne hok
    rcases hwhy with h | h | h
    · rw [hnoE] at h
      cases h
    · rw [h] at hp
      simp [partiesOf] at hp
    · have hWin : pstrip p.pilot ∈ collectNeed items r4 :=
        (cn_mem items r4 _).mpr ⟨p, hp, rfl, hpne, hba, hok⟩
      rw [h] at hWin
      cases hWin
  · rw [heq]
    have hWA1 : WFaff ((collectNeed items r4).foldl (esiLearn o now) (aff, 0)).1 :=
      el_fold_WF o now hora _ _ hWA
    have hK5 : K1 pilotDb (mapParties (esiFillParty o (collectNeed items r4)) r4) :=
      K1_map _ _ _ (PBack_esi _ _ hora) hK
    have hJL5 : Jinv affLog (mapParties (esiFillParty o (collectNeed items r4)) r4) :=
      J_map _ _ _ (fun p hp hb => esi_blank_id _ _ _ hora hb) hJL
    have hJE5 : Jinv aff (mapParties (esiFillParty o (collectNeed items r4)) r4) :=
      J_map _ _ _ (fun p hp hb => esi_blank_id _ _ _ hora hb) hJE
    by_cases hL : ((collectNeed items r4).foldl (esiLearn o now) (aff, 0)).2 = 0
    · have hdr : stDr ((mapParties (esiFillParty o (collectNeed items r4)) r4,
          ((collectNeed items r4).foldl (esiLearn o now) (aff, 0)).1,
          ((collectNeed items r4).foldl (esiLearn o now) (aff, 0)).2)
            : List Row × AffDb × Nat)
          = mapParties (esiFillParty o (collectNeed items r4)) r4 := by
        unfold stDr
        rw [if_neg (fun h => h hL)]
      rw [hdr]
      refine ⟨hK5, hJL5, ?_, hWA1, ?_⟩
      · exact Jinv_of_keys aff _ _ hJE5 (fun k hk => el_fold_keys0 o now _ _ hL k hk)
      · intro hnoE p hp hba hpne hok
        exact esi_need_blank o items r4 hora p hp hba hpne hok
    · have hdr : stDr ((mapParties (esiFillParty o (collectNeed items r4)) r4,
          ((collectNeed items r4).foldl (esiLearn o now) (aff, 0)).1,
          ((collectNeed items r4).foldl (esiLearn o now) (aff, 0)).2)
            : List Row × AffDb × Nat)
          = fillAllianceFromAffDb
              ((collectNeed items r4).foldl (esiLearn o now) (aff, 0)).1
              (mapParties (esiFillParty o (collectNeed items r4)) r4) := by
        unfold stDr
        rw [if_pos hL]
      rw [hdr]
      refine ⟨?_, ?_, ?_, hWA1, ?_⟩
      · rw [fillAllianceFromAffDb_eq]
        exact K1_map _ _ _ (PBack_fa _ hWA1) hK5
      · rw [fillAllianceFromAffDb_eq]
        exact J_map _ _ _ (fun p hp hb => fa_blank_id _ _ hWA1 hb) hJL5
      · exact J_of_fill _ _ hWA1
      · intro hnoE p hp hba hpne hok
        rw [fillAllianceFromAffDb_eq, partiesOf_mapParties] at hp
        obtain ⟨q5, hq5, rfl⟩ := List.mem_map.mp hp
        have hid1 := fa_blank_id _ q5 hWA1 hba
        rw [hid1] at hba hpne hok ⊢
        exact esi_need_blank o items r4 hora q5 hq5 hba hpne hok

/-! ## Invariant propagation through the remaining stages -/

theorem stB_as_map (items : List Str) (rows : List Row) :
    stB items rows = mapParties (backfillParty (learnPs (exclPilot items) true []
      (partiesOf rows)) true) rows := by
  rw [stB, backfillRowsFromDb_eq, learnRows_eq]

theorem stE_props (affLog A1 : AffDb) (pilotDb : PilotDb) (r6 : List Row)
    (hlog : WFaff affLog) (hWA : WFaff A1)
    (hK : K1 pilotDb r6) (hJL : Jinv affLog r6) (hJE : Jinv A1 r6) :
    K1 pilotDb (stE affLog A1 r6)
    ∧ Jinv affLog (stE affLog A1 r6)
    ∧ Jinv A1 (stE affLog A1 r6)
    ∧ Inv5 (stE affLog A1 r6)
    ∧ (∀ p ∈ partiesOf (stE affLog A1 r6), pstrip p.alliance = [] →
        ∃ q ∈ partiesOf r6, q.pilot = p.pilot ∧ pstrip q.alliance = []) := by
  have hf1 : (fillMissingCorps (buildPilotToCorp r6) r6).1
      = mapParties (fun p => (fillCorpParty (buildPilotToCorp r6) p).1) r6 :=
    fillMissingCorps_fst _ _
  by_cases hcnt : (fillMissingCorps (buildPilotToCorp r6) r6).2 = 0
  · have hse : stE affLog A1 r6 = r6 := by
      simp only [stE]
      rw [if_neg (fun h => h hcnt), fmc_id _ _ hcnt]
    rw [hse]
    refine ⟨hK, hJL, hJE, ?_, ?_⟩
    · have h5 := Inv5_fc r6
      rw [← hf1, fmc_id _ _ hcnt] at h5
      exact h5
    · intro p hp hba
      exact ⟨p, hp, rfl, hba⟩
  · have hse : stE affLog A1 r6
        = fillAllianceFromAffDb A1 (fillAllianceFromAffDb affLog
            (mapParties (fun p => (fillCorpParty (buildPilotToCorp r6) p).1) r6)) := by
      simp only [stE]
      rw [if_pos hcnt, hf1]
    rw [hse]
    refine ⟨?_, ?_, ?_, ?_, ?_⟩
    · rw [fillAllianceFromAffDb_eq A1, fillAllianceFromAffDb_eq affLog]
      exact K1_map _ _ _ (PBack_fa _ hWA)
        (K1_map _ _ _ (PBack_fa _ hlog) (K1_map _ _ _ (PBack_fc r6) hK))
    · rw [fillAllianceFromAffDb_eq A1]
      exact J_map _ _ _ (fun p hp hb => fa_blank_id _ _ hWA hb) (J_of_fill _ _ hlog)
    · exact J_of_fill _ _ hWA
    · rw [fillAllianceFromAffDb_eq A1, fillAllianceFromAffDb_eq affLog]
      exact Inv5_map_cp _ _ (fun p => ⟨fa_pilot _ _, fa_corp _ _⟩)
        (Inv5_map_cp _ _ (fun p => ⟨fa_pilot _ _, fa_corp _ _⟩) (Inv5_fc r6))
    · intro p hp hba
      rw [fillAllianceFromAffDb_eq A1, partiesOf_mapParties] at hp
      obtain ⟨p2, hp2, rfl⟩ := List.mem_map.mp hp
      have hid2 := fa_blank_id _ p2 hWA hba
      rw [hid2] at hba ⊢
      rw [fillAllianceFromAffDb_eq affLog, partiesOf_mapParties] at hp2
      obtain ⟨p3, hp3, rfl⟩ := List.mem_map.mp hp2
      have hid3 := fa_blank_id _ p3 hlog hba
      rw [hid3] at hba ⊢
      rw [partiesOf_mapParties] at hp3
      obtain ⟨p4, hp4, rfl⟩ := List.mem_map.mp hp3
      refine ⟨p4, hp4, (fc_pilot _ _).symm, ?_⟩
      have hba2 : pstrip ((fillCorpParty (buildPilotToCorp r6) p4).1).alliance = [] := hba
      rw [fc_alliance] at hba2
      exact hba2

theorem stB_props (items : List Str) (affLog A1 : AffDb) (pilotDb : PilotDb)
    (rows : List Row)
    (hK : K1 pilotDb rows) (hJL : Jinv affLog rows) (hJE : Jinv A1 rows)
    (h5 : Inv5 rows) :
    K1 pilotDb (stB items rows) ∧ Jinv affLog (stB items rows)
    ∧ Jinv A1 (stB items rows) ∧ Inv5 (stB items rows)
    ∧ (∀ p ∈ partiesOf (stB items rows), pstrip p.alliance = [] →
        ∃ q ∈ partiesOf rows, q.pilot = p.pilot ∧ pstrip q.alliance = []) := by
  refine ⟨?_, J_stB _ _ _ hJL, J_stB _ _ _ hJE, Inv5_stB _ _ h5, ?_⟩
  · rw [stB_as_map]
    exact K1_map _ _ _ (PBack_bp _ _ (learn_WFiv _ _)) hK
  · intro p hp hba
    rw [stB_as_map, partiesOf_mapParties] at hp
    obtain ⟨q, hq, rfl⟩ := List.mem_map.mp hp
    refine ⟨q, hq, (bp_pilot _ _ _).symm, ?_⟩
    exact (bp_blank_back_alliance _ _ _ (learn_WFiv _ _) hba).2.1

/-- The end state of one chain application satisfies every invariant the
second application needs in order to change nothing. -/
theorem chain_out_props (items : List Str) (affLog : AffDb)
    (oracle : Str → Str × Str) (now : Int) (pilotDb : PilotDb) (noEsi : Bool)
    (rows : List Row) (affEsi : AffDb) (R : List Row) (A1 : AffDb)
    (hpdb : WFiv pilotDb) (hlog : WFaff affLog) (hesi : WFaff affEsi)
    (hora : WForacle oracle)
    (hout : chainOnce items affLog oracle now pilotDb noEsi (rows, affEsi) = (R, A1)) :
    stB items R = R ∧ K1 pilotDb R ∧ Jinv affLog R ∧ Jinv A1 R ∧ Inv5 R
    ∧ (noEsi = false → ∀ W ∈ collectNeed items R, (oracle W).1 = []) := by
  have hK1a := K1_establish pilotDb rows hpdb
  have hK2 : K1 pilotDb (stB items (stA pilotDb rows)) := by
    rw [stB_as_map]
    exact K1_map _ _ _ (PBack_bp _ _ (learn_WFiv _ _)) hK1a
  have hK4 : K1 pilotDb (stC affLog affEsi (stB items (stA pilotDb rows))) := by
    rw [stC, fillAllianceFromAffDb_eq affEsi, fillAllianceFromAffDb_eq affLog]
    exact K1_map _ _ _ (PBack_fa _ hesi) (K1_map _ _ _ (PBack_fa _ hlog) hK2)
  have hJL4 : Jinv affLog (stC affLog affEsi (stB items (stA pilotDb rows))) := by
    rw [stC, fillAllianceFromAffDb_eq affEsi]
    exact J_map _ _ _ (fun p hp hb => fa_blank_id _ _ hesi hb) (J_of_fill _ _ hlog)
  have hJE4 : Jinv affEsi (stC affLog affEsi (stB items (stA pilotDb rows))) := by
    rw [stC]
    exact J_of_fill _ _ hesi
  obtain ⟨hK6, hJL6, hJE6, hWA1, hblank6⟩ :=
    stD_props items affLog oracle now pilotDb noEsi
      (stC affLog affEsi (stB items (stA pilotDb rows))) affEsi
      hora hlog hK4 hJL4 hJE4 hesi
  obtain ⟨hK8, hJL8, hJE8, h58, hanc8⟩ :=
    stE_props affLog
      (stD oracle items now noEsi
        (stC affLog affEsi (stB items (stA pilotDb rows))) affEsi).2.1
      pilotDb
      (stDr (stD oracle items now noEsi
        (stC affLog affEsi (stB items (stA pilotDb rows))) affEsi))
      hlog hWA1 hK6 hJL6 hJE6
  obtain ⟨hKR, hJLR, hJER, h5R, hancR⟩ :=
    stB_props items affLog
      (stD oracle items now noEsi
        (stC affLog affEsi (stB items (stA pilotDb rows))) affEsi).2.1
      pilotDb
      (stE affLog
        (stD oracle items now noEsi
          (stC affLog affEsi (stB items (stA pilotDb rows))) affEsi).2.1
        (stDr (stD oracle items now noEsi
          (stC affLog affEsi (stB items (stA pilotDb rows))) affEsi)))
      hK8 hJL8 hJE8 h58
  have hneedR : noEsi = false →
      ∀ W ∈ collectNeed items
        (stB items (stE affLog
          (stD oracle items now noEsi
            (stC affLog affEsi (stB items (stA pilotDb rows))) affEsi).2.1
          (stDr (stD oracle items now noEsi
            (stC affLog affEsi (stB items (stA pilotDb rows))) affEsi)))),
      (oracle W).1 = [] := by
    intro hnoE W hW
    obtain ⟨p, hp, hWp, hWne, hba, hok⟩ := (cn_mem _ _ _).mp hW
    obtain ⟨q8, hq8, hq8p, hq8a⟩ := hancR p hp hba
    obtain ⟨q6, hq6, hq6p, hq6a⟩ := hanc8 q8 hq8 hq8a
    have hpil : pstrip q6.pilot = W := by
      rw [hq6p, hq8p, hWp]
    have hres := hblank6 hnoE q6 hq6 hq6a
      (by rw [hpil]; exact hWne) (by rw [hpil]; exact hok)
    rw [hpil] at hres
    exact hres
  have hform : chainOnce items affLog oracle now pilotDb noEsi (rows, affEsi)
      = (stB items (stE affLog
          (stD oracle items now noEsi
            (stC affLog affEsi (stB items (stA pilotDb rows))) affEsi).2.1
          (stDr (stD oracle items now noEsi
            (stC affLog affEsi (stB items (stA pilotDb rows))) affEsi))),
        (stD oracle items now noEsi
          (stC affLog affEsi (stB items (stA pilotDb rows))) affEsi).2.1) := rfl
  rw [hout] at hform
  have hRr : R = stB items (stE affLog
      (stD oracle items now noEsi
        (stC affLog affEsi (stB items (stA pilotDb rows))) affEsi).2.1
      (stDr (stD oracle items now noEsi
        (stC affLog affEsi (stB items (stA pilotDb rows))) affEsi))) :=
    congrArg Prod.fst hform
  have hAe : A1 = (stD oracle items now noEsi
      (stC affLog affEsi (stB items (stA pilotDb rows))) affEsi).2.1 :=
    congrArg Prod.snd hform
  rw [hRr, hAe]
  exact ⟨stB_idem _ _, hKR, hJLR, hJER, h5R, hneedR⟩

/-- A state satisfying the end-state invariants is a fixed point of the
chain. -/
theorem chainOnce_fix (items : List Str) (affLog : AffDb)
    (oracle : Str → Str × Str) (now : Int) (pilotDb : PilotDb) (noEsi : Bool)
    (R : List Row) (A1 : AffDb)
    (hstB : stB items R = R)
    (hK1 : K1 pilotDb R)
    (hJL : Jinv affLog R) (hJE : Jinv A1 R)
    (h5 : Inv5 R)
    (hneed : noEsi = false → ∀ W ∈ collectNeed items R, (oracle W).1 = []) :
    chainOnce items affLog oracle now pilotDb noEsi (R, A1) = (R, A1) := by
  have h1 : stA pilotDb R = R := stA_id_of_K1 _ _ hK1
  have hD : stD oracle items now noEsi R A1 = (R, A1, 0) := by
    cases hno : noEsi with
    | false => exact stD_fix _ _ _ _ _ _ (hneed hno)
    | true =>
      unfold stD
      rw [if_pos (Or.inl rfl)]
  have hdr : stDr ((R, A1, 0) : List Row × AffDb × Nat) = R := by
    unfold stDr
    rw [if_neg (fun h => h rfl)]
  have hE : stE affLog A1 R = R := by
    have hz : (fillMissingCorps (buildPilotToCorp R) R).2 = 0 :=
      fillMissingCorps_snd_zero _ _ (fc_all_false_of_Inv5 R h5)
    simp only [stE]
    rw [if_neg (fun h => h hz), fmc_id _ _ hz]
  have hC : stC affLog A1 R = R := by
    rw [stC, fillAlliance_id_of_J _ _ hJL, fillAlliance_id_of_J _ _ hJE]
  show (stB items (stE affLog
      (stD oracle items now noEsi (stC affLog A1 (stB items (stA pilotDb R))) A1).2.1
      (stDr (stD oracle items now noEsi (stC affLog A1 (stB items (stA pilotDb R))) A1))),
    (stD oracle items now noEsi (stC affLog A1 (stB items (stA pilotDb R))) A1).2.1)
      = (R, A1)
  rw [h1, hstB, hC, hD, hdr]
  show (stB items (stE affLog A1 R), A1) = (R, A1)
  rw [hE, hstB]

/-! ## Claim C2: idempotence of the enrichment chain -/

/-- Claim C2 as stated: the per-fight enrichment chain of cli.py lines
1363-1408 (with the external lookup modelled as a fixed pure oracle) is
idempotent on every input state — the second application changes no row. -/
def C2Claim : Prop :=
  ∀ (items : List Str) (affLog : AffDb) (oracle : Str → Str × Str) (now : Int)
    (pilotDb : PilotDb) (noEsi : Bool) (s : List Row × AffDb),
    (chainOnce items affLog oracle now pilotDb noEsi
      (chainOnce items affLog oracle now pilotDb noEsi s)).1
      = (chainOnce items affLog oracle now pilotDb noEsi s).1

/-- C2 counterexample: the ESI pass counts only corp keys that are new to
the `aff_esi` store, so an alliance overwrite of an existing key (here the
whitespace-alliance record for corp `"X"`) does not trigger the
learned-conditional refill.  The second application then fills the
`"W"`-row's still-blank alliance from the rewritten store: the chain is not
idempotent. -/
theorem c2_counterexample : ¬ C2Claim := by
  intro h
  have h2 := h [str "w"] []
    (fun p => if p = str "B" then (str "DD", str "X") else ([], [])) 5 [] false
    ([⟨⟨str "B", [], [], []⟩, ⟨[], [], [], []⟩⟩,
      ⟨⟨str "W", str "X", str "  ", []⟩, ⟨[], [], [], []⟩⟩],
     [(str "X", ⟨str "  ", 0, 0⟩)])
  exact absurd h2 (by decide)

/-- C2 amended: under well-formed stores — pilot-store fields and stored or
oracle-returned alliances are either empty or do not strip to blank — the
chain is idempotent: a second application (at any later wall-clock time)
returns the first application's state unchanged. -/
theorem c2_amended (items : List Str) (affLog : AffDb)
    (oracle : Str → Str × Str) (now now2 : Int) (pilotDb : PilotDb)
    (noEsi : Bool) (s : List Row × AffDb)
    (hpdb : WFiv pilotDb) (hlog : WFaff affLog) (hesi : WFaff s.2)
    (hora : WForacle oracle) :
    chainOnce items affLog oracle now2 pilotDb noEsi
      (chainOnce items affLog oracle now pilotDb noEsi s)
      = chainOnce items affLog oracle now pilotDb noEsi s := by
  obtain ⟨rows, affEsi⟩ := s
  obtain ⟨hstB, hK, hJL, hJE, h5, hneed⟩ :=
    chain_out_props items affLog oracle now pilotDb noEsi rows affEsi
      (chainOnce items affLog oracle now pilotDb noEsi (rows, affEsi)).1
      (chainOnce items affLog oracle now pilotDb noEsi (rows, affEsi)).2
      hpdb hlog hesi hora rfl
  exact chainOnce_fix items affLog oracle now2 pilotDb noEsi
    (chainOnce items affLog oracle now pilotDb noEsi (rows, affEsi)).1
    (chainOnce items affLog oracle now pilotDb noEsi (rows, affEsi)).2
    hstB hK hJL hJE h5 hneed

theorem c2_witness :
    chainOnce [] [] (fun x => ([], [])) 1 [] false
      (chainOnce [] [] (fun x => ([], [])) 0 [] false
        ([⟨⟨str "A", str "C", [], []⟩, ⟨[], [], [], []⟩⟩], []))
      = chainOnce [] [] (fun x => ([], [])) 0 [] false
        ([⟨⟨str "A", str "C", [], []⟩, ⟨[], [], [], []⟩⟩], []) :=
  c2_amended [] [] (fun x => ([], [])) 0 1 [] false
    ([⟨⟨str "A", str "C", [], []⟩, ⟨[], [], [], []⟩⟩], [])
    (fun k => ⟨Or.inl rfl, Or.inl rfl, Or.inl rfl⟩)
    (fun k r h => by cases h)
    (fun k r h => by cases h)
    (fun p => Or.inl rfl)

/-! ## Claim C1: priority order of the first two enrichment passes -/

/-- Claim C1 as stated: the in-fight cross-reference pass runs before the
persistent pilot-memory pass, so a blank corp for which the within-fight
map (learned from the fight's rows) holds a value receives that in-fight
value — regardless of what the persistent store would suggest. -/
def C1Claim : Prop :=
  ∀ (items : List Str) (pilotDb : PilotDb) (rows : List Row) (i : Nat) (p : Party),
    (partiesOf rows)[i]? = some p →
    pstrip p.corp = [] →
    normKey p.pilot ≠ [] →
    (iv (learnRows (exclPilot items) true [] rows) (normKey p.pilot)).corp ≠ [] →
    ∃ q, (partiesOf (chainFirstTwo items pilotDb rows))[i]? = some q
      ∧ q.corp = (iv (learnRows (exclPilot items) true [] rows) (normKey p.pilot)).corp

/-- C1 counterexample: `cli.py` runs the persistent backfill FIRST
(line 1363) and every pass is fill-only-if-blank, so when the persistent
store holds `PERS` for the pilot and the fight's own rows would teach
`INFT`, the blank corp ends up `PERS`, not the in-fight value. -/
theorem c1_counterexample : ¬ C1Claim := by
  intro h
  have h2 := h [] [(str "Bob", ⟨str "PERS", [], []⟩)]
    [⟨⟨str "Bob", [], [], []⟩, ⟨str "Bob", str "INFT", [], []⟩⟩] 0
    ⟨str "Bob", [], [], []⟩ (by decide) (by decide) (by decide) (by decide)
  obtain ⟨q, hq, hcorp⟩ := h2
  have hval : (partiesOf (chainFirstTwo [] [(str "Bob", ⟨str "PERS", [], []⟩)]
      [⟨⟨str "Bob", [], [], []⟩, ⟨str "Bob", str "INFT", [], []⟩⟩]))[0]?
      = some (⟨str "Bob", str "PERS", [], []⟩ : Party) := by decide
  rw [hval] at hq
  injection hq with hq2
  rw [← hq2] at hcorp
  exact absurd hcorp (by decide)

/-- C1 corrected: the code applies the passes in the opposite order — the
persistent pilot memory first (cli.py 1363), then the within-fight
cross-reference (1367-1369) — so when both sources could fill the same
blank corp, the PERSISTENT value wins (it being non-blank after stripping,
the in-fight pass no longer touches the field). -/
theorem c1_amended (items : List Str) (pilotDb : PilotDb) (rows : List Row)
    (i : Nat) (p : Party)
    (hp : (partiesOf rows)[i]? = some p)
    (hblank : pstrip p.corp = [])
    (hk : normKey p.pilot ≠ [])
    (hpers : (iv pilotDb (normKey p.pilot)).corp ≠ [])
    (hstr : pstrip (iv pilotDb (normKey p.pilot)).corp ≠ []) :
    ∃ q, (partiesOf (chainFirstTwo items pilotDb rows))[i]? = some q
      ∧ q.corp = (iv pilotDb (normKey p.pilot)).corp := by
  have hform : chainFirstTwo items pilotDb rows
      = mapParties (backfillParty (learnRows (exclPilot items) true []
          (mapParties (backfillParty pilotDb false) rows)) true)
        (mapParties (backfillParty pilotDb false) rows) := rfl
  refine ⟨backfillParty (learnRows (exclPilot items) true []
      (mapParties (backfillParty pilotDb false) rows)) true
      (backfillParty pilotDb false p), ?_, ?_⟩
  · rw [hform, partiesOf_mapParties, partiesOf_mapParties, List.getElem?_map,
      List.getElem?_map, hp]
    rfl
  · have h1 : (backfillParty pilotDb false p).corp
        = (iv pilotDb (normKey p.pilot)).corp := by
      rw [bp_corp, if_pos ⟨hk, hblank, hpers⟩]
    rw [bp_corp, if_neg]
    · exact h1
    · rintro ⟨hx1, hx2, hx3⟩
      rw [h1] at hx2
      exact hstr hx2

theorem c1_witness :
    ∃ q, (partiesOf (chainFirstTwo [] [(str "Bob", ⟨str "PERS", [], []⟩)]
        [⟨⟨str "Bob", [], [], []⟩, ⟨[], [], [], []⟩⟩]))[0]? = some q
      ∧ q.corp = (iv [(str "Bob", ⟨str "PERS", [], []⟩)] (normKey (str "Bob"))).corp :=
  c1_amended [] [(str "Bob", ⟨str "PERS", [], []⟩)]
    [⟨⟨str "Bob", [], [], []⟩, ⟨[], [], [], []⟩⟩] 0 ⟨str "Bob", [], [], []⟩
    (by decide) (by decide) (by decide) (by decide) (by decide)

/-! ## Claim C3: the fill-only-if-blank discipline -/

/-- Claim C3 as stated: in every resolver pass, a field that is non-EMPTY
before the pass keeps exactly its value — for the persistent/in-fight
backfill (corp, alliance, ship), the corp-to-alliance fill and the
external-lookup fill (alliance). -/
def C3Claim : Prop :=
  ∀ (db : PilotDb) (f : Bool) (affDb : AffDb) (o : Str → Str × Str)
    (need : List Str) (p : Party),
    (p.corp ≠ [] → (backfillParty db f p).corp = p.corp)
    ∧ (p.alliance ≠ [] → (backfillParty db f p).alliance = p.alliance)
    ∧ (p.ship ≠ [] → (backfillParty db f p).ship = p.ship)
    ∧ (p.alliance ≠ [] → (fillAllianceParty affDb p).alliance = p.alliance)
    ∧ (p.alliance ≠ [] → (esiFillParty o need p).alliance = p.alliance)

/-- C3 counterexample: the blankness tests strip first, so a non-empty but
whitespace-only corp (`" "`) counts as blank and IS overwritten by the
backfill — non-empty is not the precondition the code honours. -/
theorem c3_counterexample : ¬ C3Claim := by
  intro h
  have h2 := (h [(str "Bob", ⟨str "C", [], []⟩)] false [] (fun x => ([], [])) []
    ⟨str "Bob", str " ", [], []⟩).1 (by decide)
  exact absurd h2 (by decide)

/-- C3 corrected: every pass is fill-only-if-STRIP-blank: a field whose
value does not strip to the empty string is never altered by any of the
passes, whatever the pass's source maps hold. -/
theorem c3_amended (db : PilotDb) (f : Bool) (affDb : AffDb)
    (o : Str → Str × Str) (need : List Str) (p : Party) :
    (pstrip p.corp ≠ [] → (backfillParty db f p).corp = p.corp)
    ∧ (pstrip p.alliance ≠ [] → (backfillParty db f p).alliance = p.alliance)
    ∧ (pstrip p.ship ≠ [] → (backfillParty db f p).ship = p.ship)
    ∧ (pstrip p.alliance ≠ [] → (fillAllianceParty affDb p).alliance = p.alliance)
    ∧ (pstrip p.alliance ≠ [] → (esiFillParty o need p).alliance = p.alliance) := by
  refine ⟨?_, ?_, ?_, ?_, ?_⟩
  · intro hnb
    rw [bp_corp, if_neg]
    rintro ⟨hx1, h2, hx3⟩
    exact hnb h2
  · intro hnb
    rw [bp_alliance, if_neg]
    rintro ⟨hx1, h2, hx3⟩
    exact hnb h2
  · intro hnb
    rw [bp_ship, if_neg]
    rintro ⟨hx0, hx1, h2, hx3⟩
    exact hnb h2
  · intro hnb
    rw [fa_alliance, if_neg]
    rintro ⟨h2, hx1⟩
    exact hnb h2
  · intro hnb
    rw [esi_alliance, if_neg]
    rintro ⟨hx1, h2, hx3⟩
    exact hnb h2

theorem c3_witness :
    pstrip (str "C") ≠ []
    ∧ (backfillParty [(str "Bob", ⟨str "X", str "Y", str "Z"⟩)] true
        ⟨str "Bob", str "C", str "A", str "S"⟩).corp = str "C" := by
  refine ⟨by decide, ?_⟩
  exact (c3_amended [(str "Bob", ⟨str "X", str "Y", str "Z"⟩)] true []
    (fun x => ([], [])) [] ⟨str "Bob", str "C", str "A", str "S"⟩).1 (by decide)

end EveParser
